import Mathlib

/-!
LZ4P block compressor (`drivers/block/zram/lz4p`).

A shallow embedding of `lz4p_compress.c`: the hash functions, the hash-table
accessors, the chunking wrapper `lz4raw_encode_buffer`, the engine
`LZ4_compress_generic` and its entry points `LZ4P_compress_fast_extState`,
`LZ4P_compress_fast` and `LZ4P_compress_default`.

Conventions of the embedding.

* A pointer into the source is the offset from `source`; a pointer into the
  destination is the offset from `dest`.  In `noDict` mode `base`, `lowLimit`
  and `source` coincide, so they are offset `0`.
* The source buffer is a list of bytes; a read past its end yields `0`.
* The destination is a memory `Nat → Byte`; the bytes a call produces are the
  first `ret` bytes of the memory it leaves behind.
* The hash table is a map from the hash to the stored entry.
* `for (;;)`, `do … while` and `goto` are rendered by one step function over
  the two program points every iteration goes through (the head of the probe
  loop and the label `_next_match`), iterated under a step budget; `none`
  means that the budget ran out.
* The engine is embedded for `dict = noDict`, `dictIssue = noDictIssue`, the
  only instance `lz4p_compress.c` creates, and for a 64-bit little-endian
  target (`LZ4_ARCH64`, `LZ4_LITTLE_ENDIAN`), where the table is `byU32` or
  `byU16` and never `byPtr`.
* `trace` is the main loop without the destination memory and `engineStep`
  one pass of it; the invariants of the loop are stated on the program points
  a run visits (`Visits`, `StateInv`) and on the block it emits (`Covers`,
  `matchesOf`).
* The decoder `LZ4P_decompress_safe` is only declared in the sources; it is
  modelled from section 4.5 of the spec, on lists (`decodeLoop`) and on a
  destination memory (`safeDecodeLoop`).
-/

namespace LZ4P

/-! ## Bytes and memories -/

abbrev Byte := Fin 256

/-- Destination memory, indexed by the offset from `dest`. -/
abbrev Mem := Nat → Byte

/-- Hash table, indexed by the hash. -/
abbrev Table := Nat → Nat

/-- The cast `(BYTE)n`. -/
def toByte (n : Nat) : Byte := ⟨n % 256, Nat.mod_lt n (by decide)⟩

/-- The assignment `*p = b`. -/
def store (m : Mem) (p : Nat) (b : Byte) : Mem := fun i => if i = p then b else m i

/-- The assignment `hashTable[h] = v`. -/
def setEntry (t : Table) (h v : Nat) : Table := fun i => if i = h then v else t i

/-- The byte `source[p]` as a number. -/
def readByte (src : List Byte) (p : Nat) : Nat := (src.getD p 0).val

/-- The first `n` bytes of a memory. -/
def outBytes (m : Mem) (n : Nat) : List Byte := (List.range n).map m

/-! ## Constants of `lz4pdefs.h` and `linux/lz4.h` -/

/-- Modelled from the spec: `MINMATCH` of `lz4pdefs.h` (not among the sources), the
"implicit minimum-match constant (4)". -/
abbrev MINMATCH : Nat := 4

/-- Modelled from the spec: `WILDCOPYLENGTH` of `lz4pdefs.h` (not among the sources),
the width of one wild-copy step. -/
abbrev WILDCOPYLENGTH : Nat := 8

/-- Modelled from the spec: `LASTLITERALS` of `lz4pdefs.h` (not among the sources),
the number of trailing bytes that are always literals. -/
abbrev LASTLITERALS : Nat := 5

/-- Modelled from the spec: `MFLIMIT` of `lz4pdefs.h` (not among the sources), the
"fixed trailing safety margin" of the match search,
`WILDCOPYLENGTH + MINMATCH`. -/
abbrev MFLIMIT : Nat := WILDCOPYLENGTH + MINMATCH

/-- Modelled from the spec: `KB` of `lz4pdefs.h` (not among the sources). -/
abbrev KB : Nat := 1 <<< 10

/-- Modelled from the spec: `MAX_DISTANCE` of `lz4pdefs.h` (not among the sources),
"the maximum representable offset (65535 for 2-byte offsets)". -/
abbrev MAX_DISTANCE : Nat := (1 <<< 16) - 1

/-- Modelled from the spec: `ML_BITS` of `lz4pdefs.h` (not among the sources), the
width of the match-length code of a token. -/
abbrev ML_BITS : Nat := 4

/-- Modelled from the spec: `ML_MASK` of `lz4pdefs.h` (not among the sources), the
"4-bit mask threshold (15)" of the match length. -/
abbrev ML_MASK : Nat := (1 <<< ML_BITS) - 1

/-- Modelled from the spec: `RUN_BITS` of `lz4pdefs.h` (not among the sources). -/
abbrev RUN_BITS : Nat := 8 - ML_BITS

/-- Modelled from the spec: `RUN_MASK` of `lz4pdefs.h` (not among the sources), the
"4-bit mask threshold (15)" of the literal length. -/
abbrev RUN_MASK : Nat := (1 <<< RUN_BITS) - 1

/-- Modelled from the spec: `LZ4_SKIPTRIGGER` of `lz4pdefs.h` (not among the
sources), the `SKIP_SHIFT` of the accelerating skip. -/
abbrev LZ4_SKIPTRIGGER : Nat := 6

/-- Modelled from the spec: `LZ4_HASHLOG` of `linux/lz4.h` (not among the sources),
the tunable `H` of the `2^H`-slot table (`LZ4_MEMORY_USAGE - 2`). -/
abbrev LZ4_HASHLOG : Nat := 14 - 2

/-- Modelled from the spec: `LZ4_MAX_INPUT_SIZE` of `linux/lz4.h` (not among the
sources), the largest input one engine call accepts. -/
abbrev LZ4_MAX_INPUT_SIZE : Nat := 0x7E000000

/-- Modelled from the spec: the macro `LZ4_COMPRESSBOUND` of `linux/lz4.h` (not
among the sources), the worst-case output size, `0` for an unsupported size. -/
def LZ4_COMPRESSBOUND (isize : Int) : Int :=
  if isize % 2 ^ 32 > (LZ4_MAX_INPUT_SIZE : Int) then 0 else isize + isize / 255 + 16

/-- `#define LZ4_ACCELERATION_DEFAULT 1`. -/
abbrev LZ4_ACCELERATION_DEFAULT : Int := 1

/-- `static const int LZ4_minLength = (MFLIMIT + 1);` -/
abbrev LZ4_minLength : Nat := MFLIMIT + 1

/-- `static const int LZ4_64Klimit = ((64 * KB) + (MFLIMIT - 1));` -/
abbrev LZ4_64Klimit : Nat := 64 * KB + (MFLIMIT - 1)

/-- Modelled from the spec: `enum tableType_t` of `lz4pdefs.h` (not among the
sources), without `byPtr`, which a 64-bit build never selects. -/
inductive tableType_t
  | byU32
  | byU16
  deriving DecidableEq, Repr

/-- Modelled from the spec: `enum limitedOutput_directive` of `lz4pdefs.h` (not
among the sources): whether "an output bound was supplied". -/
inductive limitedOutput_directive
  | noLimit
  | limitedOutput
  deriving DecidableEq, Repr

open tableType_t limitedOutput_directive

/-! ## Memory helpers of `lz4pdefs.h` -/

/-- Modelled from the spec: `LZ4_read32` of `lz4pdefs.h` (not among the sources), the
"raw 4 bytes" at a position, as a little-endian 32-bit value. -/
def LZ4_read32 (src : List Byte) (p : Nat) : Nat :=
  readByte src p + readByte src (p + 1) <<< 8 + readByte src (p + 2) <<< 16
    + readByte src (p + 3) <<< 24

/-- Modelled from the spec: `LZ4_read_ARCH` of `lz4pdefs.h` (not among the sources),
the 8 bytes at a position as a little-endian 64-bit value. -/
def LZ4_read_ARCH (src : List Byte) (p : Nat) : Nat :=
  LZ4_read32 src p + LZ4_read32 src (p + 4) <<< 32

/-- Modelled from the spec: `LZ4_writeLE16` of `lz4pdefs.h` (not among the sources),
the "2-byte little-endian match offset". -/
def LZ4_writeLE16 (m : Mem) (p v : Nat) : Mem :=
  store (store m p (toByte v)) (p + 1) (toByte (v >>> 8))

/-- Modelled from the spec: `LZ4_write32` of `lz4pdefs.h` (not among the sources),
four bytes stored at a position, least significant first. -/
def LZ4_write32 (m : Mem) (p v : Nat) : Mem :=
  store (store (store (store m p (toByte v)) (p + 1) (toByte (v >>> 8)))
    (p + 2) (toByte (v >>> 16))) (p + 3) (toByte (v >>> 24))

/-- Modelled from the spec: `LZ4_memcpy` of `lz4pdefs.h` (not among the sources):
`n` source bytes from `s` copied to the destination at `d`. -/
def LZ4_memcpy (m : Mem) (d : Nat) (src : List Byte) (s n : Nat) : Mem :=
  fun i => if d ≤ i ∧ i < d + n then src.getD (s + (i - d)) 0 else m i

/-- Modelled from the spec: `LZ4_wildCopy` of `lz4pdefs.h` (not among the sources):
copies the literals from `s` to `d` in steps of 8 bytes, at least one step,
until `e` is reached, so it may write up to 8 bytes past `e`. -/
def LZ4_wildCopy (m : Mem) (d : Nat) (src : List Byte) (s e : Nat) : Mem :=
  LZ4_memcpy m d src s (WILDCOPYLENGTH * max 1 ((e - d + (WILDCOPYLENGTH - 1)) / WILDCOPYLENGTH))

/-- The loop of `LZ4_count`: advance while below the limit and the bytes agree. -/
def countLoop (src : List Byte) (pInLimit : Nat) : Nat → Nat → Nat → Nat
  | 0, pIn, _ => pIn
  | n + 1, pIn, pMatch =>
      if pIn < pInLimit ∧ readByte src pMatch = readByte src pIn then
        countLoop src pInLimit n (pIn + 1) (pMatch + 1)
      else pIn

/-- Modelled from the spec: `LZ4_count` of `lz4pdefs.h` (not among the sources): the
number of bytes from `pIn` on that equal the bytes from `pMatch` on, counted
up to `pInLimit` (the forward extension that "maximizes match length"). -/
def LZ4_count (src : List Byte) (pIn pMatch pInLimit : Nat) : Nat :=
  countLoop src pInLimit (pInLimit - pIn) pIn pMatch - pIn

/-! ## Hash functions and table accessors -/

/-- `LZ4_hash4`. -/
def LZ4_hash4 (sequence : Nat) (tableType : tableType_t) : Nat :=
  if tableType = byU16 then
    ((sequence * 2654435761) % 2 ^ 32) >>> ((MINMATCH * 8) - (LZ4_HASHLOG + 1))
  else
    ((sequence * 2654435761) % 2 ^ 32) >>> ((MINMATCH * 8) - LZ4_HASHLOG)

/-- `LZ4_hash5`, little-endian branch. -/
def LZ4_hash5 (sequence : Nat) (tableType : tableType_t) : Nat :=
  let hashLog := if tableType = byU16 then LZ4_HASHLOG + 1 else LZ4_HASHLOG
  let prime5bytes := 889523592379
  ((((sequence <<< 24) % 2 ^ 64 * prime5bytes) % 2 ^ 64) >>> (64 - hashLog)) % 2 ^ 32

/-- `LZ4_hashPosition`, `LZ4_ARCH64` branch. -/
def LZ4_hashPosition (src : List Byte) (p : Nat) (tableType : tableType_t) : Nat :=
  if tableType = byU32 then LZ4_hash5 (LZ4_read_ARCH src p) tableType
  else LZ4_hash4 (LZ4_read32 src p) tableType

/-- `LZ4_putPositionOnHash`. -/
def LZ4_putPositionOnHash (p h : Nat) (tableBase : Table) (tableType : tableType_t)
    (srcBase : Nat) : Table :=
  match tableType with
  | byU32 => setEntry tableBase h ((p - srcBase) % 2 ^ 32)
  | byU16 => setEntry tableBase h ((p - srcBase) % 2 ^ 16)

/-- `LZ4_putPosition`. -/
def LZ4_putPosition (src : List Byte) (p : Nat) (tableBase : Table) (tableType : tableType_t)
    (srcBase : Nat) : Table :=
  let h := LZ4_hashPosition src p tableType
  LZ4_putPositionOnHash p h tableBase tableType srcBase

/-- `LZ4_getPositionOnHash`. -/
def LZ4_getPositionOnHash (h : Nat) (tableBase : Table) (tableType : tableType_t)
    (srcBase : Nat) : Nat :=
  match tableType with
  | byU32 => tableBase h + srcBase
  | byU16 => tableBase h + srcBase

/-- `LZ4_getPosition`. -/
def LZ4_getPosition (src : List Byte) (p : Nat) (tableBase : Table) (tableType : tableType_t)
    (srcBase : Nat) : Nat :=
  let h := LZ4_hashPosition src p tableType
  LZ4_getPositionOnHash h tableBase tableType srcBase

/-! ## The engine `LZ4_compress_generic` -/

/-- What a call leaves behind: the value returned, the destination memory and
the hash table of the workspace. -/
structure Outcome where
  ret : Nat
  dest : Mem
  table : Table

/-- The parameters of one engine call that never change during the call. -/
structure Env where
  source : List Byte
  inputSize : Nat
  maxOutputSize : Int
  outputLimited : limitedOutput_directive
  tableType : tableType_t
  acceleration : Nat

/-- `iend = ip + inputSize`. -/
def Env.iend (e : Env) : Nat := e.inputSize

/-- `mflimit = iend - MFLIMIT`; only used once `inputSize >= LZ4_minLength`. -/
def Env.mflimit (e : Env) : Nat := e.iend - MFLIMIT

/-- `matchlimit = iend - LASTLITERALS`; only used once
`inputSize >= LZ4_minLength`. -/
def Env.matchlimit (e : Env) : Nat := e.iend - LASTLITERALS

/-- The local variables of the engine that live across loop iterations. -/
structure EngState where
  ip : Nat
  anchor : Nat
  op : Nat
  forwardH : Nat
  table : Table
  dest : Mem

/-- The two program points of the main loop. -/
inductive Label
  /-- The head of the `do … while` probe loop, with `forwardIp`, `step` and
  `searchMatchNb`. -/
  | findMatch (forwardIp step searchMatchNb : Nat)
  /-- The label `_next_match`, with `match` and `token`. -/
  | nextMatch (mtch token : Nat)
  deriving DecidableEq, Repr

/-- The loops `for (; len >= 255; len -= 255) *op++ = 255; *op++ = (BYTE)len;`
of "Encode Literals" and "Encode Last Literals" (the first argument bounds the
number of iterations). -/
def writeLength : Nat → Mem → Nat → Nat → Mem × Nat
  | 0, m, op, len => (store m op (toByte len), op + 1)
  | n + 1, m, op, len =>
      if len ≥ 255 then writeLength n (store m op (toByte 255)) (op + 1) (len - 255)
      else (store m op (toByte len), op + 1)

/-- The "Catch up" loop (the first argument bounds the number of iterations):
returns the new `ip` and `match`. -/
def catchUp (src : List Byte) (anchor lowLimit : Nat) : Nat → Nat → Nat → Nat × Nat
  | 0, ip, mtch => (ip, mtch)
  | n + 1, ip, mtch =>
      if (ip > anchor ∧ mtch > lowLimit) ∧ readByte src (ip - 1) = readByte src (mtch - 1) then
        catchUp src anchor lowLimit n (ip - 1) (mtch - 1)
      else (ip, mtch)

/-- The block "Encode Literals" with "Copy Literals": `none` is `return 0`,
otherwise the `token` pointer, the new `op` and the new destination. -/
def encodeLiterals (e : Env) (ip anchor op : Nat) (dest : Mem) : Option (Nat × Nat × Mem) :=
  let litLength := ip - anchor
  let token := op
  let op := op + 1
  if e.outputLimited = limitedOutput ∧
      ((op + litLength + (2 + 1 + LASTLITERALS) + litLength / 255 : Nat) : Int)
        > e.maxOutputSize then
    none
  else
    let r :=
      if litLength ≥ RUN_MASK then
        let len := litLength - RUN_MASK
        writeLength len (store dest token (toByte (RUN_MASK <<< ML_BITS))) op len
      else (store dest token (toByte (litLength <<< ML_BITS)), op)
    let dest := LZ4_wildCopy r.1 r.2 e.source anchor (r.2 + litLength)
    some (token, r.2 + litLength, dest)

/-- The loop `while (matchCode >= 4 * 255) { op += 4; LZ4_write32(op,
0xFFFFFFFF); matchCode -= 4 * 255; }` (the first argument bounds the number of
iterations): the new destination, `op` and `matchCode`. -/
def matchLengthLoop : Nat → Mem → Nat → Nat → Mem × Nat × Nat
  | 0, m, op, matchCode => (m, op, matchCode)
  | n + 1, m, op, matchCode =>
      if matchCode ≥ 4 * 255 then
        matchLengthLoop n (LZ4_write32 m (op + 4) 0xFFFFFFFF) (op + 4) (matchCode - 4 * 255)
      else (m, op, matchCode)

/-- The writes of "Encode MatchLength" after the overflow check: the new
destination and `op`. -/
def encodeMatchLength (dest : Mem) (op token matchCode : Nat) : Mem × Nat :=
  if matchCode ≥ ML_MASK then
    let dest := store dest token (toByte ((dest token).val + ML_MASK))
    let matchCode := matchCode - ML_MASK
    let dest := LZ4_write32 dest op 0xFFFFFFFF
    let r := matchLengthLoop matchCode dest op matchCode
    let op := r.2.1 + r.2.2 / 255
    (store r.1 op (toByte (r.2.2 % 255)), op + 1)
  else
    (store dest token (toByte ((dest token).val + matchCode)), op)

/-- The block `_last_literals`: "Encode Last Literals" and the final return. -/
def lastLiterals (e : Env) (anchor op : Nat) (dest : Mem) (table : Table) : Outcome :=
  let lastRun := e.iend - anchor
  if e.outputLimited = limitedOutput ∧
      ((op + lastRun + 1 + (lastRun + 255 - RUN_MASK) / 255 : Nat) : Int)
        > e.maxOutputSize % 2 ^ 32 then
    ⟨0, dest, table⟩
  else
    let r :=
      if lastRun ≥ RUN_MASK then
        let accumulator := lastRun - RUN_MASK
        writeLength accumulator (store dest op (toByte (RUN_MASK <<< ML_BITS))) (op + 1)
          accumulator
      else (store dest op (toByte (lastRun <<< ML_BITS)), op + 1)
    let dest := LZ4_memcpy r.1 r.2 e.source anchor lastRun
    ⟨r.2 + lastRun, dest, table⟩

/-- The main loop `for ( ; ; )`, entered at a program point.  The first
argument is the step budget: one unit per probe and per encoded match. -/
def run (e : Env) : Nat → Label → EngState → Option Outcome
  | 0, _, _ => none
  | fuel + 1, .findMatch forwardIp step searchMatchNb, st =>
      -- one iteration of the probe loop
      let h := st.forwardH
      let ip := forwardIp
      let forwardIp := forwardIp + step
      let step := searchMatchNb >>> LZ4_SKIPTRIGGER
      let searchMatchNb := (searchMatchNb + 1) % 2 ^ 32
      if forwardIp > e.mflimit then
        some (lastLiterals e st.anchor st.op st.dest st.table)
      else
        let mtch := LZ4_getPositionOnHash h st.table e.tableType 0
        let forwardH := LZ4_hashPosition e.source forwardIp e.tableType
        let table := LZ4_putPositionOnHash ip h st.table e.tableType 0
        if (if e.tableType = byU16 then False else mtch + MAX_DISTANCE < ip)
            ∨ LZ4_read32 e.source mtch ≠ LZ4_read32 e.source ip then
          run e fuel (.findMatch forwardIp step searchMatchNb)
            { st with ip := ip, forwardH := forwardH, table := table }
        else
          -- Catch up
          let c := catchUp e.source st.anchor 0 ip ip mtch
          -- Encode Literals
          match encodeLiterals e c.1 st.anchor st.op st.dest with
          | none => some ⟨0, st.dest, table⟩
          | some (token, op, dest) =>
              run e fuel (.nextMatch c.2 token)
                { st with ip := c.1, op := op, forwardH := forwardH, table := table,
                          dest := dest }
  | fuel + 1, .nextMatch mtch token, st =>
      -- Encode Offset
      let dest := LZ4_writeLE16 st.dest st.op (((st.ip : Int) - (mtch : Int)) % 2 ^ 16).toNat
      let op := st.op + 2
      -- Encode MatchLength
      let matchCode := LZ4_count e.source (st.ip + MINMATCH) (mtch + MINMATCH) e.matchlimit
      let ip := st.ip + (MINMATCH + matchCode)
      if e.outputLimited = limitedOutput ∧
          ((op + (1 + LASTLITERALS) + matchCode >>> 8 : Nat) : Int) > e.maxOutputSize then
        some ⟨0, dest, st.table⟩
      else
        let w := encodeMatchLength dest op token matchCode
        let dest := w.1
        let op := w.2
        let anchor := ip
        -- Test end of chunk
        if ip > e.mflimit then
          some (lastLiterals e anchor op dest st.table)
        else
          -- Fill table
          let table := LZ4_putPosition e.source (ip - 2) st.table e.tableType 0
          -- Test next position
          let mtch := LZ4_getPosition e.source ip table e.tableType 0
          let table := LZ4_putPosition e.source ip table e.tableType 0
          if mtch + MAX_DISTANCE ≥ ip ∧ LZ4_read32 e.source mtch = LZ4_read32 e.source ip then
            run e fuel (.nextMatch mtch op)
              { st with ip := ip, anchor := anchor, op := op + 1, table := table,
                        dest := store dest op (toByte 0) }
          else
            -- Prepare next loop
            run e fuel (.findMatch (ip + 1) 1 ((e.acceleration <<< LZ4_SKIPTRIGGER) % 2 ^ 32))
              { ip := ip + 1, anchor := anchor, op := op,
                forwardH := LZ4_hashPosition e.source (ip + 1) e.tableType,
                table := table, dest := dest }

/-- `LZ4_compress_generic` for `dict = noDict`, `dictIssue = noDictIssue`.  The
budget `2 * inputSize + 8` of the main loop is generous: every probe and every
match moves a cursor forward. -/
def LZ4_compress_generic (table : Table) (source : List Byte) (dest : Mem)
    (inputSize maxOutputSize : Int) (outputLimited : limitedOutput_directive)
    (tableType : tableType_t) (acceleration : Nat) : Option Outcome :=
  -- Init conditions
  if inputSize % 2 ^ 32 > (LZ4_MAX_INPUT_SIZE : Int) then
    some ⟨0, dest, table⟩
  else if tableType = byU16 ∧ inputSize ≥ (LZ4_64Klimit : Int) then
    some ⟨0, dest, table⟩
  else
    let e : Env := ⟨source, inputSize.toNat, maxOutputSize, outputLimited, tableType,
      acceleration⟩
    if inputSize < (LZ4_minLength : Int) then
      some (lastLiterals e 0 0 dest table)
    else
      -- First Byte
      let table := LZ4_putPosition source 0 table tableType 0
      let ip := 1
      let forwardH := LZ4_hashPosition source ip tableType
      run e (2 * inputSize.toNat + 8)
        (.findMatch ip 1 ((acceleration <<< LZ4_SKIPTRIGGER) % 2 ^ 32))
        ⟨ip, 0, 0, forwardH, table, dest⟩

/-! ## Streaming functions -/

/-- Modelled from the spec: `LZ4_stream_t_internal` of `linux/lz4.h` (not among
the sources): the hash table and the dictionary bookkeeping of the workspace. -/
structure LZ4_stream_t_internal where
  hashTable : Table
  currentOffset : Nat
  initCheck : Nat
  dictionary : Nat
  dictSize : Nat

/-- `LZ4P_resetStream`: `memset(LZ4_stream, 0, sizeof(LZ4_stream_t))`. -/
def LZ4P_resetStream (_LZ4_stream : LZ4_stream_t_internal) : LZ4_stream_t_internal :=
  ⟨fun _ => 0, 0, 0, 0, 0⟩

/-- `LZ4P_compress_fast_extState`; `state = none` is the null pointer. -/
def LZ4P_compress_fast_extState (state : Option LZ4_stream_t_internal) (source : List Byte)
    (dest : Mem) (inputSize maxOutputSize acceleration : Int) : Option Outcome :=
  match state with
  | none => some ⟨0, dest, fun _ => 0⟩
  | some s =>
      let ctx := LZ4P_resetStream s
      let acceleration := if acceleration < 1 then LZ4_ACCELERATION_DEFAULT else acceleration
      if maxOutputSize ≥ LZ4_COMPRESSBOUND inputSize then
        if inputSize < (LZ4_64Klimit : Int) then
          LZ4_compress_generic ctx.hashTable source dest inputSize 0 noLimit byU16
            acceleration.toNat
        else
          LZ4_compress_generic ctx.hashTable source dest inputSize 0 noLimit byU32
            acceleration.toNat
      else
        if inputSize < (LZ4_64Klimit : Int) then
          LZ4_compress_generic ctx.hashTable source dest inputSize maxOutputSize limitedOutput
            byU16 acceleration.toNat
        else
          LZ4_compress_generic ctx.hashTable source dest inputSize maxOutputSize limitedOutput
            byU32 acceleration.toNat

/-- `LZ4P_compress_fast`. -/
def LZ4P_compress_fast (source : List Byte) (dest : Mem) (inputSize maxOutputSize acceleration : Int)
    (wrkmem : Option LZ4_stream_t_internal) : Option Outcome :=
  LZ4P_compress_fast_extState wrkmem source dest inputSize maxOutputSize acceleration

/-- `LZ4P_compress_default`. -/
def LZ4P_compress_default (source : List Byte) (dest : Mem) (inputSize maxOutputSize : Int)
    (wrkmem : Option LZ4_stream_t_internal) : Option Outcome :=
  LZ4P_compress_fast source dest inputSize maxOutputSize LZ4_ACCELERATION_DEFAULT wrkmem

/-- The bytes a call produced: the first `ret` bytes of the destination. -/
def Outcome.bytes (o : Outcome) : List Byte := outBytes o.dest o.ret

/-- What the caller observes of a call: the value returned and the bytes
produced (`none` when the budget of the embedding ran out). -/
def observed (o : Option Outcome) : Option (Nat × List Byte) :=
  o.map fun x => (x.ret, x.bytes)

/-! ## The chunking wrapper `lz4raw_encode_buffer` -/

/-- `struct lz4_hash_entry_t` of `lz4p_compress.h`. -/
structure lz4_hash_entry_t where
  offset : Nat
  word : Nat
  deriving DecidableEq, Repr

/-- `#define LZ4_COMPRESS_HASH_BITS 10` -/
abbrev LZ4_COMPRESS_HASH_BITS : Nat := 10

/-- `#define LZ4_COMPRESS_HASH_ENTRIES (1 << LZ4_COMPRESS_HASH_BITS)` -/
abbrev LZ4_COMPRESS_HASH_ENTRIES : Nat := 1 <<< LZ4_COMPRESS_HASH_BITS

/-- `#define LZ4_DISTANCE_BOUND 65536` -/
abbrev LZ4_DISTANCE_BOUND : Nat := 65536

/-- `const struct lz4_hash_entry_t HASH_FILL = { .offset = 0x80000000, .word = 0x0 };` -/
def HASH_FILL : lz4_hash_entry_t := ⟨0x80000000, 0x0⟩

/-- `const size_t BLOCK_SIZE_2G = 0x7ffff000;` -/
abbrev BLOCK_SIZE_2G : Nat := 0x7ffff000

/-- The hash table of the wrapper, indexed by the entry number. -/
abbrev RawTable := Nat → lz4_hash_entry_t

/-- What one call of the per-chunk engine leaves behind: the advanced `*dst_ptr`
and `*src_ptr`, the hash table and the destination memory. -/
structure EncodeOut where
  dst : Nat
  src : Nat
  hashTable : RawTable
  mem : Mem

/-- The per-chunk engine `_lz4_encode_2gb`, declared `extern` in
`lz4p_compress.c` and defined outside the repository's C sources: a parameter
of the wrapper.  Its arguments are `*dst_ptr`, `dst_size`, `*src_ptr`,
`src_begin`, `src_size`, the hash table, `skip_final_literals` and the
destination memory. -/
abbrev Encoder := Nat → Nat → Nat → Nat → Int → RawTable → Bool → Mem → EncodeOut

/-- The variables of `lz4raw_encode_buffer` that live across iterations of the
`while` loop. -/
structure RawState where
  src : Nat
  dst : Nat
  src_size : Nat
  dst_size : Nat
  hashTable : RawTable
  mem : Mem

/-- The `for` loop filling the table, four entries per iteration (the first
argument bounds the number of iterations). -/
def hashFillLoop : Nat → Nat → RawTable → RawTable
  | 0, _, t => t
  | n + 1, i, t =>
      if i < LZ4_COMPRESS_HASH_ENTRIES then
        hashFillLoop n (i + 4)
          (fun j => if j = i ∨ j = i + 1 ∨ j = i + 2 ∨ j = i + 3 then HASH_FILL else t j)
      else t

/-- The value of the cast `(int)n` of a `size_t`. -/
def toInt32 (n : Nat) : Int :=
  if n % 2 ^ 32 < 2 ^ 31 then ((n % 2 ^ 32 : Nat) : Int) else ((n % 2 ^ 32 : Nat) : Int) - 2 ^ 32

/-- The difference `a - b` of two pointers or sizes as a `size_t`. -/
def ptrDiff (a b : Nat) : Nat := (((a : Int) - (b : Int)) % 2 ^ 64).toNat

/-- The value `src_to_encode` of the iteration of the `while` loop that starts
in `st`. -/
def srcToEncode (st : RawState) : Nat :=
  if st.src_size > BLOCK_SIZE_2G then BLOCK_SIZE_2G else st.src_size

/-- The call of `_lz4_encode_2gb` in the iteration of the `while` loop that
starts in `st`. -/
def engineCall (encode : Encoder) (st : RawState) : EncodeOut :=
  encode st.dst st.dst_size st.src st.src (toInt32 (srcToEncode st))
    (hashFillLoop LZ4_COMPRESS_HASH_ENTRIES 0 st.hashTable)
    (decide (srcToEncode st < st.src_size)) st.mem

/-- The value `dst_used` of the iteration of the `while` loop that starts in
`st`. -/
def chunkDstUsed (encode : Encoder) (st : RawState) : Nat :=
  ptrDiff (engineCall encode st).dst st.dst

/-- The value `src_used` of the iteration of the `while` loop that starts in
`st`. -/
def chunkSrcUsed (encode : Encoder) (st : RawState) : Nat :=
  ptrDiff (engineCall encode st).src st.src

/-- The body of the `while` loop: `none` is `return 0`, otherwise the state
after the counters are updated. -/
def lz4raw_encode_chunk (encode : Encoder) (st : RawState) : Option RawState :=
  --  Initialize hash table
  let hashTable := hashFillLoop LZ4_COMPRESS_HASH_ENTRIES 0 st.hashTable
  -- Bytes to encode in this block
  let src_to_encode := if st.src_size > BLOCK_SIZE_2G then BLOCK_SIZE_2G else st.src_size
  let dst_start := st.dst
  let src_start := st.src
  let src_size_ptr := toInt32 src_to_encode
  let r := encode st.dst st.dst_size st.src st.src src_size_ptr hashTable
    (decide (src_to_encode < st.src_size)) st.mem
  -- Check progress
  let dst_used := ptrDiff r.dst dst_start
  let src_used := ptrDiff r.src src_start
  if src_to_encode = st.src_size ∧ src_used < src_to_encode then
    none
  else if src_to_encode < st.src_size ∧ ptrDiff src_to_encode src_used ≥ (1 <<< 16) then
    none
  else
    -- Update counters
    some { src := r.src, dst := r.dst,
           src_size := (((st.src_size : Int) - (src_used : Int)) % 2 ^ 64).toNat,
           dst_size := (((st.dst_size : Int) - (dst_used : Int)) % 2 ^ 64).toNat,
           hashTable := r.hashTable, mem := r.mem }

/-- How a run of the `while` loop ends. -/
inductive RawResult
  /-- The iteration budget of the embedding ran out. -/
  | outOfBudget
  /-- One of the two `return 0` statements of the loop body was reached. -/
  | fail
  /-- The loop ended and `(size_t)(dst - dst_buffer)` was returned. -/
  | ok (bytes : Nat) (final : RawState)

/-- The value the C function returns. -/
def RawResult.ret : RawResult → Option Nat
  | .outOfBudget => none
  | .fail => some 0
  | .ok bytes _ => some bytes

/-- The loop `while (src_size > 0)` followed by the final `return` (the first
argument bounds the number of iterations). -/
def lz4raw_encode_loop (encode : Encoder) (dst_buffer : Nat) : Nat → RawState → RawResult
  | 0, st => if st.src_size > 0 then .outOfBudget else .ok (ptrDiff st.dst dst_buffer) st
  | n + 1, st =>
      if st.src_size > 0 then
        match lz4raw_encode_chunk encode st with
        | none => .fail
        | some st' => lz4raw_encode_loop encode dst_buffer n st'
      else .ok (ptrDiff st.dst dst_buffer) st

/-- `lz4raw_encode_buffer`, with the per-chunk engine and the iteration budget
as parameters. -/
def lz4raw_encode_buffer (encode : Encoder) (budget : Nat) (mem : Mem) (dst_buffer dst_size : Nat)
    (src_buffer src_size : Nat) (hashTable : RawTable) : RawResult :=
  lz4raw_encode_loop encode dst_buffer budget
    { src := src_buffer, dst := dst_buffer, src_size := src_size, dst_size := dst_size,
      hashTable := hashTable, mem := mem }

/-- The `dst_used` values of the chunks a run of the loop encodes, in order. -/
def dstUsedList (encode : Encoder) : Nat → RawState → List Nat
  | 0, _ => []
  | n + 1, st =>
      if st.src_size > 0 then
        match lz4raw_encode_chunk encode st with
        | none => []
        | some st' => chunkDstUsed encode st :: dstUsedList encode n st'
      else []

/-- The loop state after `k` iterations that did not fail; `none` when one of
them returned 0 or the loop ended earlier. -/
def afterChunks (encode : Encoder) : Nat → RawState → Option RawState
  | 0, st => some st
  | k + 1, st =>
      if st.src_size > 0 then
        match lz4raw_encode_chunk encode st with
        | none => none
        | some st' => afterChunks encode k st'
      else none

/-! ## Reference decoder of the token format -/

/-- Modelled from the spec: the continuation bytes of a length field of the
decoder `LZ4P_decompress_safe` (declared in `lz4p_decompress.h`, not defined in
the sources): every byte is
added, and a byte below 255 ends the field; `none` when the source ends first. -/
def readLength : List Byte → Nat → Option (Nat × List Byte)
  | [], _ => none
  | b :: rest, acc =>
      if b.val = 255 then readLength rest (acc + 255) else some (acc + b.val, rest)

/-- Modelled from the spec: the overlap-safe, byte-by-byte match copy of the
decoder `LZ4P_decompress_safe` (declared in `lz4p_decompress.h`, not defined in
the sources): `n` times, append
the byte that lies `offset` bytes before the end of the output. -/
def copyMatch : Nat → List Byte → Nat → List Byte
  | 0, out, _ => out
  | n + 1, out, offset => copyMatch n (out ++ [out.getD (out.length - offset) 0]) offset

/-- Modelled from the spec: the token loop of the decoder `LZ4P_decompress_safe`
(declared in `lz4p_decompress.h`, not defined in the sources), section 4.5: per
token the literal length with
its continuation bytes, the literals (checked against the remaining source and
destination capacity), the end of the stream after a final offset-less literal
run, the 2-byte little-endian offset (non-zero, not before the start of the
output), the match length plus `MINMATCH` with its continuation bytes (checked
against the destination capacity) and the overlap-safe copy.  `none` is
`CorruptStream`; the first argument bounds the number of tokens. -/
def decodeLoop (capacity : Nat) : Nat → List Byte → List Byte → Option (List Byte)
  | 0, _, _ => none
  | _ + 1, [], _ => none
  | fuel + 1, token :: inp, out =>
      match (if token.val >>> ML_BITS = RUN_MASK then readLength inp RUN_MASK
             else some (token.val >>> ML_BITS, inp)) with
      | none => none
      | some (litLength, inp) =>
          if litLength > inp.length ∨ out.length + litLength > capacity then none
          else
            let out := out ++ inp.take litLength
            match inp.drop litLength with
            | [] => some out
            | [_] => none
            | lo :: hi :: inp =>
                let offset := lo.val + hi.val <<< 8
                if offset = 0 ∨ offset > out.length then none
                else
                  match (if token.val % 16 = ML_MASK then readLength inp ML_MASK
                         else some (token.val % 16, inp)) with
                  | none => none
                  | some (ml, inp) =>
                      let matchLength := ml + MINMATCH
                      if out.length + matchLength > capacity then none
                      else decodeLoop capacity fuel inp (copyMatch matchLength out offset)

/-- Modelled from the spec: the reference decoder of one block,
`decompress(source, destination_capacity)` of section 6, standing for
`LZ4P_decompress_safe` (declared in `lz4p_decompress.h`, not defined in the sources). -/
def referenceDecode (input : List Byte) (capacity : Nat) : Option (List Byte) :=
  decodeLoop capacity (input.length + 1) input []

/-! ## Token streams: the sequences a run of the engine emits -/

/-- One sequence of a block: a literal run followed by a match, given by its
offset and its match code (the match length minus `MINMATCH`). -/
structure Seq where
  lits : List Byte
  offset : Nat
  matchCode : Nat
  deriving DecidableEq, Repr

/-- The continuation bytes of a length field with value `n`: none below 15,
otherwise bytes 255 and a final byte below 255 that sum up to `n - 15`. -/
def lenBytes (n : Nat) : List Byte :=
  if n ≥ 15 then List.replicate ((n - 15) / 255) (toByte 255) ++ [toByte ((n - 15) % 255)]
  else []

/-- The token of a sequence: literal-length code in the high nibble,
match-length code in the low nibble. -/
def tokenByte (litLength matchCode : Nat) : Byte :=
  toByte (min litLength 15 * 16 + min matchCode 15)

/-- The token and the literal field of a sequence with a given match-length
code. -/
def encLiterals (lits : List Byte) (matchCode : Nat) : List Byte :=
  tokenByte lits.length matchCode :: (lenBytes lits.length ++ lits)

/-- The bytes of one sequence. -/
def encSeq (s : Seq) : List Byte :=
  encLiterals s.lits s.matchCode
    ++ ([toByte s.offset, toByte (s.offset >>> 8)] ++ lenBytes s.matchCode)

/-- The bytes of a block: its sequences, then the final literal-only token. -/
def encBlock : List Seq → List Byte → List Byte
  | [], last => encLiterals last 0
  | s :: ss, last => encSeq s ++ encBlock ss last

/-- The source bytes `s, …, s + n - 1`. -/
def slice (src : List Byte) (s n : Nat) : List Byte :=
  (List.range n).map fun k => src.getD (s + k) 0

/-- The number of continuation bytes of a length field with value `n`. -/
def lenFieldSize (n : Nat) : Nat := if n ≥ 15 then (n - 15) / 255 + 1 else 0

/-- The engine state without the destination memory. -/
structure Cursor where
  ip : Nat
  anchor : Nat
  op : Nat
  forwardH : Nat
  table : Table

/-- The cursor part of an engine state. -/
def EngState.cur (st : EngState) : Cursor := ⟨st.ip, st.anchor, st.op, st.forwardH, st.table⟩

/-- Adds a sequence in front of the block a run goes on to emit. -/
def consSeq (s : Seq) (r : Option (Option (List Seq × List Byte))) :
    Option (Option (List Seq × List Byte)) :=
  r.map (Option.map fun b => (s :: b.1, b.2))

/-- The block `_last_literals` without the memory: `none` is `return 0`,
otherwise the final literal run. -/
def lastTrace (e : Env) (anchor op : Nat) : Option (List Seq × List Byte) :=
  let lastRun := e.iend - anchor
  if e.outputLimited = limitedOutput ∧
      ((op + lastRun + 1 + (lastRun + 255 - RUN_MASK) / 255 : Nat) : Int)
        > e.maxOutputSize % 2 ^ 32 then
    none
  else some ([], slice e.source anchor lastRun)

/-- The main loop without the memory: the same control flow as `run`, with the
output cursor advanced by the size of every field, returning the sequences and
the final literal run the engine emits.  `none` means that the budget ran out,
`some none` is `return 0`. -/
def trace (e : Env) : Nat → Label → Cursor → Option (Option (List Seq × List Byte))
  | 0, _, _ => none
  | fuel + 1, .findMatch forwardIp step searchMatchNb, st =>
      let h := st.forwardH
      let ip := forwardIp
      let forwardIp := forwardIp + step
      let step := searchMatchNb >>> LZ4_SKIPTRIGGER
      let searchMatchNb := (searchMatchNb + 1) % 2 ^ 32
      if forwardIp > e.mflimit then
        some (lastTrace e st.anchor st.op)
      else
        let mtch := LZ4_getPositionOnHash h st.table e.tableType 0
        let forwardH := LZ4_hashPosition e.source forwardIp e.tableType
        let table := LZ4_putPositionOnHash ip h st.table e.tableType 0
        if (if e.tableType = byU16 then False else mtch + MAX_DISTANCE < ip)
            ∨ LZ4_read32 e.source mtch ≠ LZ4_read32 e.source ip then
          trace e fuel (.findMatch forwardIp step searchMatchNb)
            { st with ip := ip, forwardH := forwardH, table := table }
        else
          let c := catchUp e.source st.anchor 0 ip ip mtch
          let litLength := c.1 - st.anchor
          if e.outputLimited = limitedOutput ∧
              ((st.op + 1 + litLength + (2 + 1 + LASTLITERALS) + litLength / 255 : Nat) : Int)
                > e.maxOutputSize then
            some none
          else
            trace e fuel (.nextMatch c.2 st.op)
              { st with ip := c.1, op := st.op + 1 + lenFieldSize litLength + litLength,
                        forwardH := forwardH, table := table }
  | fuel + 1, .nextMatch mtch _, st =>
      let offset := (((st.ip : Int) - (mtch : Int)) % 2 ^ 16).toNat
      let op := st.op + 2
      let matchCode := LZ4_count e.source (st.ip + MINMATCH) (mtch + MINMATCH) e.matchlimit
      let ip := st.ip + (MINMATCH + matchCode)
      if e.outputLimited = limitedOutput ∧
          ((op + (1 + LASTLITERALS) + matchCode >>> 8 : Nat) : Int) > e.maxOutputSize then
        some none
      else
        let s : Seq := ⟨slice e.source st.anchor (st.ip - st.anchor), offset, matchCode⟩
        let op := op + lenFieldSize matchCode
        let anchor := ip
        if ip > e.mflimit then
          consSeq s (some (lastTrace e anchor op))
        else
          let table := LZ4_putPosition e.source (ip - 2) st.table e.tableType 0
          let mtch := LZ4_getPosition e.source ip table e.tableType 0
          let table := LZ4_putPosition e.source ip table e.tableType 0
          if mtch + MAX_DISTANCE ≥ ip ∧ LZ4_read32 e.source mtch = LZ4_read32 e.source ip then
            consSeq s (trace e fuel (.nextMatch mtch op)
              { st with ip := ip, anchor := anchor, op := op + 1, table := table })
          else
            consSeq s (trace e fuel
              (.findMatch (ip + 1) 1 ((e.acceleration <<< LZ4_SKIPTRIGGER) % 2 ^ 32))
              { ip := ip + 1, anchor := anchor, op := op,
                forwardH := LZ4_hashPosition e.source (ip + 1) e.tableType, table := table })

/-- The sequences and final literal run `LZ4_compress_generic` emits: the
engine without the destination memory.  `none` means that the budget ran out,
`some none` is `return 0`. -/
def engineTrace (table : Table) (source : List Byte) (inputSize maxOutputSize : Int)
    (outputLimited : limitedOutput_directive) (tableType : tableType_t) (acceleration : Nat) :
    Option (Option (List Seq × List Byte)) :=
  if inputSize % 2 ^ 32 > (LZ4_MAX_INPUT_SIZE : Int) then some none
  else if tableType = byU16 ∧ inputSize ≥ (LZ4_64Klimit : Int) then some none
  else
    let e : Env := ⟨source, inputSize.toNat, maxOutputSize, outputLimited, tableType,
      acceleration⟩
    if inputSize < (LZ4_minLength : Int) then some (lastTrace e 0 0)
    else
      let table := LZ4_putPosition source 0 table tableType 0
      let ip := 1
      let forwardH := LZ4_hashPosition source ip tableType
      trace e (2 * inputSize.toNat + 8)
        (.findMatch ip 1 ((acceleration <<< LZ4_SKIPTRIGGER) % 2 ^ 32))
        ⟨ip, 0, 0, forwardH, table⟩

/-- A block that reproduces the source from position `a` on: every literal run
is the source at its place, every match has an offset between 1 and 65535
that stays inside the data already produced, repeats the source and ends
inside it, and the final literals are the rest of the source. -/
def Covers (S : List Byte) : Nat → List Seq → List Byte → Prop
  | a, [], last => a ≤ S.length ∧ last = S.drop a
  | a, s :: ss, last =>
      a + s.lits.length ≤ S.length ∧ s.lits = (S.drop a).take s.lits.length ∧
      1 ≤ s.offset ∧ s.offset ≤ a + s.lits.length ∧ s.offset ≤ 65535 ∧
      a + s.lits.length + (s.matchCode + MINMATCH) ≤ S.length ∧
      (∀ i, i < s.matchCode + MINMATCH →
        S.getD (a + s.lits.length + i) 0 = S.getD (a + s.lits.length + i - s.offset) 0) ∧
      Covers S (a + s.lits.length + (s.matchCode + MINMATCH)) ss last

/-- The destination holds the bytes `E` at its start. -/
def Written (d : Mem) (E : List Byte) : Prop := ∀ i, i < E.length → d i = E.getD i 0

/-! ## Predicates used in the proofs -/

/-- The memory `d'` is `d` below `op` and holds the bytes `F` from `op` on. -/
def Emits (d : Mem) (op : Nat) (d' : Mem) (F : List Byte) : Prop :=
  (∀ i, i < op → d' i = d i) ∧ (∀ i, i < F.length → d' (op + i) = F.getD i 0)

/-- The bytes of the token that is still open at a program point: at
`_next_match` the token and its literals are written, the match is not. -/
def pendingBytes (e : Env) : Label → Cursor → List Byte
  | .findMatch _ _ _, _ => []
  | .nextMatch _ _, c => encLiterals (slice e.source c.anchor (c.ip - c.anchor)) 0

/-- The run `o` of the engine with its memory does what the memory-free run `r`
says: it runs out of budget, returns 0, or returns the length of the block
and leaves the bytes written so far followed by the block in the destination. -/
def Refines (r : Option (Option (List Seq × List Byte))) (o : Option Outcome) (E : List Byte) :
    Prop :=
  match r with
  | none => o = none
  | some none => ∃ x, o = some x ∧ x.ret = 0
  | some (some b) =>
      ∃ x, o = some x ∧ x.ret = (E ++ encBlock b.1 b.2).length ∧
        Written x.dest (E ++ encBlock b.1 b.2)

/-- The calls of the engine the invariants are proved for. -/
structure GoodEnv (e : Env) : Prop where
  hsize : e.inputSize = e.source.length
  hmin : 13 ≤ e.inputSize
  hU16 : e.tableType = byU16 → e.inputSize < LZ4_64Klimit
  hacc : 64 ≤ (e.acceleration <<< LZ4_SKIPTRIGGER) % 2 ^ 32 ∧
    (e.acceleration <<< LZ4_SKIPTRIGGER) % 2 ^ 32 + e.inputSize ≤ 2 ^ 32

/-- The invariant of the main loop at its two program points, with the budget
that is left. -/
def TraceInv (e : Env) (fuel : Nat) : Label → Cursor → Prop
  | .findMatch f step smn, c =>
      c.anchor ≤ f ∧ c.anchor ≤ e.inputSize ∧ (∀ h, c.table h < f) ∧ 1 ≤ step ∧ 64 ≤ smn ∧
        smn + e.inputSize < 2 ^ 32 + f ∧ 2 * (e.inputSize - f) + 1 ≤ fuel
  | .nextMatch m _, c =>
      c.anchor ≤ c.ip ∧ m < c.ip ∧ c.ip ≤ m + 65535 ∧
        ∃ k, 4 ≤ k ∧ c.ip + k ≤ e.matchlimit ∧
          (∀ i, i < k → readByte e.source (c.ip + i) = readByte e.source (m + i)) ∧
          (∀ h, c.table h < c.ip + k) ∧ 2 * (e.inputSize - (c.ip + k)) + 2 ≤ fuel

/-- What the invariants give for the result of a run from anchor `a`. -/
def TraceGood (e : Env) (a : Nat) (r : Option (List Seq × List Byte)) : Prop :=
  (e.outputLimited = noLimit → r ≠ none) ∧ ∀ b, r = some b → Covers e.source a b.1 b.2

/-! ## Inputs of the examples -/

/-- What the caller observes of a memory-free run. -/
def traceObserved (r : Option (Option (List Seq × List Byte))) : Option (Nat × List Byte) :=
  r.map fun x =>
    match x with
    | none => (0, [])
    | some b => ((encBlock b.1 b.2).length, encBlock b.1 b.2)

/-- The 20 bytes "aaaaaaaaaaaaaaaaaaaa". -/
def twentyA : List Byte := List.replicate 20 (toByte 0x61)

/-- A workspace with arbitrary non-zero contents. -/
def usedWorkspace : LZ4_stream_t_internal := ⟨fun h => h + 7, 1, 2, 3, 4⟩

/-- A sample per-chunk engine: it writes 3 bytes and consumes `used` bytes. -/
def sampleEncoder (used : Nat) : Encoder :=
  fun dst _ src _ _ hashTable _ mem => ⟨dst + 3, src + used, hashTable, mem⟩

/-- A sample loop state with `size` bytes left. -/
def sampleState (size : Nat) : RawState := ⟨0, 0, size, 100, fun _ => ⟨1, 1⟩, fun _ => 0⟩

/-! ## One transition of the main loop -/

/-- Where one pass through a program point of the main loop leads. -/
inductive Step
  /-- The statement `return 0`. -/
  | fail
  /-- The jump to `_last_literals`, with the anchor and the output cursor. -/
  | last (anchor op : Nat)
  /-- The next program point. -/
  | next (l : Label) (c : Cursor)

/-- The sequence the blocks "Encode Literals", "Encode Offset" and "Encode
MatchLength" write for the match found at `_next_match`. -/
def seqAt (e : Env) (mtch : Nat) (c : Cursor) : Seq :=
  ⟨slice e.source c.anchor (c.ip - c.anchor), (((c.ip : Int) - (mtch : Int)) % 2 ^ 16).toNat,
    LZ4_count e.source (c.ip + MINMATCH) (mtch + MINMATCH) e.matchlimit⟩

/-- One pass through a program point of the main loop, without the memory: the
body of `trace` up to its next program point. -/
def engineStep (e : Env) : Label → Cursor → Step
  | .findMatch forwardIp step searchMatchNb, st =>
      let h := st.forwardH
      let ip := forwardIp
      let forwardIp := forwardIp + step
      let step := searchMatchNb >>> LZ4_SKIPTRIGGER
      let searchMatchNb := (searchMatchNb + 1) % 2 ^ 32
      if forwardIp > e.mflimit then
        .last st.anchor st.op
      else
        let mtch := LZ4_getPositionOnHash h st.table e.tableType 0
        let forwardH := LZ4_hashPosition e.source forwardIp e.tableType
        let table := LZ4_putPositionOnHash ip h st.table e.tableType 0
        if (if e.tableType = byU16 then False else mtch + MAX_DISTANCE < ip)
            ∨ LZ4_read32 e.source mtch ≠ LZ4_read32 e.source ip then
          .next (.findMatch forwardIp step searchMatchNb)
            { st with ip := ip, forwardH := forwardH, table := table }
        else
          let c := catchUp e.source st.anchor 0 ip ip mtch
          let litLength := c.1 - st.anchor
          if e.outputLimited = limitedOutput ∧
              ((st.op + 1 + litLength + (2 + 1 + LASTLITERALS) + litLength / 255 : Nat) : Int)
                > e.maxOutputSize then
            .fail
          else
            .next (.nextMatch c.2 st.op)
              { st with ip := c.1, op := st.op + 1 + lenFieldSize litLength + litLength,
                        forwardH := forwardH, table := table }
  | .nextMatch mtch _, st =>
      let op := st.op + 2
      let matchCode := LZ4_count e.source (st.ip + MINMATCH) (mtch + MINMATCH) e.matchlimit
      let ip := st.ip + (MINMATCH + matchCode)
      if e.outputLimited = limitedOutput ∧
          ((op + (1 + LASTLITERALS) + matchCode >>> 8 : Nat) : Int) > e.maxOutputSize then
        .fail
      else
        let op := op + lenFieldSize matchCode
        let anchor := ip
        if ip > e.mflimit then
          .last anchor op
        else
          let table := LZ4_putPosition e.source (ip - 2) st.table e.tableType 0
          let mtch := LZ4_getPosition e.source ip table e.tableType 0
          let table := LZ4_putPosition e.source ip table e.tableType 0
          if mtch + MAX_DISTANCE ≥ ip ∧ LZ4_read32 e.source mtch = LZ4_read32 e.source ip then
            .next (.nextMatch mtch op)
              { st with ip := ip, anchor := anchor, op := op + 1, table := table }
          else
            .next (.findMatch (ip + 1) 1 ((e.acceleration <<< LZ4_SKIPTRIGGER) % 2 ^ 32))
              { ip := ip + 1, anchor := anchor, op := op,
                forwardH := LZ4_hashPosition e.source (ip + 1) e.tableType, table := table }

/-- The sequence a pass through a program point emits: the match at
`_next_match`, unless the pass ends with `return 0`. -/
def emitted (e : Env) : Label → Cursor → Option Seq
  | .findMatch _ _ _, _ => none
  | .nextMatch mtch _, c => some (seqAt e mtch c)

/-- The program point the main loop is entered at: the first probe, after the
block "First Byte". -/
def startLabel (e : Env) : Label :=
  .findMatch 1 1 ((e.acceleration <<< LZ4_SKIPTRIGGER) % 2 ^ 32)

/-- The state the main loop is entered with, after the block "First Byte". -/
def startCursor (e : Env) (table : Table) : Cursor :=
  ⟨1, 0, 0, LZ4_hashPosition e.source 1 e.tableType,
    LZ4_putPosition e.source 0 table e.tableType 0⟩

/-- The program points a run passes through from a given one on. -/
inductive Visits (e : Env) : Label → Cursor → Label → Cursor → Prop
  | here (l : Label) (c : Cursor) : Visits e l c l c
  | step {l : Label} {c : Cursor} {l1 : Label} {c1 : Cursor} {l2 : Label} {c2 : Cursor} :
      engineStep e l c = .next l1 c1 → Visits e l1 c1 l2 c2 → Visits e l c l2 c2

/-- The invariant of the main loop at its two program points. -/
def StateInv (e : Env) : Label → Cursor → Prop
  | .findMatch f step smn, c =>
      (c.anchor ≤ c.ip ∧ c.ip ≤ f ∧ 1 ≤ f ∧ f ≤ e.mflimit + 1 ∧ c.anchor ≤ e.matchlimit) ∧
      c.forwardH = LZ4_hashPosition e.source f e.tableType ∧
      (∀ h, c.table h < f) ∧ 1 ≤ step ∧ 64 ≤ smn ∧ smn + e.inputSize < 2 ^ 32 + f
  | .nextMatch m t, c =>
      (c.anchor ≤ c.ip ∧ c.ip ≤ e.mflimit ∧ c.anchor ≤ e.matchlimit ∧ t < c.op) ∧
      m < c.ip ∧ c.ip ≤ m + 65535 ∧
        ∃ k, 4 ≤ k ∧ c.ip + k ≤ e.matchlimit ∧
          (∀ i, i < k → readByte e.source (c.ip + i) = readByte e.source (m + i)) ∧
          (∀ h, c.table h < c.ip + k)

/-- The candidate a pass through a program point tests, and the position whose
four bytes it is compared with: the table entry of `forwardH` against `ip` in
the probe loop, the entry of the position after the match in "Test next
position". -/
def candidate (e : Env) : Label → Cursor → Nat × Nat
  | .findMatch forwardIp _ _, st =>
      (LZ4_getPositionOnHash st.forwardH st.table e.tableType 0, forwardIp)
  | .nextMatch mtch _, st =>
      let matchCode := LZ4_count e.source (st.ip + MINMATCH) (mtch + MINMATCH) e.matchlimit
      let ip := st.ip + (MINMATCH + matchCode)
      let table := LZ4_putPosition e.source (ip - 2) st.table e.tableType 0
      (LZ4_getPosition e.source ip table e.tableType 0, ip)

/-- The matches of a block that starts at position `a`: for every sequence the
position `p` of the match in the source, its offset `d` and its length `M`. -/
def matchesOf : Nat → List Seq → List (Nat × Nat × Nat)
  | _, [] => []
  | a, s :: ss =>
      (a + s.lits.length, s.offset, s.matchCode + MINMATCH)
        :: matchesOf (a + s.lits.length + (s.matchCode + MINMATCH)) ss

/-- The variables `step` and `searchMatchNb` of a match search after `k`
probes: `step = 1` and `searchMatchNb = acceleration << LZ4_SKIPTRIGGER` at
first, `step = (searchMatchNb++ >> LZ4_SKIPTRIGGER)` in every probe. -/
def searchSteps (acceleration : Nat) : Nat → Nat × Nat
  | 0 => (1, (acceleration <<< LZ4_SKIPTRIGGER) % 2 ^ 32)
  | k + 1 =>
      ((searchSteps acceleration k).2 >>> LZ4_SKIPTRIGGER,
        ((searchSteps acceleration k).2 + 1) % 2 ^ 32)

/-- The label of the next program point of a pass, if there is one. -/
def Step.label : Step → Option Label
  | .next l _ => some l
  | _ => none

/-- An 18-byte input whose second match starts 12 bytes before the end. -/
def eighteenBytes : List Byte := [2, 1, 1, 1, 1, 1, 2, 1, 1, 1, 1, 2, 2, 1, 2, 1, 2, 1]

/-- The five bytes 1, 2, 3, 4, 5. -/
def fiveBytes : List Byte := [1, 2, 3, 4, 5]

/-- The 12 bytes "aaaaaaaaaaaa". -/
def twelveA : List Byte := List.replicate 12 (toByte 0x61)

/-- The destination holds, at `token`, the header of a run of `L` literals: a
token with the literal-length code `min L 15` in the high nibble and a clear
low nibble, followed by the continuation bytes of `L`. -/
def LiteralHeader (d : Mem) (token L : Nat) : Prop :=
  (d token).val >>> ML_BITS = min L RUN_MASK ∧ (d token).val % 16 = 0 ∧
  ∀ i, i < (lenBytes L).length → d (token + 1 + i) = (lenBytes L).getD i 0

/-- The match-length field as the naive varint: the code is added to the low
nibble of the token, and from 15 on the rest `matchCode - 15` is written byte
by byte, a byte 255 while at least 255 remain and then the remainder. -/
def naiveMatchLength (dest : Mem) (op token matchCode : Nat) : Mem × Nat :=
  if matchCode ≥ ML_MASK then
    writeLength (matchCode - ML_MASK) (store dest token (toByte ((dest token).val + ML_MASK))) op
      (matchCode - ML_MASK)
  else
    (store dest token (toByte ((dest token).val + matchCode)), op)

/-! ## The safe decoder on a destination buffer -/

/-- Modelled from the spec: the literal copy of the decoder
`LZ4P_decompress_safe` (declared in `lz4p_decompress.h`, not defined in the
sources): the bytes `bs` stored at the output cursor `op`. -/
def copyLiterals (m : Mem) (op : Nat) (bs : List Byte) : Mem :=
  fun i => if op ≤ i ∧ i < op + bs.length then bs.getD (i - op) 0 else m i

/-- Modelled from the spec: the overlap-safe, byte-by-byte match copy of the
decoder `LZ4P_decompress_safe` (declared in `lz4p_decompress.h`, not defined in
the sources) in the destination: `n` times, the byte `offset` positions before
the output cursor is stored at the cursor. -/
def copyMatchMem : Nat → Mem → Nat → Nat → Mem
  | 0, m, _, _ => m
  | n + 1, m, op, offset => copyMatchMem n (store m op (m (op - offset))) (op + 1) offset

/-- Modelled from the spec: the token loop of the decoder `LZ4P_decompress_safe`
(declared in `lz4p_decompress.h`, not defined in the sources) on a destination
buffer, section 4.5: the checks of `decodeLoop`, each made before the copy it
guards, with the literals and the match stored at the output cursor `op`.
The result is the number of bytes decoded, or `none` for `CorruptStream`, and
the destination as the call leaves it. -/
def safeDecodeLoop (capacity : Nat) : Nat → List Byte → Nat → Mem → Option Nat × Mem
  | 0, _, _, m => (none, m)
  | _ + 1, [], _, m => (none, m)
  | fuel + 1, token :: inp, op, m =>
      match (if token.val >>> ML_BITS = RUN_MASK then readLength inp RUN_MASK
             else some (token.val >>> ML_BITS, inp)) with
      | none => (none, m)
      | some (litLength, inp) =>
          if litLength > inp.length ∨ op + litLength > capacity then (none, m)
          else
            let m := copyLiterals m op (inp.take litLength)
            let op := op + litLength
            match inp.drop litLength with
            | [] => (some op, m)
            | [_] => (none, m)
            | lo :: hi :: inp =>
                let offset := lo.val + hi.val <<< 8
                if offset = 0 ∨ offset > op then (none, m)
                else
                  match (if token.val % 16 = ML_MASK then readLength inp ML_MASK
                         else some (token.val % 16, inp)) with
                  | none => (none, m)
                  | some (ml, inp) =>
                      let matchLength := ml + MINMATCH
                      if op + matchLength > capacity then (none, m)
                      else
                        safeDecodeLoop capacity fuel inp (op + matchLength)
                          (copyMatchMem matchLength m op offset)

/-- Modelled from the spec: `LZ4P_decompress_safe` (declared in
`lz4p_decompress.h`, not defined in the sources): the safe decoder of section
4.5 on the first `compressedSize` bytes of the source and a destination of
`maxDecompressedSize` bytes.  The value returned is the number of bytes
decoded, or the negative error `-1` for `CorruptStream` and for a negative
size; the second component is the destination as the call leaves it. -/
def LZ4P_decompress_safe (source : List Byte) (dest : Mem)
    (compressedSize maxDecompressedSize : Int) : Int × Mem :=
  if compressedSize < 0 ∨ maxDecompressedSize < 0 then (-1, dest)
  else
    let inp := source.take compressedSize.toNat
    let r := safeDecodeLoop maxDecompressedSize.toNat (inp.length + 1) inp 0 dest
    match r.1 with
    | none => (-1, r.2)
    | some n => ((n : Int), r.2)

/-- Modelled from the spec: `EINVAL` of the kernel headers (not among the
sources), the error number the glue code reports. -/
abbrev EINVAL : Int := 22

/-- The conversion of an `unsigned int` argument to the `int` parameter it is
passed for. -/
def asInt (x : Nat) : Int :=
  if x % 2 ^ 32 < 2 ^ 31 then ((x % 2 ^ 32 : Nat) : Int) else ((x % 2 ^ 32 : Nat) : Int) - 2 ^ 32

/-- `__lz4_decompress_crypto` of `lz4p.c`: the value returned, the length left
in `*dlen` and the destination. -/
def __lz4_decompress_crypto (src : List Byte) (slen : Nat) (dst : Mem) (dlen : Nat) :
    Int × Nat × Mem :=
  let out := LZ4P_decompress_safe src dst (asInt slen) (asInt dlen)
  let out_len := out.1
  if out_len < 0 then (-EINVAL, dlen, out.2)
  else (0, (out_len % 2 ^ 32).toNat, out.2)

/-- The output a sequence adds to the decoded bytes `out`: its literals, then
its match copied from `offset` bytes back. -/
def expandSeq (out : List Byte) (s : Seq) : List Byte :=
  copyMatch (s.matchCode + MINMATCH) (out ++ s.lits) s.offset

/-- The output of a list of sequences, decoded after `out`. -/
def expandSeqs : List Byte → List Seq → List Byte
  | out, [] => out
  | out, s :: ss => expandSeqs (expandSeq out s) ss

/-- The bytes of a list of sequences. -/
def encSeqs : List Seq → List Byte
  | [] => []
  | s :: ss => encSeq s ++ encSeqs ss

/-- The sequences are well formed and fit a destination of `cap` bytes when
decoded after `out`: every offset is between 1 and 65535 and stays inside the
output, and the output never exceeds the capacity. -/
def SeqsFit (cap : Nat) : List Byte → List Seq → Prop
  | _, [] => True
  | out, s :: ss =>
      (1 ≤ s.offset ∧ s.offset ≤ (out ++ s.lits).length ∧ s.offset ≤ 65535 ∧
        (out ++ s.lits).length + (s.matchCode + MINMATCH) ≤ cap) ∧
      SeqsFit cap (expandSeq out s) ss

/-- The corrupt tokens of the claim, met with `out` already decoded into a
destination of `cap` bytes: a token whose offset is 0, whose literal run
passes the end of the source or of the destination, whose match passes the
end of the destination, or whose match-length field passes the end of the
source. -/
inductive BadToken (cap : Nat) (out : List Byte) : List Byte → Prop
  | zeroOffset (lits : List Byte) (mc : Nat) (rest : List Byte) :
      BadToken cap out (encLiterals lits mc ++ (0 :: 0 :: rest))
  | literalsPastSource (L mc : Nat) (bytes : List Byte) :
      bytes.length < L → BadToken cap out (tokenByte L mc :: (lenBytes L ++ bytes))
  | literalsPastCapacity (lits : List Byte) (mc : Nat) (rest : List Byte) :
      out.length + lits.length > cap → BadToken cap out (encLiterals lits mc ++ rest)
  | matchPastCapacity (s : Seq) (rest : List Byte) :
      out.length + s.lits.length + (s.matchCode + MINMATCH) > cap →
      BadToken cap out (encSeq s ++ rest)
  | matchLengthPastSource (lits : List Byte) (lo hi : Byte) (k : Nat) :
      BadToken cap out (encLiterals lits 15 ++ (lo :: hi :: List.replicate k (toByte 255)))

/-! ## What a pass of the main loop stores and reads -/

/-- The positions a pass through a program point stores in the hash table:
`ip` in the probe loop (`LZ4_putPositionOnHash(ip, h, …)`), `ip - 2` and `ip`
after a match ("Fill table" and "Test next position"). -/
def storedPositions (e : Env) : Label → Cursor → List Nat
  | .findMatch forwardIp step _, _ =>
      if forwardIp + step > e.mflimit then [] else [forwardIp]
  | .nextMatch mtch _, st =>
      let matchCode := LZ4_count e.source (st.ip + MINMATCH) (mtch + MINMATCH) e.matchlimit
      let ip := st.ip + (MINMATCH + matchCode)
      if e.outputLimited = limitedOutput ∧
          ((st.op + 2 + (1 + LASTLITERALS) + matchCode >>> 8 : Nat) : Int) > e.maxOutputSize then
        []
      else if ip > e.mflimit then []
      else [ip - 2, ip]

/-- The hash table after the stores of a pass through a program point. -/
def tableAfter (e : Env) : Label → Cursor → Table
  | .findMatch forwardIp step _, st =>
      if forwardIp + step > e.mflimit then st.table
      else LZ4_putPositionOnHash forwardIp st.forwardH st.table e.tableType 0
  | .nextMatch mtch _, st =>
      let matchCode := LZ4_count e.source (st.ip + MINMATCH) (mtch + MINMATCH) e.matchlimit
      let ip := st.ip + (MINMATCH + matchCode)
      if e.outputLimited = limitedOutput ∧
          ((st.op + 2 + (1 + LASTLITERALS) + matchCode >>> 8 : Nat) : Int) > e.maxOutputSize then
        st.table
      else if ip > e.mflimit then st.table
      else
        LZ4_putPosition e.source ip
          (LZ4_putPosition e.source (ip - 2) st.table e.tableType 0) e.tableType 0

/-- The number of bytes `LZ4_hashPosition` reads: `LZ4_read_ARCH` (8 bytes) for
`byU32`, `LZ4_read32` otherwise. -/
def hashWidth (tableType : tableType_t) : Nat := if tableType = byU32 then 8 else 4

/-- The reads of the block "First Byte": the hashes of positions 0 and 1, as
pairs of a position and a width. -/
def startReads (e : Env) : List (Nat × Nat) :=
  [(0, hashWidth e.tableType), (1, hashWidth e.tableType)]

/-- The reads for hashing and for the four-byte comparisons of a pass through
a program point, as pairs of a position and a width: in the probe loop the
hash of the next `forwardIp` and `LZ4_read32` of the candidate and of `ip`;
after a match the hashes of `ip - 2`, `ip` and `ip + 1` and `LZ4_read32` of
the candidate and of `ip`. -/
def readsAt (e : Env) : Label → Cursor → List (Nat × Nat)
  | .findMatch forwardIp step _, st =>
      if forwardIp + step > e.mflimit then []
      else
        [(forwardIp + step, hashWidth e.tableType),
         (LZ4_getPositionOnHash st.forwardH st.table e.tableType 0, 4), (forwardIp, 4)]
  | .nextMatch mtch _, st =>
      let matchCode := LZ4_count e.source (st.ip + MINMATCH) (mtch + MINMATCH) e.matchlimit
      let ip := st.ip + (MINMATCH + matchCode)
      if e.outputLimited = limitedOutput ∧
          ((st.op + 2 + (1 + LASTLITERALS) + matchCode >>> 8 : Nat) : Int) > e.maxOutputSize then
        []
      else if ip > e.mflimit then []
      else
        let table := LZ4_putPosition e.source (ip - 2) st.table e.tableType 0
        [(ip - 2, hashWidth e.tableType), (ip, hashWidth e.tableType),
         (LZ4_getPosition e.source ip table e.tableType 0, 4), (ip, 4),
         (ip + 1, hashWidth e.tableType)]

/-- The program point reached after `k` passes of the main loop, if the run
gets that far. -/
def stepN (e : Env) : Nat → Label → Cursor → Option (Label × Cursor)
  | 0, l, c => some (l, c)
  | k + 1, l, c =>
      match engineStep e l c with
      | .next l1 c1 => stepN e k l1 c1
      | _ => none

/-- The 18 bytes 1, 2, …, 18. -/
def eighteenDistinct : List Byte :=
  [1, 2, 3, 4, 5, 6, 7, 8, 9, 10, 11, 12, 13, 14, 15, 16, 17, 18]

/-- The least number of bytes a chunk that is not the last one consumes when
the loop goes on: `BLOCK_SIZE_2G - 65535`. -/
abbrev chunkProgress : Nat := BLOCK_SIZE_2G - 65535

/-- A sample per-chunk engine that consumes the whole chunk and writes one
byte. -/
def fullEncoder : Encoder :=
  fun dst _ src _ src_size hashTable _ mem => ⟨dst + 1, src + src_size.toNat, hashTable, mem⟩

/-! ## Memory: what the writes of the engine leave in the destination -/

theorem toByte_val (n : Nat) : (toByte n).val = n % 256 := rfl

theorem store_same (m : Mem) (p : Nat) (b : Byte) : store m p b p = b := by simp [store]

theorem store_other (m : Mem) (p : Nat) (b : Byte) (i : Nat) (h : i ≠ p) : store m p b i = m i := by
  simp [store, h]

theorem getD_append_left (E F : List Byte) (i : Nat) (h : i < E.length) :
    (E ++ F).getD i 0 = E.getD i 0 := by
  simp [List.getD_eq_getElem?_getD, List.getElem?_append_left h]

theorem getD_append_right (E F : List Byte) (i : Nat) :
    (E ++ F).getD (E.length + i) 0 = F.getD i 0 := by
  simp [List.getD_eq_getElem?_getD, List.getElem?_append_right]

theorem outBytes_length (d : Mem) (n : Nat) : (outBytes d n).length = n := by
  simp [outBytes]

theorem Written.outBytes_eq {d : Mem} {E : List Byte} (h : Written d E) :
    outBytes d E.length = E := by
  apply List.ext_getElem
  · simp [outBytes]
  · intro i h1 h2
    have := h i h2
    simp [outBytes, this, List.getD_eq_getElem?_getD, List.getElem?_eq_getElem h2]

theorem written_nil (d : Mem) : Written d [] := by
  intro i hi; simp at hi

theorem Written.emits {d d' : Mem} {E F : List Byte} (h : Written d E)
    (hw : Emits d E.length d' F) : Written d' (E ++ F) := by
  intro i hi
  by_cases h1 : i < E.length
  · rw [hw.1 i h1, h i h1, getD_append_left _ _ _ h1]
  · have h2 : i = E.length + (i - E.length) := by omega
    rw [h2, hw.2 _ (by simp at hi; omega), getD_append_right]

theorem Written.left {d : Mem} {E F : List Byte} (h : Written d (E ++ F)) : Written d E := by
  intro i hi
  rw [h i (by simp; omega), getD_append_left _ _ _ hi]

theorem Emits.nil (d : Mem) (op : Nat) : Emits d op d [] :=
  ⟨fun _ _ => rfl, fun i hi => by simp at hi⟩

theorem Emits.append {d d1 d2 : Mem} {op : Nat} {F G : List Byte} (h1 : Emits d op d1 F)
    (h2 : Emits d1 (op + F.length) d2 G) : Emits d op d2 (F ++ G) := by
  constructor
  · intro i hi
    rw [h2.1 i (by omega), h1.1 i hi]
  · intro i hi
    by_cases h : i < F.length
    · rw [h2.1 _ (by omega), h1.2 i h, getD_append_left _ _ _ h]
    · have e : i = F.length + (i - F.length) := by omega
      have := h2.2 (i - F.length) (by simp at hi; omega)
      rw [e, getD_append_right, ← this]
      congr 1; omega

theorem Emits.append_at {d d1 d2 : Mem} {op op2 : Nat} {F G : List Byte} (h1 : Emits d op d1 F)
    (h2 : Emits d1 op2 d2 G) (hop : op2 = op + F.length) : Emits d op d2 (F ++ G) := by
  subst hop; exact h1.append h2

theorem Emits.store (d : Mem) (op : Nat) (b : Byte) : Emits d op (store d op b) [b] := by
  constructor
  · intro i hi; exact store_other _ _ _ _ (by omega)
  · intro i hi
    have : i = 0 := by simpa using hi
    subst this; simp [store_same]

theorem Emits.memcpy (d : Mem) (op : Nat) (src : List Byte) (s n n' : Nat) (h : n ≤ n') :
    Emits d op (LZ4_memcpy d op src s n') (slice src s n) := by
  constructor
  · intro i hi; simp [LZ4_memcpy]; omega
  · intro i hi
    simp [slice] at hi
    simp [LZ4_memcpy, slice, List.getD_eq_getElem?_getD, hi]
    intro h'; omega

theorem Emits.writeLE16 (d : Mem) (op v : Nat) :
    Emits d op (LZ4_writeLE16 d op v) [toByte v, toByte (v >>> 8)] := by
  have := (Emits.store d op (toByte v)).append (Emits.store _ (op + 1) (toByte (v >>> 8)))
  simpa [LZ4_writeLE16] using this

theorem writeLength_spec : ∀ (n len : Nat) (m : Mem) (op : Nat), len / 255 ≤ n →
    (writeLength n m op len).2 = op + len / 255 + 1 ∧
    Emits m op (writeLength n m op len).1
      (List.replicate (len / 255) (toByte 255) ++ [toByte (len % 255)]) := by
  intro n
  induction n with
  | zero =>
    intro len m op h
    have h0 : len / 255 = 0 := by omega
    have h1 : len % 255 = len := by omega
    simp only [writeLength, h0, h1, List.replicate_zero, List.nil_append, Nat.add_zero, true_and]
    exact Emits.store _ _ _
  | succ n ih =>
    intro len m op h
    by_cases hl : len ≥ 255
    · have hq : len / 255 = (len - 255) / 255 + 1 := by omega
      have hr : len % 255 = (len - 255) % 255 := by omega
      obtain ⟨i1, i2⟩ := ih (len - 255) (store m op (toByte 255)) (op + 1) (by omega)
      simp only [writeLength, hl, if_true]
      refine ⟨by rw [i1]; omega, ?_⟩
      rw [hq, hr, List.replicate_succ, List.cons_append]
      exact (Emits.store m op (toByte 255)).append i2
    · have h0 : len / 255 = 0 := by omega
      have h1 : len % 255 = len := by omega
      simp only [writeLength, hl, if_false, h0, h1, List.replicate_zero, List.nil_append,
        Nat.add_zero, true_and]
      exact Emits.store _ _ _

theorem lenBytes_length (n : Nat) : (lenBytes n).length = lenFieldSize n := by
  unfold lenBytes lenFieldSize
  split <;> simp

theorem encLiterals_length (lits : List Byte) (mc : Nat) :
    (encLiterals lits mc).length = 1 + lenFieldSize lits.length + lits.length := by
  simp [encLiterals, lenBytes_length]; omega

theorem slice_length (src : List Byte) (s n : Nat) : (slice src s n).length = n := by
  simp [slice]

theorem Emits.wildCopy (d : Mem) (op : Nat) (src : List Byte) (s n e : Nat) (he : e = op + n) :
    Emits d op (LZ4_wildCopy d op src s e) (slice src s n) := by
  subst he
  unfold LZ4_wildCopy
  apply Emits.memcpy
  simp only [WILDCOPYLENGTH]
  have : op + n - op = n := by omega
  rw [this]
  have h := Nat.le_max_right 1 ((n + (8 - 1)) / 8)
  omega

theorem encodeLiterals_none (e : Env) (ip anchor op : Nat) (dest : Mem) :
    encodeLiterals e ip anchor op dest = none ↔
      (e.outputLimited = limitedOutput ∧
        ((op + 1 + (ip - anchor) + (2 + 1 + LASTLITERALS) + (ip - anchor) / 255 : Nat) : Int)
          > e.maxOutputSize) := by
  unfold encodeLiterals
  simp only
  split <;> simp_all

/-- The literal header and the literals, as written by "Encode Literals" and by
"Encode Last Literals". -/
theorem emits_literals (dest : Mem) (op : Nat) (src : List Byte) (anchor L : Nat) (r : Mem × Nat)
    (h : r = if L ≥ RUN_MASK then
        writeLength (L - RUN_MASK) (store dest op (toByte (RUN_MASK <<< ML_BITS))) (op + 1)
          (L - RUN_MASK)
      else (store dest op (toByte (L <<< ML_BITS)), op + 1)) :
    r.2 = op + 1 + lenFieldSize L ∧
    ∀ d2, Emits r.1 r.2 d2 (slice src anchor L) →
      Emits dest op d2 (encLiterals (slice src anchor L) 0) := by
  have h' : r = if L ≥ 15 then writeLength (L - 15) (store dest op (toByte 240)) (op + 1) (L - 15)
      else (store dest op (toByte (L <<< 4)), op + 1) := h
  clear h
  by_cases hL : L ≥ 15
  · rw [if_pos hL] at h'
    obtain ⟨w1, w2⟩ := writeLength_spec (L - 15) (L - 15) (store dest op (toByte 240)) (op + 1)
      (Nat.div_le_self _ _)
    rw [← h'] at w1 w2
    have hf : lenFieldSize L = (L - 15) / 255 + 1 := by simp [lenFieldSize, hL]
    have hl : lenBytes L =
        List.replicate ((L - 15) / 255) (toByte 255) ++ [toByte ((L - 15) % 255)] := by
      simp [lenBytes, hL]
    have ht : tokenByte L 0 = toByte 240 := by
      have : min L 15 = 15 := by omega
      simp only [tokenByte, this]
      rfl
    refine ⟨by rw [w1, hf]; omega, fun d2 h2 => ?_⟩
    have e1 := (Emits.store dest op (toByte 240)).append_at w2 (by simp)
    have e2 := e1.append_at h2 (by simp [w1]; omega)
    simp only [encLiterals, slice_length, hl, ht]
    simpa using e2
  · rw [if_neg hL] at h'
    have hf : lenFieldSize L = 0 := by simp [lenFieldSize, hL]
    have hl : lenBytes L = [] := by simp [lenBytes, hL]
    have ht : tokenByte L 0 = toByte (L <<< 4) := by
      have : min L 15 = L := by omega
      simp only [tokenByte, this, Nat.shiftLeft_eq]
      norm_num
    subst h'
    refine ⟨by simp [hf], fun d2 h2 => ?_⟩
    have e1 := (Emits.store dest op (toByte (L <<< 4))).append_at h2 (by simp)
    simp only [encLiterals, slice_length, hl, ht]
    simpa using e1

theorem encodeLiterals_spec (e : Env) (ip anchor op : Nat) (dest : Mem) (t op' : Nat) (d' : Mem)
    (h : encodeLiterals e ip anchor op dest = some (t, op', d')) :
    t = op ∧ op' = op + 1 + lenFieldSize (ip - anchor) + (ip - anchor) ∧
      Emits dest op d' (encLiterals (slice e.source anchor (ip - anchor)) 0) := by
  unfold encodeLiterals at h
  simp only at h
  split at h
  · exact absurd h (by simp)
  · simp only [Option.some.injEq, Prod.mk.injEq] at h
    obtain ⟨h1, h2, h3⟩ := h
    obtain ⟨a1, a2⟩ := emits_literals dest op e.source anchor (ip - anchor) _ rfl
    refine ⟨h1.symm, ?_, ?_⟩
    · rw [← h2, a1]
    · rw [← h3]
      exact a2 _ (Emits.wildCopy _ _ _ _ _ _ rfl)

theorem lastLiterals_trace (e : Env) (anchor op : Nat) (dest : Mem) (table : Table) :
    match lastTrace e anchor op with
    | none => (lastLiterals e anchor op dest table).ret = 0
    | some b =>
        b = ([], slice e.source anchor (e.iend - anchor)) ∧
        (lastLiterals e anchor op dest table).ret = op + (encLiterals b.2 0).length ∧
        Emits dest op (lastLiterals e anchor op dest table).dest (encLiterals b.2 0) := by
  by_cases hc : e.outputLimited = limitedOutput ∧
      ((op + (e.iend - anchor) + 1 + ((e.iend - anchor) + 255 - RUN_MASK) / 255 : Nat) : Int)
        > e.maxOutputSize % 2 ^ 32
  · have h1 : lastTrace e anchor op = none := if_pos hc
    have h2 : lastLiterals e anchor op dest table = ⟨0, dest, table⟩ := if_pos hc
    rw [h1, h2]
  · have h1 : lastTrace e anchor op = some ([], slice e.source anchor (e.iend - anchor)) :=
      if_neg hc
    obtain ⟨a1, a2⟩ := emits_literals dest op e.source anchor (e.iend - anchor) _ rfl
    rw [h1]
    unfold lastLiterals
    dsimp only
    rw [if_neg hc]
    refine ⟨rfl, ?_, ?_⟩
    · dsimp only
      rw [a1, encLiterals_length, slice_length]; omega
    · exact a2 _ (Emits.memcpy _ _ _ _ _ _ (Nat.le_refl _))

theorem write32_ff (m : Mem) (p : Nat) :
    (∀ i, i < p → LZ4_write32 m p 0xFFFFFFFF i = m i) ∧
    (∀ i, p ≤ i → i < p + 4 → LZ4_write32 m p 0xFFFFFFFF i = toByte 255) ∧
    (∀ i, p + 4 ≤ i → LZ4_write32 m p 0xFFFFFFFF i = m i) := by
  refine ⟨fun i hi => ?_, fun i h1 h2 => ?_, fun i hi => ?_⟩
  · simp only [LZ4_write32, store]
    rw [if_neg (by omega), if_neg (by omega), if_neg (by omega), if_neg (by omega)]
  · simp only [LZ4_write32, store]
    have : i = p ∨ i = p + 1 ∨ i = p + 2 ∨ i = p + 3 := by omega
    rcases this with h | h | h | h <;> subst h <;> simp <;> rfl
  · simp only [LZ4_write32, store]
    rw [if_neg (by omega), if_neg (by omega), if_neg (by omega), if_neg (by omega)]

theorem matchLengthLoop_spec : ∀ (n mc : Nat) (m : Mem) (op : Nat), mc / 1020 ≤ n →
    (matchLengthLoop n m op mc).2.1 = op + 4 * (mc / 1020) ∧
    (matchLengthLoop n m op mc).2.2 = mc % 1020 ∧
    (∀ i, i < op + 4 → (matchLengthLoop n m op mc).1 i = m i) ∧
    (∀ i, op + 4 ≤ i → i < op + 4 + 4 * (mc / 1020) →
      (matchLengthLoop n m op mc).1 i = toByte 255) := by
  intro n
  induction n with
  | zero =>
    intro mc m op h
    have h0 : mc / 1020 = 0 := by omega
    have h1 : mc % 1020 = mc := by omega
    have hd : matchLengthLoop 0 m op mc = (m, op, mc) := rfl
    rw [hd]
    dsimp only
    exact ⟨by omega, by omega, fun _ _ => rfl, fun i a b => by omega⟩
  | succ n ih =>
    intro mc m op h
    by_cases hl : mc ≥ 4 * 255
    · have hq : mc / 1020 = (mc - 4 * 255) / 1020 + 1 := by omega
      have hr : mc % 1020 = (mc - 4 * 255) % 1020 := by omega
      obtain ⟨i1, i2, i3, i4⟩ := ih (mc - 4 * 255) (LZ4_write32 m (op + 4) 0xFFFFFFFF) (op + 4)
        (by omega)
      obtain ⟨w1, w2, w3⟩ := write32_ff m (op + 4)
      simp only [matchLengthLoop, hl, if_true]
      refine ⟨by rw [i1]; omega, by rw [i2, hr], fun i hi => ?_, fun i h1 h2 => ?_⟩
      · rw [i3 i (by omega), w1 i hi]
      · by_cases h8 : i < op + 4 + 4
        · rw [i3 i h8, w2 i h1 h8]
        · exact i4 i (by omega) (by omega)
    · have h0 : mc / 1020 = 0 := by omega
      have h1 : mc % 1020 = mc := by omega
      have hd : matchLengthLoop (n + 1) m op mc = (m, op, mc) := by
        simp only [matchLengthLoop, hl, if_false]
      rw [hd]
      dsimp only
      exact ⟨by omega, by omega, fun _ _ => rfl, fun i a b => by omega⟩

theorem getD_replicate_append (n : Nat) (b c : Byte) (i : Nat) (hi : i ≤ n) :
    (List.replicate n b ++ [c]).getD i 0 = if i < n then b else c := by
  by_cases h : i < n
  · rw [if_pos h, getD_append_left _ _ _ (by simpa using h)]
    simp [List.getD_eq_getElem?_getD, List.getElem?_replicate, h]
  · have : i = (List.replicate n b).length + 0 := by simp; omega
    rw [if_neg h, this, getD_append_right]
    rfl

theorem encodeMatchLength_spec (dest : Mem) (op token mc : Nat) (ht : token < op) :
    (encodeMatchLength dest op token mc).2 = op + lenFieldSize mc ∧
    (encodeMatchLength dest op token mc).1 token = toByte ((dest token).val + min mc 15) ∧
    (∀ i, i < op → i ≠ token → (encodeMatchLength dest op token mc).1 i = dest i) ∧
    (∀ i, i < (lenBytes mc).length →
      (encodeMatchLength dest op token mc).1 (op + i) = (lenBytes mc).getD i 0) := by
  have hdef : encodeMatchLength dest op token mc =
      if mc ≥ 15 then
        let d1 := LZ4_write32 (store dest token (toByte ((dest token).val + 15))) op 0xFFFFFFFF
        let r := matchLengthLoop (mc - 15) d1 op (mc - 15)
        (store r.1 (r.2.1 + r.2.2 / 255) (toByte (r.2.2 % 255)), r.2.1 + r.2.2 / 255 + 1)
      else (store dest token (toByte ((dest token).val + mc)), op) := rfl
  rw [hdef]
  by_cases hm : mc ≥ 15
  · simp only [if_pos hm]
    obtain ⟨l1, l2, l3, l4⟩ := matchLengthLoop_spec (mc - 15) (mc - 15)
      (LZ4_write32 (store dest token (toByte ((dest token).val + 15))) op 0xFFFFFFFF) op
      (Nat.div_le_self _ _)
    obtain ⟨w1, w2, w3⟩ := write32_ff (store dest token (toByte ((dest token).val + 15))) op
    have hmin : min mc 15 = 15 := by omega
    have hend : op + 4 * ((mc - 15) / 1020) + (mc - 15) % 1020 / 255 = op + (mc - 15) / 255 := by
      omega
    have hrem : (mc - 15) % 1020 % 255 = (mc - 15) % 255 := by omega
    rw [l1, l2, hend, hrem]
    have hf : lenFieldSize mc = (mc - 15) / 255 + 1 := by simp [lenFieldSize, hm]
    have hl : lenBytes mc =
        List.replicate ((mc - 15) / 255) (toByte 255) ++ [toByte ((mc - 15) % 255)] := by
      simp [lenBytes, hm]
    refine ⟨by rw [hf]; omega, ?_, fun i h1 h2 => ?_, fun i hi => ?_⟩
    · rw [store_other _ _ _ _ (by omega), l3 _ (by omega), w1 _ ht, store_same, hmin]
    · rw [store_other _ _ _ _ (by omega), l3 _ (by omega), w1 _ h1, store_other _ _ _ _ h2]
    · rw [hl] at hi ⊢
      simp only [List.length_append, List.length_replicate, List.length_singleton] at hi
      rw [getD_replicate_append _ _ _ _ (by omega)]
      by_cases h : i < (mc - 15) / 255
      · rw [if_pos h, store_other _ _ _ _ (by omega)]
        by_cases h4 : op + i < op + 4
        · rw [l3 _ h4, w2 _ (by omega) h4]
        · exact l4 _ (by omega) (by omega)
      · have : i = (mc - 15) / 255 := by omega
        rw [if_neg h, this, store_same]
  · simp only [if_neg hm]
    have hmin : min mc 15 = mc := by omega
    have hf : lenFieldSize mc = 0 := by simp [lenFieldSize, hm]
    have hl : lenBytes mc = [] := by simp [lenBytes, hm]
    refine ⟨by rw [hf]; rfl, by rw [store_same, hmin], fun i _ h2 => store_other _ _ _ _ h2,
      fun i hi => ?_⟩
    rw [hl] at hi; simp at hi

theorem Refines.consSeq {r : Option (Option (List Seq × List Byte))} {o : Option Outcome}
    {E : List Byte} {s : Seq} (h : Refines r o (E ++ encSeq s)) : Refines (consSeq s r) o E := by
  match r, h with
  | none, h => exact h
  | some none, h => exact h
  | some (some b), h =>
    obtain ⟨x, h1, h2, h3⟩ := h
    refine ⟨x, h1, ?_, ?_⟩
    · simpa [encBlock, List.append_assoc] using h2
    · simpa [encBlock, List.append_assoc] using h3

theorem Refines.last (e : Env) (anchor op : Nat) (d : Mem) (t : Table) (E : List Byte)
    (hw : Written d E) (hop : op = E.length) :
    Refines (some (lastTrace e anchor op)) (some (lastLiterals e anchor op d t)) E := by
  have h := lastLiterals_trace e anchor op d t
  match hl : lastTrace e anchor op with
  | none =>
    rw [hl] at h
    exact ⟨_, rfl, h⟩
  | some b =>
    rw [hl] at h
    obtain ⟨h1, h2, h3⟩ := h
    subst hop
    refine ⟨_, rfl, ?_, ?_⟩
    · rw [h2, h1]; simp [encBlock]
    · rw [h1]; rw [h1] at h3; exact hw.emits h3

theorem tokenByte_add (L mc : Nat) :
    toByte ((tokenByte L 0).val + min mc 15) = tokenByte L mc := by
  apply Fin.ext
  simp only [tokenByte, toByte_val]
  have h1 : min L 15 ≤ 15 := Nat.min_le_right _ _
  have h2 : min mc 15 ≤ 15 := Nat.min_le_right _ _
  have h3 : min 0 15 = 0 := by decide
  rw [h3]
  omega

/-- The bytes of a sequence once the offset and the match length are encoded
behind the pending literals. -/
theorem written_seq (d : Mem) (E : List Byte) (lits : List Byte) (v mc : Nat)
    (hw : Written d (E ++ encLiterals lits 0)) :
    (encodeMatchLength (LZ4_writeLE16 d (E ++ encLiterals lits 0).length v)
        ((E ++ encLiterals lits 0).length + 2) E.length mc).2 =
      (E ++ encSeq ⟨lits, v, mc⟩).length ∧
    Written (encodeMatchLength (LZ4_writeLE16 d (E ++ encLiterals lits 0).length v)
        ((E ++ encLiterals lits 0).length + 2) E.length mc).1 (E ++ encSeq ⟨lits, v, mc⟩) := by
  have hlen : (E ++ encLiterals lits 0).length = E.length + 1 + (lenBytes lits.length ++ lits).length := by
    simp [encLiterals]; omega
  obtain ⟨s1, s2, s3, s4⟩ := encodeMatchLength_spec
    (LZ4_writeLE16 d (E ++ encLiterals lits 0).length v)
    ((E ++ encLiterals lits 0).length + 2) E.length mc (by omega)
  obtain ⟨o1, o2⟩ := Emits.writeLE16 d (E ++ encLiterals lits 0).length v
  have hseq : E ++ encSeq ⟨lits, v, mc⟩ =
      (E ++ encLiterals lits mc) ++ ([toByte v, toByte (v >>> 8)] ++ lenBytes mc) := by
    simp [encSeq]
  have hlen' : (E ++ encLiterals lits mc).length = (E ++ encLiterals lits 0).length := by
    simp [encLiterals]
  refine ⟨?_, ?_⟩
  · rw [s1, hseq]
    have hPm : (encLiterals lits mc).length = (encLiterals lits 0).length := by
      simp [encLiterals]
    simp only [List.length_append, List.length_cons, List.length_nil, lenBytes_length, hPm]
    omega
  · rw [hseq]
    have hA : Written (encodeMatchLength (LZ4_writeLE16 d (E ++ encLiterals lits 0).length v)
        ((E ++ encLiterals lits 0).length + 2) E.length mc).1 (E ++ encLiterals lits mc) := by
      intro i hi
      rw [hlen'] at hi
      by_cases ht : i = E.length
      · subst ht
        rw [s2, o1 _ (by omega), hw _ hi]
        have e1 : (E ++ encLiterals lits 0).getD E.length 0 = tokenByte lits.length 0 := by
          have := getD_append_right E (encLiterals lits 0) 0
          simpa [encLiterals] using this
        have e2 : (E ++ encLiterals lits mc).getD E.length 0 = tokenByte lits.length mc := by
          have := getD_append_right E (encLiterals lits mc) 0
          simpa [encLiterals] using this
        rw [e1, e2, tokenByte_add]
      · rw [s3 _ (by omega) ht, o1 _ hi, hw _ hi]
        by_cases hlt : i < E.length
        · rw [getD_append_left _ _ _ hlt, getD_append_left _ _ _ hlt]
        · have e : i = E.length + ((i - E.length - 1) + 1) := by omega
          rw [e, getD_append_right, getD_append_right]
          simp [encLiterals]
    apply hA.emits
    rw [hlen']
    constructor
    · intro i hi
      rfl
    · intro i hi
      have hi' : i < 2 + (lenBytes mc).length := by
        rw [List.length_append] at hi
        simpa using hi
      by_cases h2 : i < 2
      · rw [getD_append_left _ _ _ (by simpa using h2), s3 _ (by omega) (by omega)]
        exact o2 i (by simpa using h2)
      · obtain ⟨j, rfl⟩ : ∃ j, i = 2 + j := ⟨i - 2, by omega⟩
        have key : ([toByte v, toByte (v >>> 8)] ++ lenBytes mc).getD (2 + j) 0 =
            (lenBytes mc).getD j 0 :=
          getD_append_right [toByte v, toByte (v >>> 8)] (lenBytes mc) j
        rw [key, ← s4 j (by omega), Nat.add_assoc]

/-! ## The engine refines its memory-free run -/

theorem run_trace (e : Env) : ∀ (fuel : Nat) (l : Label) (st : EngState) (E : List Byte),
    Written st.dest (E ++ pendingBytes e l st.cur) →
    st.op = (E ++ pendingBytes e l st.cur).length →
    (∀ m t, l = .nextMatch m t → t = E.length) →
    Refines (trace e fuel l st.cur) (run e fuel l st) E := by
  intro fuel
  induction fuel with
  | zero =>
    intro l st E _ _ _
    simp [trace, run, Refines]
  | succ fuel ih =>
    intro l st E hw hop htok
    cases l with
    | findMatch f step smn =>
      simp only [pendingBytes, List.append_nil] at hw hop
      rw [run, trace]
      dsimp only [EngState.cur]
      by_cases h1 : f + step > e.mflimit
      · rw [if_pos h1, if_pos h1]
        exact Refines.last e _ _ _ _ E hw hop
      · rw [if_neg h1, if_neg h1]
        by_cases h2 : (if e.tableType = byU16 then False
            else LZ4_getPositionOnHash st.forwardH st.table e.tableType 0 + MAX_DISTANCE < f) ∨
            LZ4_read32 e.source (LZ4_getPositionOnHash st.forwardH st.table e.tableType 0) ≠
              LZ4_read32 e.source f
        · rw [if_pos h2, if_pos h2]
          exact ih _ ⟨f, st.anchor, st.op, _, _, st.dest⟩ E
            (by simpa [pendingBytes] using hw) (by simpa [pendingBytes] using hop)
            (fun m t h => by cases h)
        · rw [if_neg h2, if_neg h2]
          generalize hc : catchUp e.source st.anchor 0 f f
            (LZ4_getPositionOnHash st.forwardH st.table e.tableType 0) = c
          match hl : encodeLiterals e c.1 st.anchor st.op st.dest with
          | none =>
            have hn := (encodeLiterals_none e c.1 st.anchor st.op st.dest).1 hl
            rw [if_pos hn]
            exact ⟨_, rfl, rfl⟩
          | some (token, op, dest) =>
            have hn : ¬ _ := fun h => by
              rw [(encodeLiterals_none e c.1 st.anchor st.op st.dest).2 h] at hl
              cases hl
            rw [if_neg hn]
            obtain ⟨s1, s2, s3⟩ := encodeLiterals_spec e c.1 st.anchor st.op st.dest _ _ _ hl
            subst s1
            dsimp only
            have hw' : Written dest (E ++ encLiterals (slice e.source st.anchor (c.1 - st.anchor)) 0) :=
              hw.emits (hop ▸ s3)
            subst s2
            refine ih (.nextMatch c.2 st.op) ⟨c.1, st.anchor, _, _, _, dest⟩ E ?_ ?_ ?_
            · simpa [pendingBytes, EngState.cur] using hw'
            · simp [pendingBytes, EngState.cur, encLiterals_length, slice_length, hop]; omega
            · intro m t h; cases h; exact hop
    | nextMatch mtch token =>
      have ht : token = E.length := htok _ _ rfl
      subst ht
      simp only [pendingBytes, EngState.cur] at hw hop
      rw [run, trace]
      dsimp only [EngState.cur]
      generalize hmc : LZ4_count e.source (st.ip + MINMATCH) (mtch + MINMATCH) e.matchlimit = mc
      generalize hoff : (((st.ip : Int) - (mtch : Int)) % 2 ^ 16).toNat = off
      by_cases h1 : e.outputLimited = limitedOutput ∧
          ((st.op + 2 + (1 + LASTLITERALS) + mc >>> 8 : Nat) : Int) > e.maxOutputSize
      · rw [if_pos h1, if_pos h1]
        exact ⟨_, rfl, rfl⟩
      · rw [if_neg h1, if_neg h1]
        obtain ⟨q1, q2⟩ := written_seq st.dest E (slice e.source st.anchor (st.ip - st.anchor))
          off mc hw
        rw [← hop] at q1 q2
        generalize hwr : encodeMatchLength (LZ4_writeLE16 st.dest st.op off) (st.op + 2) E.length mc
          = w at q1 q2
        have hop2 : st.op + 2 + lenFieldSize mc = w.2 := by
          rw [q1, List.length_append, encSeq, List.length_append, encLiterals_length,
            List.length_append, lenBytes_length, slice_length]
          rw [hop, List.length_append, encLiterals_length, slice_length]
          simp only [List.length_cons, List.length_nil]
          omega
        rw [hop2]
        by_cases h2 : st.ip + (MINMATCH + mc) > e.mflimit
        · rw [if_pos h2, if_pos h2]
          exact Refines.consSeq (Refines.last e _ _ _ _ _ q2 q1)
        · rw [if_neg h2, if_neg h2]
          by_cases h3 : LZ4_getPosition e.source (st.ip + (MINMATCH + mc))
                (LZ4_putPosition e.source (st.ip + (MINMATCH + mc) - 2) st.table e.tableType 0)
                e.tableType 0 + MAX_DISTANCE ≥ st.ip + (MINMATCH + mc) ∧
              LZ4_read32 e.source (LZ4_getPosition e.source (st.ip + (MINMATCH + mc))
                (LZ4_putPosition e.source (st.ip + (MINMATCH + mc) - 2) st.table e.tableType 0)
                e.tableType 0) = LZ4_read32 e.source (st.ip + (MINMATCH + mc))
          · rw [if_pos h3, if_pos h3]
            have hp : ∀ a : Nat, encLiterals (slice e.source a (a - a)) 0 = [toByte 0] := by
              intro a; simp [slice, encLiterals, lenBytes, tokenByte]
            apply Refines.consSeq
            refine ih _ ⟨_, _, _, st.forwardH, _, store w.1 w.2 (toByte 0)⟩ _ ?_ ?_ ?_
            · simp only [pendingBytes, EngState.cur, hp]
              exact q2.emits (q1 ▸ Emits.store _ _ _)
            · simp only [pendingBytes, EngState.cur, hp, List.length_append, List.length_singleton]
              rw [q1, List.length_append]
            · intro m t h; cases h; exact q1
          · rw [if_neg h3, if_neg h3]
            apply Refines.consSeq
            refine ih _ ⟨_, _, _, _, _, w.1⟩ _ ?_ ?_ ?_
            · simpa [pendingBytes] using q2
            · simpa [pendingBytes] using q1
            · intro m t h; cases h

/-! ## Invariants of the memory-free run -/

theorem readByte_lt (S : List Byte) (p : Nat) : readByte S p < 256 := (S.getD p 0).isLt

theorem read32_eq {S : List Byte} {a b : Nat} (h : LZ4_read32 S a = LZ4_read32 S b) :
    ∀ i, i < 4 → readByte S (a + i) = readByte S (b + i) := by
  simp only [LZ4_read32, Nat.shiftLeft_eq] at h
  have a0 := readByte_lt S a
  have a1 := readByte_lt S (a + 1)
  have a2 := readByte_lt S (a + 2)
  have a3 := readByte_lt S (a + 3)
  have b0 := readByte_lt S b
  have b1 := readByte_lt S (b + 1)
  have b2 := readByte_lt S (b + 2)
  have b3 := readByte_lt S (b + 3)
  intro i hi
  have : i = 0 ∨ i = 1 ∨ i = 2 ∨ i = 3 := by omega
  rcases this with h' | h' | h' | h' <;> subst h' <;> first | omega | (simp only [Nat.add_zero]; omega)

theorem catchUp_spec (S : List Byte) (anchor : Nat) : ∀ (n ip m : Nat),
    (catchUp S anchor 0 n ip m).1 ≤ ip ∧
    (catchUp S anchor 0 n ip m).2 + ip = m + (catchUp S anchor 0 n ip m).1 ∧
    (catchUp S anchor 0 n ip m).2 ≤ m ∧
    (anchor ≤ ip → anchor ≤ (catchUp S anchor 0 n ip m).1) ∧
    (∀ j, j < ip - (catchUp S anchor 0 n ip m).1 →
      readByte S ((catchUp S anchor 0 n ip m).1 + j) =
        readByte S ((catchUp S anchor 0 n ip m).2 + j)) := by
  intro n
  induction n with
  | zero =>
    intro ip m
    have hd : catchUp S anchor 0 0 ip m = (ip, m) := rfl
    rw [hd]
    exact ⟨Nat.le_refl _, rfl, Nat.le_refl _, fun h => h, fun j hj => by simp at hj⟩
  | succ n ih =>
    intro ip m
    by_cases hc : (ip > anchor ∧ m > 0) ∧ readByte S (ip - 1) = readByte S (m - 1)
    · have hd : catchUp S anchor 0 (n + 1) ip m = catchUp S anchor 0 n (ip - 1) (m - 1) := by
        simp only [catchUp, hc, and_self, if_true]
      rw [hd]
      obtain ⟨i1, i2, i3, i4, i5⟩ := ih (ip - 1) (m - 1)
      obtain ⟨⟨c1, c2⟩, c3⟩ := hc
      refine ⟨by omega, by omega, by omega, fun _ => i4 (by omega), fun j hj => ?_⟩
      by_cases hj' : j < ip - 1 - (catchUp S anchor 0 n (ip - 1) (m - 1)).1
      · exact i5 j hj'
      · have e1 : (catchUp S anchor 0 n (ip - 1) (m - 1)).1 + j = ip - 1 := by omega
        have e2 : (catchUp S anchor 0 n (ip - 1) (m - 1)).2 + j = m - 1 := by omega
        rw [e1, e2, c3]
    · have hd : catchUp S anchor 0 (n + 1) ip m = (ip, m) := by
        simp only [catchUp, hc, if_false]
      rw [hd]
      exact ⟨Nat.le_refl _, rfl, Nat.le_refl _, fun h => h, fun j hj => by simp at hj⟩

theorem countLoop_spec (S : List Byte) (lim : Nat) : ∀ (n a b : Nat), lim - a ≤ n →
    a ≤ countLoop S lim n a b ∧
    (a ≤ lim → countLoop S lim n a b ≤ lim) ∧
    (∀ i, i < countLoop S lim n a b - a → readByte S (b + i) = readByte S (a + i)) ∧
    (∀ j, a + j ≤ lim → (∀ i, i < j → readByte S (b + i) = readByte S (a + i)) →
      a + j ≤ countLoop S lim n a b) := by
  intro n
  induction n with
  | zero =>
    intro a b h
    have hd : countLoop S lim 0 a b = a := rfl
    rw [hd]
    refine ⟨Nat.le_refl _, fun h => h, fun i hi => by omega, fun j hj _ => by omega⟩
  | succ n ih =>
    intro a b h
    by_cases hc : a < lim ∧ readByte S b = readByte S a
    · have hd : countLoop S lim (n + 1) a b = countLoop S lim n (a + 1) (b + 1) := by
        simp only [countLoop, hc, and_self, if_true]
      rw [hd]
      obtain ⟨i1, i2, i3, i4⟩ := ih (a + 1) (b + 1) (by omega)
      refine ⟨by omega, fun _ => i2 (by omega), fun i hi => ?_, fun j hj hall => ?_⟩
      · by_cases h0 : i = 0
        · subst h0; exact hc.2
        · have := i3 (i - 1) (by omega)
          have e1 : b + 1 + (i - 1) = b + i := by omega
          have e2 : a + 1 + (i - 1) = a + i := by omega
          rwa [e1, e2] at this
      · by_cases h0 : j = 0
        · subst h0; omega
        · have := i4 (j - 1) (by omega) (fun i hi => by
            have := hall (i + 1) (by omega)
            have e1 : b + 1 + i = b + (i + 1) := by omega
            have e2 : a + 1 + i = a + (i + 1) := by omega
            rwa [e1, e2])
          omega
    · have hd : countLoop S lim (n + 1) a b = a := by
        simp only [countLoop, hc, if_false]
      rw [hd]
      refine ⟨Nat.le_refl _, fun h => h, fun i hi => by omega, fun j hj hall => ?_⟩
      by_cases h0 : j = 0
      · omega
      · exfalso
        apply hc
        exact ⟨by omega, by simpa using hall 0 (by omega)⟩

theorem count_spec (S : List Byte) (a b lim : Nat) :
    (a ≤ lim → a + LZ4_count S a b lim ≤ lim) ∧
    (∀ i, i < LZ4_count S a b lim → readByte S (b + i) = readByte S (a + i)) ∧
    (∀ j, a + j ≤ lim → (∀ i, i < j → readByte S (b + i) = readByte S (a + i)) →
      j ≤ LZ4_count S a b lim) := by
  obtain ⟨i1, i2, i3, i4⟩ := countLoop_spec S lim (lim - a) a b (Nat.le_refl _)
  unfold LZ4_count
  refine ⟨fun h => by have := i2 h; omega, fun i hi => i3 i hi, fun j hj hall => ?_⟩
  have := i4 j hj hall
  omega

theorem put_lt (p h : Nat) (t : Table) (tt : tableType_t) (B : Nat)
    (ht : ∀ x, t x < B) (hp : p < B) : ∀ x, LZ4_putPositionOnHash p h t tt 0 x < B := by
  intro x
  cases tt <;> simp only [LZ4_putPositionOnHash, setEntry] <;> split
  · have := Nat.mod_le (p - 0) (2 ^ 32); omega
  · exact ht x
  · have := Nat.mod_le (p - 0) (2 ^ 16); omega
  · exact ht x

theorem get_eq (h : Nat) (t : Table) (tt : tableType_t) :
    LZ4_getPositionOnHash h t tt 0 = t h := by
  cases tt <;> rfl

theorem slice_eq_take_drop (S : List Byte) (a n : Nat) (h : a + n ≤ S.length) :
    slice S a n = (S.drop a).take n := by
  apply List.ext_getElem
  · simp [slice]; omega
  · intro i h1 h2
    simp [slice] at h1
    simp [slice, List.getD_eq_getElem?_getD]
    rw [List.getElem?_eq_getElem (by omega)]
    simp

theorem slice_eq_drop (S : List Byte) (a : Nat) (h : a ≤ S.length) :
    slice S a (S.length - a) = S.drop a := by
  rw [slice_eq_take_drop _ _ _ (by omega)]
  apply List.take_of_length_le
  simp

theorem lastTrace_good (e : Env) (hsz : e.inputSize = e.source.length) (a op : Nat)
    (ha : a ≤ e.inputSize) : TraceGood e a (lastTrace e a op) := by
  unfold lastTrace
  dsimp only
  constructor
  · intro hn
    rw [if_neg (by rw [hn]; simp)]
    simp
  · intro b hb
    split at hb
    · cases hb
    · simp only [Option.some.injEq] at hb
      subst hb
      rw [hsz] at ha
      exact ⟨ha, by simp only [Env.iend, hsz]; exact slice_eq_drop _ _ ha⟩

theorem getD_eq_of_readByte {S : List Byte} {a b : Nat} (h : readByte S a = readByte S b) :
    S.getD a 0 = S.getD b 0 := Fin.ext h

theorem consSeq_good (e : Env) (s : Seq) (a a' : Nat)
    (r : Option (Option (List Seq × List Byte)))
    (h1 : a + s.lits.length ≤ e.source.length)
    (h2 : s.lits = (e.source.drop a).take s.lits.length)
    (h3 : 1 ≤ s.offset) (h4 : s.offset ≤ a + s.lits.length) (h5 : s.offset ≤ 65535)
    (h6 : a + s.lits.length + (s.matchCode + MINMATCH) ≤ e.source.length)
    (h7 : ∀ i, i < s.matchCode + MINMATCH →
        e.source.getD (a + s.lits.length + i) 0 = e.source.getD (a + s.lits.length + i - s.offset) 0)
    (ha : a' = a + s.lits.length + (s.matchCode + MINMATCH))
    (hr : ∃ x, r = some x ∧ TraceGood e a' x) :
    ∃ x, consSeq s r = some x ∧ TraceGood e a x := by
  obtain ⟨x, rfl, g1, g2⟩ := hr
  subst ha
  cases x with
  | none =>
    refine ⟨none, rfl, g1, fun b hb => by cases hb⟩
  | some b =>
    refine ⟨some (s :: b.1, b.2), rfl, fun _ => by simp, fun b' hb' => ?_⟩
    simp only [Option.some.injEq] at hb'
    subst hb'
    exact ⟨h1, h2, h3, h4, h5, h6, h7, g2 b rfl⟩

theorem putPosition_lt (S : List Byte) (p : Nat) (t : Table) (tt : tableType_t) (B : Nat)
    (ht : ∀ x, t x < B) (hp : p < B) : ∀ x, LZ4_putPosition S p t tt 0 x < B :=
  put_lt p _ t tt B ht hp

theorem getPosition_lt (S : List Byte) (p : Nat) (t : Table) (tt : tableType_t) (B : Nat)
    (ht : ∀ x, t x < B) : LZ4_getPosition S p t tt 0 < B := by
  unfold LZ4_getPosition
  dsimp only
  rw [get_eq]
  exact ht _

theorem offset_cast (ip m : Nat) (h1 : m < ip) (h2 : ip ≤ m + 65535) :
    (((ip : Int) - (m : Int)) % 2 ^ 16).toNat = ip - m := by
  omega

theorem trace_ok (e : Env) (g : GoodEnv e) : ∀ (fuel : Nat) (l : Label) (c : Cursor),
    TraceInv e fuel l c → ∃ r, trace e fuel l c = some r ∧ TraceGood e c.anchor r := by
  have hsz := g.hsize
  have hmin := g.hmin
  have hacc := g.hacc
  generalize hs0 : (e.acceleration <<< LZ4_SKIPTRIGGER) % 2 ^ 32 = s0 at hacc
  intro fuel
  induction fuel with
  | zero =>
    intro l c h
    cases l with
    | findMatch f step smn =>
      simp only [TraceInv] at h
      omega
    | nextMatch m t =>
      obtain ⟨_, _, _, k, _, _, _, _, hk⟩ := h
      omega
  | succ fuel ih =>
    intro l c h
    cases l with
    | findMatch f step smn =>
      obtain ⟨h1, h2, h3, h4, h5, h6, h7⟩ := h
      rw [trace]
      dsimp only
      by_cases c1 : f + step > e.mflimit
      · rw [if_pos c1]
        exact ⟨_, rfl, lastTrace_good e hsz _ _ h2⟩
      · rw [if_neg c1]
        have hmf : f + step ≤ e.inputSize - 12 := by
          simpa [Env.mflimit, Env.iend] using c1
        rw [get_eq]
        by_cases c2 : (if e.tableType = byU16 then False
            else c.table c.forwardH + MAX_DISTANCE < f) ∨
            LZ4_read32 e.source (c.table c.forwardH) ≠ LZ4_read32 e.source f
        · rw [if_pos c2]
          apply ih
          dsimp only [TraceInv]
          refine ⟨by omega, h2, put_lt _ _ _ _ _ (fun x => by have := h3 x; omega) (by omega),
            ?_, ?_, ?_, by omega⟩
          · rw [Nat.shiftRight_eq_div_pow]; simp only [LZ4_SKIPTRIGGER]; omega
          · omega
          · omega
        · rw [if_neg c2]
          have hm := h3 c.forwardH
          have hrd : LZ4_read32 e.source (c.table c.forwardH) = LZ4_read32 e.source f := by
            by_contra hne; exact c2 (Or.inr hne)
          have hdist : f ≤ c.table c.forwardH + 65535 := by
            by_cases htt : e.tableType = byU16
            · have := g.hU16 htt
              simp only [LZ4_64Klimit, KB, MFLIMIT, WILDCOPYLENGTH, MINMATCH] at this
              omega
            · by_contra hlt
              apply c2
              left
              rw [if_neg htt]
              simp only [MAX_DISTANCE]
              omega
          obtain ⟨u1, u2, u3, u4, u5⟩ := catchUp_spec e.source c.anchor f f (c.table c.forwardH)
          generalize catchUp e.source c.anchor 0 f f (c.table c.forwardH) = cu at u1 u2 u3 u4 u5 ⊢
          by_cases c3 : e.outputLimited = limitedOutput ∧
              ((c.op + 1 + (cu.1 - c.anchor) + (2 + 1 + LASTLITERALS) + (cu.1 - c.anchor) / 255
                : Nat) : Int) > e.maxOutputSize
          · rw [if_pos c3]
            refine ⟨none, rfl, fun hn => ?_, fun b hb => by cases hb⟩
            rw [c3.1] at hn; cases hn
          · rw [if_neg c3]
            apply ih
            dsimp only [TraceInv]
            refine ⟨u4 h1, by omega, by omega, 4 + (f - cu.1), by omega, ?_, ?_, ?_, ?_⟩
            · simp only [Env.matchlimit, Env.iend, LASTLITERALS]; omega
            · intro i hi
              by_cases hlt : i < f - cu.1
              · exact u5 i hlt
              · have := read32_eq hrd (i - (f - cu.1)) (by omega)
                have e1 : cu.1 + i = f + (i - (f - cu.1)) := by omega
                have e2 : cu.2 + i = c.table c.forwardH + (i - (f - cu.1)) := by omega
                rw [e1, e2, this]
            · exact put_lt _ _ _ _ _ (fun x => by have := h3 x; omega) (by omega)
            · omega
    | nextMatch m token =>
      obtain ⟨h1, h2, h3, k, k1, k2, k3, k4, k5⟩ := h
      rw [trace]
      dsimp only
      have hml : e.matchlimit = e.inputSize - 5 := rfl
      have hmfl : e.mflimit = e.inputSize - 12 := rfl
      obtain ⟨n1, n2, n3⟩ := count_spec e.source (c.ip + MINMATCH) (m + MINMATCH) e.matchlimit
      have hlow : k - 4 ≤ LZ4_count e.source (c.ip + MINMATCH) (m + MINMATCH) e.matchlimit := by
        apply n3
        · simp only [MINMATCH]; omega
        · intro i hi
          have := k3 (i + 4) (by omega)
          simp only [MINMATCH]
          rw [show m + 4 + i = m + (i + 4) by omega, show c.ip + 4 + i = c.ip + (i + 4) by omega]
          exact this.symm
      have hup := n1 (by simp only [MINMATCH]; omega)
      generalize LZ4_count e.source (c.ip + MINMATCH) (m + MINMATCH) e.matchlimit = mc
        at n2 hlow hup ⊢
      simp only [MINMATCH] at n2 hup ⊢
      rw [offset_cast _ _ h2 h3]
      by_cases c1 : e.outputLimited = limitedOutput ∧
          ((c.op + 2 + (1 + LASTLITERALS) + mc >>> 8 : Nat) : Int) > e.maxOutputSize
      · rw [if_pos c1]
        refine ⟨none, rfl, fun hn => ?_, fun b hb => by cases hb⟩
        rw [c1.1] at hn; cases hn
      · rw [if_neg c1]
        have hL : c.anchor + (slice e.source c.anchor (c.ip - c.anchor)).length = c.ip := by
          rw [slice_length]; omega
        have hseq : ∀ r, (∃ x, r = some x ∧ TraceGood e (c.ip + (4 + mc)) x) →
            ∃ x, consSeq ⟨slice e.source c.anchor (c.ip - c.anchor), c.ip - m, mc⟩ r = some x ∧
              TraceGood e c.anchor x := by
          intro r hr
          apply consSeq_good e _ c.anchor (c.ip + (4 + mc)) r ?_ ?_ ?_ ?_ ?_ ?_ ?_ ?_ hr
          · dsimp only; rw [hL]; omega
          · dsimp only; rw [slice_length]; exact slice_eq_take_drop _ _ _ (by omega)
          · dsimp only; omega
          · dsimp only; rw [hL]; omega
          · dsimp only; omega
          · dsimp only; rw [hL]; simp only [MINMATCH]; omega
          · dsimp only
            rw [hL]
            intro i hi
            simp only [MINMATCH] at hi
            rw [show c.ip + i - (c.ip - m) = m + i by omega]
            apply getD_eq_of_readByte
            by_cases h4 : i < 4
            · exact k3 i (by omega)
            · have := n2 (i - 4) (by omega)
              rw [show m + 4 + (i - 4) = m + i by omega,
                show c.ip + 4 + (i - 4) = c.ip + i by omega] at this
              exact this.symm
          · dsimp only; rw [hL]; simp only [MINMATCH]; omega
        by_cases c2 : c.ip + (4 + mc) > e.mflimit
        · rw [if_pos c2]
          exact hseq _ ⟨_, rfl, lastTrace_good e hsz _ _ (by omega)⟩
        · rw [if_neg c2]
          have ht1 : ∀ x, LZ4_putPosition e.source (c.ip + (4 + mc) - 2) c.table e.tableType 0 x
              < c.ip + (4 + mc) :=
            putPosition_lt _ _ _ _ _ (fun x => by have := k4 x; omega) (by omega)
          have hm' := getPosition_lt e.source (c.ip + (4 + mc)) _ e.tableType _ ht1
          generalize LZ4_getPosition e.source (c.ip + (4 + mc))
            (LZ4_putPosition e.source (c.ip + (4 + mc) - 2) c.table e.tableType 0)
            e.tableType 0 = m' at hm' ⊢
          by_cases c3 : m' + MAX_DISTANCE ≥ c.ip + (4 + mc) ∧
              LZ4_read32 e.source m' = LZ4_read32 e.source (c.ip + (4 + mc))
          · rw [if_pos c3]
            apply hseq
            apply ih
            dsimp only [TraceInv]
            refine ⟨Nat.le_refl _, hm', ?_, 4, Nat.le_refl _, ?_, ?_, ?_, ?_⟩
            · have := c3.1; simp only [MAX_DISTANCE] at this; omega
            · omega
            · intro i hi; exact (read32_eq c3.2 i hi).symm
            · exact putPosition_lt _ _ _ _ _ (fun x => by have := ht1 x; omega) (by omega)
            · omega
          · rw [if_neg c3, hs0]
            apply hseq
            apply ih
            dsimp only [TraceInv]
            refine ⟨by omega, by omega, ?_, Nat.le_refl _, hacc.1,
              by omega, by omega⟩
            exact putPosition_lt _ _ _ _ _ (fun x => by have := ht1 x; omega) (by omega)

/-! ## The reference decoder inverts a covering block -/

theorem readLength_run (q r : Nat) (hr : r < 255) (rest : List Byte) (acc : Nat) :
    readLength (List.replicate q (toByte 255) ++ [toByte r] ++ rest) acc =
      some (acc + 255 * q + r, rest) := by
  induction q generalizing acc with
  | zero =>
    have hv : (toByte r).val = r := by rw [toByte_val]; omega
    simp only [List.replicate_zero, List.nil_append, List.singleton_append, readLength, hv]
    rw [if_neg (by omega)]
    simp
  | succ q ih =>
    have e : List.replicate (q + 1) (toByte 255) ++ [toByte r] ++ rest =
        toByte 255 :: (List.replicate q (toByte 255) ++ [toByte r] ++ rest) := by
      simp [List.replicate_succ]
    have hv : (toByte 255).val = 255 := rfl
    rw [e, readLength, if_pos hv, ih]
    congr 2
    omega

theorem readLength_lenBytes (n : Nat) (h : 15 ≤ n) (rest : List Byte) :
    readLength (lenBytes n ++ rest) 15 = some (n, rest) := by
  have : lenBytes n = List.replicate ((n - 15) / 255) (toByte 255) ++ [toByte ((n - 15) % 255)] := by
    simp [lenBytes, h]
  rw [this, readLength_run _ _ (Nat.mod_lt _ (by decide))]
  congr 2
  omega

theorem tokenByte_val (L mc : Nat) : (tokenByte L mc).val = min L 15 * 16 + min mc 15 := by
  have h1 : min L 15 ≤ 15 := Nat.min_le_right _ _
  have h2 : min mc 15 ≤ 15 := Nat.min_le_right _ _
  simp only [tokenByte, toByte_val]
  omega

theorem lenBytes_small (n : Nat) (h : n < 15) : lenBytes n = [] := by
  simp [lenBytes]; omega

theorem read_literal_length (L mc : Nat) (rest : List Byte) :
    (if (tokenByte L mc).val >>> ML_BITS = RUN_MASK then readLength (lenBytes L ++ rest) RUN_MASK
      else some ((tokenByte L mc).val >>> ML_BITS, lenBytes L ++ rest)) = some (L, rest) := by
  have h1 : min L 15 ≤ 15 := Nat.min_le_right _ _
  have h2 : min mc 15 ≤ 15 := Nat.min_le_right _ _
  have hv : (tokenByte L mc).val >>> ML_BITS = min L 15 := by
    rw [tokenByte_val, Nat.shiftRight_eq_div_pow]
    simp only [ML_BITS]
    omega
  rw [hv]
  by_cases h : 15 ≤ L
  · rw [if_pos (by simp only [RUN_MASK, RUN_BITS, ML_BITS]; omega)]
    exact readLength_lenBytes L h rest
  · rw [if_neg (by simp only [RUN_MASK, RUN_BITS, ML_BITS]; omega), lenBytes_small L (by omega)]
    simp
    omega

theorem read_match_length (L mc : Nat) (rest : List Byte) :
    (if (tokenByte L mc).val % 16 = ML_MASK then readLength (lenBytes mc ++ rest) ML_MASK
      else some ((tokenByte L mc).val % 16, lenBytes mc ++ rest)) = some (mc, rest) := by
  have h1 : min L 15 ≤ 15 := Nat.min_le_right _ _
  have h2 : min mc 15 ≤ 15 := Nat.min_le_right _ _
  have hv : (tokenByte L mc).val % 16 = min mc 15 := by
    rw [tokenByte_val]
    omega
  rw [hv]
  by_cases h : 15 ≤ mc
  · rw [if_pos (by simp only [ML_MASK, ML_BITS]; omega)]
    exact readLength_lenBytes mc h rest
  · rw [if_neg (by simp only [ML_MASK, ML_BITS]; omega), lenBytes_small mc (by omega)]
    simp
    omega

theorem take_succ_getD (S : List Byte) (p : Nat) (h : p < S.length) :
    S.take (p + 1) = S.take p ++ [S.getD p 0] := by
  rw [List.take_succ, List.getD_eq_getElem?_getD, List.getElem?_eq_getElem h]
  simp

theorem copyMatch_take (S : List Byte) (off : Nat) : ∀ (n p : Nat), p + n ≤ S.length →
    1 ≤ off → off ≤ p →
    (∀ i, i < n → S.getD (p + i) 0 = S.getD (p + i - off) 0) →
    copyMatch n (S.take p) off = S.take (p + n) := by
  intro n
  induction n with
  | zero => intro p _ _ _ _; rfl
  | succ n ih =>
    intro p hp h1 h2 hall
    have hlen : (S.take p).length = p := by simp; omega
    have hget : (S.take p).getD (p - off) 0 = S.getD p 0 := by
      have := hall 0 (by omega)
      rw [Nat.add_zero] at this
      rw [this]
      simp only [List.getD_eq_getElem?_getD]
      rw [List.getElem?_take_of_lt (by omega)]
    rw [copyMatch, hlen, hget, ← take_succ_getD _ _ (by omega), ih (p + 1) (by omega) h1 (by omega)]
    · congr 1; omega
    · intro i hi
      have := hall (i + 1) (by omega)
      rw [show p + 1 + i = p + (i + 1) by omega]
      exact this

theorem offset_bytes (off : Nat) (h : off ≤ 65535) :
    (toByte off).val + (toByte (off >>> 8)).val <<< 8 = off := by
  simp only [toByte_val, Nat.shiftRight_eq_div_pow, Nat.shiftLeft_eq]
  omega

theorem decode_covers (S : List Byte) : ∀ (ss : List Seq) (a : Nat) (last : List Byte) (fuel : Nat),
    Covers S a ss last → ss.length + 1 ≤ fuel →
    decodeLoop S.length fuel (encBlock ss last) (S.take a) = some S := by
  intro ss
  induction ss with
  | nil =>
    intro a last fuel hc hf
    obtain ⟨h1, h2⟩ := hc
    obtain ⟨f, rfl⟩ : ∃ f, fuel = f + 1 := ⟨fuel - 1, by simp at hf; omega⟩
    have hl : last.length = S.length - a := by rw [h2]; simp
    simp only [encBlock, encLiterals]
    rw [decodeLoop, read_literal_length]
    dsimp only
    rw [if_neg (by simp [hl]; omega), List.drop_length, List.take_length]
    dsimp only
    rw [h2, List.take_append_drop]
  | cons s ss ih =>
    intro a last fuel hc hf
    obtain ⟨h1, h2, h3, h4, h5, h6, h7, h8⟩ := hc
    obtain ⟨f, rfl⟩ : ∃ f, fuel = f + 1 := ⟨fuel - 1, by simp at hf; omega⟩
    have e1 : encBlock (s :: ss) last = tokenByte s.lits.length s.matchCode ::
        (lenBytes s.lits.length ++ (s.lits ++ (toByte s.offset :: toByte (s.offset >>> 8) ::
          (lenBytes s.matchCode ++ encBlock ss last)))) := by
      simp [encBlock, encSeq, encLiterals]
    have htake : S.take a ++ s.lits = S.take (a + s.lits.length) := by
      rw [List.take_add]; congr 1
    rw [e1, decodeLoop, read_literal_length]
    dsimp only
    rw [if_neg (by simp; omega)]
    rw [List.take_left, List.drop_left, htake]
    dsimp only
    rw [offset_bytes _ h5, if_neg (by simp; omega), read_match_length]
    dsimp only
    rw [if_neg (by simp; omega), copyMatch_take S s.offset _ _ h6 h3 h4 h7]
    exact ih _ _ _ h8 (by simp at hf; omega)

/-! ## The engine on a fresh table -/

theorem generic_refines (table : Table) (S : List Byte) (dest : Mem) (inputSize maxOut : Int)
    (lim : limitedOutput_directive) (tt : tableType_t) (acc : Nat) :
    Refines (engineTrace table S inputSize maxOut lim tt acc)
      (LZ4_compress_generic table S dest inputSize maxOut lim tt acc) [] := by
  unfold engineTrace LZ4_compress_generic
  split
  · exact ⟨_, rfl, rfl⟩
  · split
    · exact ⟨_, rfl, rfl⟩
    · dsimp only
      split
      · exact Refines.last _ _ _ _ _ _ (written_nil _) rfl
      · exact run_trace _ _ _ ⟨1, 0, 0, _, _, dest⟩ [] (written_nil _) rfl
          (fun m t h => by cases h)

/-- The table type `LZ4P_compress_fast_extState` selects. -/
theorem extState_eq (ws : LZ4_stream_t_internal) (S : List Byte) (dest : Mem)
    (inputSize maxOut acc : Int) :
    LZ4P_compress_fast_extState (some ws) S dest inputSize maxOut acc =
      LZ4_compress_generic (fun _ => 0) S dest inputSize
        (if maxOut ≥ LZ4_COMPRESSBOUND inputSize then 0 else maxOut)
        (if maxOut ≥ LZ4_COMPRESSBOUND inputSize then noLimit else limitedOutput)
        (if inputSize < (LZ4_64Klimit : Int) then byU16 else byU32)
        (if acc < 1 then LZ4_ACCELERATION_DEFAULT else acc).toNat := by
  unfold LZ4P_compress_fast_extState LZ4P_resetStream
  dsimp only
  split <;> split <;> rfl

theorem default_eq (ws : LZ4_stream_t_internal) (S : List Byte) (dest : Mem)
    (inputSize maxOut : Int) :
    LZ4P_compress_default S dest inputSize maxOut (some ws) =
      LZ4_compress_generic (fun _ => 0) S dest inputSize
        (if maxOut ≥ LZ4_COMPRESSBOUND inputSize then 0 else maxOut)
        (if maxOut ≥ LZ4_COMPRESSBOUND inputSize then noLimit else limitedOutput)
        (if inputSize < (LZ4_64Klimit : Int) then byU16 else byU32) 1 := by
  unfold LZ4P_compress_default LZ4P_compress_fast
  rw [extState_eq]
  rfl

theorem engineTrace_good (table : Table) (S : List Byte) (maxOut : Int)
    (lim : limitedOutput_directive) (tt : tableType_t) (acc : Nat)
    (htab : ∀ h, table h = 0)
    (hlen : S.length ≤ LZ4_MAX_INPUT_SIZE)
    (htt : tt = byU16 → S.length < LZ4_64Klimit)
    (hacc : 64 ≤ (acc <<< LZ4_SKIPTRIGGER) % 2 ^ 32 ∧
      (acc <<< LZ4_SKIPTRIGGER) % 2 ^ 32 + S.length ≤ 2 ^ 32) :
    ∃ r, engineTrace table S S.length maxOut lim tt acc = some r ∧
      TraceGood ⟨S, S.length, maxOut, lim, tt, acc⟩ 0 r := by
  unfold engineTrace
  rw [if_neg (by simp only [LZ4_MAX_INPUT_SIZE] at hlen ⊢; omega)]
  rw [if_neg (by
    intro h
    have := htt h.1
    have h2 := h.2
    simp only [LZ4_64Klimit, KB, MFLIMIT, WILDCOPYLENGTH, MINMATCH] at this h2
    omega)]
  simp only [Int.toNat_ofNat]
  by_cases hs : (S.length : Int) < (LZ4_minLength : Int)
  · rw [if_pos hs]
    exact ⟨_, rfl, lastTrace_good _ rfl _ _ (Nat.zero_le _)⟩
  · rw [if_neg hs]
    have h13 : 13 ≤ S.length := by
      simp only [LZ4_minLength, MFLIMIT, WILDCOPYLENGTH, MINMATCH] at hs
      omega
    apply trace_ok ⟨S, S.length, maxOut, lim, tt, acc⟩ ⟨rfl, h13, htt, hacc⟩
    dsimp only [TraceInv]
    refine ⟨by omega, by omega, ?_, Nat.le_refl _, hacc.1, by omega, by omega⟩
    exact putPosition_lt _ _ _ _ _ (fun x => by rw [htab x]; omega) (by omega)

theorem encBlock_length (ss : List Seq) (last : List Byte) :
    ss.length < (encBlock ss last).length := by
  induction ss with
  | nil => simp [encBlock, encLiterals]
  | cons s ss ih =>
    simp only [encBlock, List.length_append, List.length_cons, encSeq, encLiterals]
    omega

theorem decode_block (S : List Byte) (b : List Seq × List Byte) (h : Covers S 0 b.1 b.2) :
    referenceDecode (encBlock b.1 b.2) S.length = some S := by
  unfold referenceDecode
  have := decode_covers S b.1 0 b.2 ((encBlock b.1 b.2).length + 1) h
    (by have := encBlock_length b.1 b.2; omega)
  simpa using this

/-- The unlimited engine on a fresh table: it returns, the result is the
length of a block that covers the source, and the destination starts with
that block. -/
theorem generic_noLimit (S : List Byte) (dest : Mem) (maxOut : Int) (tt : tableType_t) (acc : Nat)
    (hlen : S.length ≤ LZ4_MAX_INPUT_SIZE)
    (htt : tt = byU16 → S.length < LZ4_64Klimit)
    (hacc : 64 ≤ (acc <<< LZ4_SKIPTRIGGER) % 2 ^ 32 ∧
      (acc <<< LZ4_SKIPTRIGGER) % 2 ^ 32 + S.length ≤ 2 ^ 32) :
    ∃ o b, LZ4_compress_generic (fun _ => 0) S dest S.length maxOut noLimit tt acc = some o ∧
      engineTrace (fun _ => 0) S S.length maxOut noLimit tt acc = some (some b) ∧
      Covers S 0 b.1 b.2 ∧ o.ret = (encBlock b.1 b.2).length ∧
      outBytes o.dest o.ret = encBlock b.1 b.2 := by
  obtain ⟨r, h1, h2, h3⟩ := engineTrace_good (fun _ => 0) S maxOut noLimit tt acc (fun _ => rfl)
    hlen htt hacc
  have href := generic_refines (fun _ => 0) S dest S.length maxOut noLimit tt acc
  rw [h1] at href
  match r, h1, h2, h3, href with
  | none, _, h2, _, _ => exact absurd rfl (h2 rfl)
  | some b, h1, _, h3, href =>
    obtain ⟨o, g1, g2, g3⟩ := href
    simp only [List.nil_append] at g2 g3
    exact ⟨o, b, g1, h1, h3 b rfl, g2, by rw [g2]; exact g3.outBytes_eq⟩

/-! ## Limited output: the same run, or failure -/

theorem lastTrace_limited (S : List Byte) (n : Nat) (maxOut : Int) (tt : tableType_t) (acc : Nat)
    (a op : Nat) :
    lastTrace ⟨S, n, maxOut, limitedOutput, tt, acc⟩ a op = none ∨
    lastTrace ⟨S, n, maxOut, limitedOutput, tt, acc⟩ a op =
      lastTrace ⟨S, n, 0, noLimit, tt, acc⟩ a op := by
  unfold lastTrace
  dsimp only [Env.iend]
  by_cases h : limitedOutput = limitedOutput ∧
      ((op + (n - a) + 1 + (n - a + 255 - RUN_MASK) / 255 : Nat) : Int)
        > maxOut % 2 ^ 32
  · left; rw [if_pos h]
  · right
    rw [if_neg h, if_neg (by intro h; cases h.1)]

theorem consSeq_limited (s : Seq) (r r' : Option (Option (List Seq × List Byte)))
    (h : r = some none ∨ r = r') : consSeq s r = some none ∨ consSeq s r = consSeq s r' := by
  rcases h with h | h
  · left; rw [h]; rfl
  · right; rw [h]

theorem some_limited {x y : Option (List Seq × List Byte)} (h : x = none ∨ x = y) :
    some x = some none ∨ some x = some y := by
  rcases h with h | h
  · left; rw [h]
  · right; rw [h]

theorem trace_limited (S : List Byte) (n : Nat) (maxOut : Int) (tt : tableType_t) (acc : Nat) :
    ∀ (fuel : Nat) (l : Label) (c : Cursor),
    trace ⟨S, n, maxOut, limitedOutput, tt, acc⟩ fuel l c = some none ∨
    trace ⟨S, n, maxOut, limitedOutput, tt, acc⟩ fuel l c =
      trace ⟨S, n, 0, noLimit, tt, acc⟩ fuel l c := by
  have hno : ∀ P : Prop, ¬ (noLimit = limitedOutput ∧ P) := by
    intro P h; cases h.1
  intro fuel
  induction fuel with
  | zero => intro l c; right; rfl
  | succ fuel ih =>
    intro l c
    cases l with
    | findMatch f step smn =>
      rw [trace, trace]
      dsimp only [Env.mflimit, Env.iend, Env.matchlimit]
      by_cases c1 : f + step > n - MFLIMIT
      · rw [if_pos c1, if_pos c1]
        exact some_limited (lastTrace_limited _ _ _ _ _ _ _)
      · rw [if_neg c1, if_neg c1]
        by_cases c2 : (if tt = byU16 then False
            else LZ4_getPositionOnHash c.forwardH c.table tt 0 + MAX_DISTANCE < f) ∨
            LZ4_read32 S (LZ4_getPositionOnHash c.forwardH c.table tt 0) ≠ LZ4_read32 S f
        · rw [if_pos c2, if_pos c2]
          exact ih _ _
        · rw [if_neg c2, if_neg c2, if_neg (hno _)]
          generalize catchUp S c.anchor 0 f f (LZ4_getPositionOnHash c.forwardH c.table tt 0) = cu
          by_cases c3 : limitedOutput = limitedOutput ∧
              ((c.op + 1 + (cu.1 - c.anchor) + (2 + 1 + LASTLITERALS) + (cu.1 - c.anchor) / 255
                : Nat) : Int) > maxOut
          · rw [if_pos c3]; left; rfl
          · rw [if_neg c3]
            exact ih _ _
    | nextMatch m token =>
      rw [trace, trace]
      dsimp only [Env.mflimit, Env.iend, Env.matchlimit]
      generalize LZ4_count S (c.ip + MINMATCH) (m + MINMATCH) (n - LASTLITERALS) = mc
      generalize (((c.ip : Int) - (m : Int)) % 2 ^ 16).toNat = off
      rw [if_neg (hno _)]
      by_cases c1 : limitedOutput = limitedOutput ∧
          ((c.op + 2 + (1 + LASTLITERALS) + mc >>> 8 : Nat) : Int) > maxOut
      · rw [if_pos c1]; left; rfl
      · rw [if_neg c1]
        by_cases c2 : c.ip + (MINMATCH + mc) > n - MFLIMIT
        · rw [if_pos c2, if_pos c2]
          exact consSeq_limited _ _ _ (some_limited (lastTrace_limited _ _ _ _ _ _ _))
        · rw [if_neg c2, if_neg c2]
          generalize LZ4_getPosition S (c.ip + (MINMATCH + mc))
            (LZ4_putPosition S (c.ip + (MINMATCH + mc) - 2) c.table tt 0) tt 0 = m'
          by_cases c3 : m' + MAX_DISTANCE ≥ c.ip + (MINMATCH + mc) ∧
              LZ4_read32 S m' = LZ4_read32 S (c.ip + (MINMATCH + mc))
          · rw [if_pos c3, if_pos c3]
            exact consSeq_limited _ _ _ (ih _ _)
          · rw [if_neg c3, if_neg c3]
            exact consSeq_limited _ _ _ (ih _ _)

theorem engineTrace_limited (table : Table) (S : List Byte) (inputSize maxOut : Int)
    (tt : tableType_t) (acc : Nat) :
    engineTrace table S inputSize maxOut limitedOutput tt acc = some none ∨
    engineTrace table S inputSize maxOut limitedOutput tt acc =
      engineTrace table S inputSize 0 noLimit tt acc := by
  unfold engineTrace
  split
  · left; rfl
  · split
    · left; rfl
    · dsimp only
      split
      · exact some_limited (lastTrace_limited _ _ _ _ _ _ _)
      · exact trace_limited S inputSize.toNat maxOut tt acc _ _ _

theorem lenFieldSize_eq (n : Nat) : lenFieldSize n = (n + 255 - RUN_MASK) / 255 := by
  unfold lenFieldSize
  simp only [RUN_MASK, RUN_BITS, ML_BITS]
  split <;> omega

theorem lastLiterals_ret_le (e : Env) (a op : Nat) (d : Mem) (t : Table)
    (hl : e.outputLimited = limitedOutput) :
    ((lastLiterals e a op d t).ret : Int) ≤ e.maxOutputSize % 2 ^ 32 := by
  have hnn : (0 : Int) ≤ e.maxOutputSize % 2 ^ 32 := Int.emod_nonneg _ (by norm_num)
  by_cases hc : e.outputLimited = limitedOutput ∧
      ((op + (e.iend - a) + 1 + ((e.iend - a) + 255 - RUN_MASK) / 255 : Nat) : Int)
        > e.maxOutputSize % 2 ^ 32
  · have h2 : lastLiterals e a op d t = ⟨0, d, t⟩ := if_pos hc
    rw [h2]; exact hnn
  · have h := lastLiterals_trace e a op d t
    have h1 : lastTrace e a op = some ([], slice e.source a (e.iend - a)) := if_neg hc
    rw [h1] at h
    obtain ⟨_, h2, _⟩ := h
    rw [h2]
    dsimp only
    rw [encLiterals_length, slice_length, lenFieldSize_eq]
    have : ¬ ((op + (e.iend - a) + 1 + ((e.iend - a) + 255 - RUN_MASK) / 255 : Nat) : Int)
        > e.maxOutputSize % 2 ^ 32 := fun h => hc ⟨hl, h⟩
    omega

theorem run_ret_le (e : Env) (hl : e.outputLimited = limitedOutput) :
    ∀ (fuel : Nat) (l : Label) (st : EngState) (o : Outcome), run e fuel l st = some o →
      (o.ret : Int) ≤ e.maxOutputSize % 2 ^ 32 := by
  have hnn : (0 : Int) ≤ e.maxOutputSize % 2 ^ 32 := Int.emod_nonneg _ (by norm_num)
  intro fuel
  induction fuel with
  | zero => intro l st o h; cases l <;> cases h
  | succ fuel ih =>
    intro l st o h
    cases l with
    | findMatch f step smn =>
      rw [run] at h
      dsimp only at h
      by_cases c1 : f + step > e.mflimit
      · rw [if_pos c1] at h
        cases h; exact lastLiterals_ret_le e _ _ _ _ hl
      · rw [if_neg c1] at h
        by_cases c2 : (if e.tableType = byU16 then False
            else LZ4_getPositionOnHash st.forwardH st.table e.tableType 0 + MAX_DISTANCE < f) ∨
            LZ4_read32 e.source (LZ4_getPositionOnHash st.forwardH st.table e.tableType 0) ≠
              LZ4_read32 e.source f
        · rw [if_pos c2] at h
          exact ih _ _ _ h
        · rw [if_neg c2] at h
          generalize catchUp e.source st.anchor 0 f f
            (LZ4_getPositionOnHash st.forwardH st.table e.tableType 0) = c at h
          match hlit : encodeLiterals e c.1 st.anchor st.op st.dest with
          | none =>
            rw [hlit] at h
            cases h; exact hnn
          | some (token, op, dest) =>
            rw [hlit] at h
            exact ih _ _ _ h
    | nextMatch m token =>
      rw [run] at h
      dsimp only at h
      generalize LZ4_count e.source (st.ip + MINMATCH) (m + MINMATCH) e.matchlimit = mc at h
      generalize (((st.ip : Int) - (m : Int)) % 2 ^ 16).toNat = off at h
      by_cases c1 : e.outputLimited = limitedOutput ∧
          ((st.op + 2 + (1 + LASTLITERALS) + mc >>> 8 : Nat) : Int) > e.maxOutputSize
      · rw [if_pos c1] at h
        cases h; exact hnn
      · rw [if_neg c1] at h
        generalize encodeMatchLength (LZ4_writeLE16 st.dest st.op off) (st.op + 2) token mc = w
          at h
        by_cases c2 : st.ip + (MINMATCH + mc) > e.mflimit
        · rw [if_pos c2] at h
          cases h; exact lastLiterals_ret_le e _ _ _ _ hl
        · rw [if_neg c2] at h
          generalize LZ4_getPosition e.source (st.ip + (MINMATCH + mc))
            (LZ4_putPosition e.source (st.ip + (MINMATCH + mc) - 2) st.table e.tableType 0)
            e.tableType 0 = m' at h
          by_cases c3 : m' + MAX_DISTANCE ≥ st.ip + (MINMATCH + mc) ∧
              LZ4_read32 e.source m' = LZ4_read32 e.source (st.ip + (MINMATCH + mc))
          · rw [if_pos c3] at h
            exact ih _ _ _ h
          · rw [if_neg c3] at h
            exact ih _ _ _ h

theorem generic_ret_le (table : Table) (S : List Byte) (dest : Mem) (inputSize maxOut : Int)
    (tt : tableType_t) (acc : Nat) (o : Outcome)
    (h : LZ4_compress_generic table S dest inputSize maxOut limitedOutput tt acc = some o) :
    (o.ret : Int) ≤ maxOut % 2 ^ 32 := by
  have hnn : (0 : Int) ≤ maxOut % 2 ^ 32 := Int.emod_nonneg _ (by norm_num)
  unfold LZ4_compress_generic at h
  split at h
  · cases h; exact hnn
  · split at h
    · cases h; exact hnn
    · dsimp only at h
      split at h
      · cases h
        exact lastLiterals_ret_le ⟨S, inputSize.toNat, maxOut, limitedOutput, tt, acc⟩ _ _ _ _ rfl
      · exact run_ret_le ⟨S, inputSize.toNat, maxOut, limitedOutput, tt, acc⟩ rfl _ _ _ _ h

/-! ## What the caller observes -/

theorem observed_of_refines {r : Option (Option (List Seq × List Byte))} {o : Option Outcome}
    (h : Refines r o []) : observed o = traceObserved r := by
  match r, h with
  | none, h => rw [h]; rfl
  | some none, h =>
    obtain ⟨x, h1, h2⟩ := h
    rw [h1]
    simp [observed, traceObserved, Outcome.bytes, h2, outBytes]
  | some (some b), h =>
    obtain ⟨x, h1, h2, h3⟩ := h
    rw [h1]
    simp only [List.nil_append] at h2 h3
    simp only [observed, traceObserved, Outcome.bytes, Option.map_some']
    rw [h2, h3.outBytes_eq]

theorem observed_generic (table : Table) (S : List Byte) (dest : Mem) (inputSize maxOut : Int)
    (lim : limitedOutput_directive) (tt : tableType_t) (acc : Nat) :
    observed (LZ4_compress_generic table S dest inputSize maxOut lim tt acc) =
      traceObserved (engineTrace table S inputSize maxOut lim tt acc) :=
  observed_of_refines (generic_refines table S dest inputSize maxOut lim tt acc)

theorem acc_default (n : Nat) (h : n ≤ LZ4_MAX_INPUT_SIZE) :
    64 ≤ (1 <<< LZ4_SKIPTRIGGER) % 2 ^ 32 ∧ (1 <<< LZ4_SKIPTRIGGER) % 2 ^ 32 + n ≤ 2 ^ 32 := by
  simp only [LZ4_MAX_INPUT_SIZE] at h
  have : (1 <<< LZ4_SKIPTRIGGER) % 2 ^ 32 = 64 := by decide
  rw [this]
  omega

theorem tableType_ok (n : Nat) :
    (if (n : Int) < (LZ4_64Klimit : Int) then byU16 else byU32) = byU16 → n < LZ4_64Klimit := by
  intro h
  by_contra hn
  rw [if_neg (by omega)] at h
  cases h

theorem compressBound_eq (n : Nat) (h : n ≤ LZ4_MAX_INPUT_SIZE) :
    LZ4_COMPRESSBOUND n = n + n / 255 + 16 := by
  unfold LZ4_COMPRESSBOUND
  simp only [LZ4_MAX_INPUT_SIZE] at h ⊢
  rw [if_neg (by omega)]

/-- The limited engine on a fresh table: it returns, the value returned is at
most `maxOutputSize` taken as an unsigned number, and it is 0 or the run
is the unlimited one. -/
theorem generic_limited (S : List Byte) (dest : Mem) (maxOut : Int) (tt : tableType_t) (acc : Nat)
    (hlen : S.length ≤ LZ4_MAX_INPUT_SIZE)
    (htt : tt = byU16 → S.length < LZ4_64Klimit)
    (hacc : 64 ≤ (acc <<< LZ4_SKIPTRIGGER) % 2 ^ 32 ∧
      (acc <<< LZ4_SKIPTRIGGER) % 2 ^ 32 + S.length ≤ 2 ^ 32) :
    ∃ o, LZ4_compress_generic (fun _ => 0) S dest S.length maxOut limitedOutput tt acc = some o ∧
      (o.ret : Int) ≤ maxOut % 2 ^ 32 ∧
      (o.ret = 0 ∨ ∀ dest2, observed (some o) =
        observed (LZ4_compress_generic (fun _ => 0) S dest2 S.length 0 noLimit tt acc)) := by
  obtain ⟨oN, b, _, g2, _, _, _⟩ := generic_noLimit S dest 0 tt acc hlen htt hacc
  have href := generic_refines (fun _ => 0) S dest S.length maxOut limitedOutput tt acc
  rcases engineTrace_limited (fun _ => 0) S S.length maxOut tt acc with h | h
  · rw [h] at href
    obtain ⟨o, h1, h2⟩ := href
    exact ⟨o, h1, generic_ret_le _ _ _ _ _ _ _ _ h1, Or.inl h2⟩
  · have href2 := href
    rw [h, g2] at href
    obtain ⟨o, h1, _, _⟩ := href
    refine ⟨o, h1, generic_ret_le _ _ _ _ _ _ _ _ h1, Or.inr fun dest2 => ?_⟩
    rw [← h1, observed_generic, observed_generic, h]

/-! ## Helper lemmas of the claims -/

theorem twentyA_trace :
    engineTrace (fun _ => 0) twentyA 20 0 noLimit byU16 1 =
      some (some ([⟨[0x61], 1, 10⟩], [0x61, 0x61, 0x61, 0x61, 0x61])) := by
  decide

theorem empty_trace (S : List Byte) :
    engineTrace (fun _ => 0) S 0 0 noLimit byU16 1 = some (some ([], [])) := by
  rfl

theorem observed_ret {o : Outcome} {x : Nat × List Byte} (h : observed (some o) = some x) :
    o.ret = x.1 := by
  simp only [observed, Option.map_some', Option.some.injEq] at h
  rw [← h]

/-- The limited path of `LZ4P_compress_default` for a capacity that is not
negative: the call returns, the value returned is 0 or at most
`maxOutputSize`, and it is 0 whenever `maxOutputSize` is below what the
unlimited call on the same source returns. -/
theorem compress_default_bounded (S : List Byte) (dest : Mem) (wrkmem : LZ4_stream_t_internal)
    (maxOutputSize : Int) (hlen : S.length ≤ LZ4_MAX_INPUT_SIZE) (h0 : 0 ≤ maxOutputSize)
    (hmax : maxOutputSize < LZ4_COMPRESSBOUND S.length) :
    ∃ o, LZ4P_compress_default S dest S.length maxOutputSize (some wrkmem) = some o ∧
      (o.ret = 0 ∨ (0 < o.ret ∧ (o.ret : Int) ≤ maxOutputSize)) ∧
      ∀ (dest2 : Mem) (wrkmem2 : LZ4_stream_t_internal) (bound : Int) (oN : Outcome),
        bound ≥ LZ4_COMPRESSBOUND S.length →
        LZ4P_compress_default S dest2 S.length bound (some wrkmem2) = some oN →
        (oN.ret = o.ret ∧ oN.bytes = o.bytes) ∨ o.ret = 0 := by
  have hb := compressBound_eq _ hlen
  have hlt : maxOutputSize < 2 ^ 32 := by
    simp only [LZ4_MAX_INPUT_SIZE] at hlen; omega
  rw [default_eq, if_neg (by omega), if_neg (by omega)]
  obtain ⟨o, h1, h2, h3⟩ := generic_limited S dest maxOutputSize
    (if (S.length : Int) < (LZ4_64Klimit : Int) then byU16 else byU32) 1 hlen
    (tableType_ok _) (acc_default _ hlen)
  rw [Int.emod_eq_of_lt h0 hlt] at h2
  refine ⟨o, h1, ?_, fun dest2 wrkmem2 bound oN hbound hN => ?_⟩
  · by_cases hz : o.ret = 0
    · exact Or.inl hz
    · exact Or.inr ⟨by omega, h2⟩
  · rcases h3 with h3 | h3
    · exact Or.inr h3
    · left
      rw [default_eq, if_pos hbound, if_pos hbound] at hN
      have := h3 dest2
      rw [hN] at this
      simp only [observed, Option.map_some', Option.some.injEq, Prod.mk.injEq] at this
      exact ⟨this.1.symm, this.2.symm⟩

theorem negative_trace (S : List Byte) :
    engineTrace (fun _ => 0) S 0 (-1) limitedOutput byU16 1 = some (some ([], [])) := by
  unfold engineTrace
  rw [if_neg (by decide), if_neg (by decide)]
  dsimp only
  rw [if_pos (by decide)]
  unfold lastTrace
  dsimp only [Env.iend]
  rw [if_neg (by decide)]
  rfl


theorem chunk_eq (encode : Encoder) (st : RawState) :
    lz4raw_encode_chunk encode st =
      if srcToEncode st = st.src_size ∧ chunkSrcUsed encode st < srcToEncode st then none
      else if srcToEncode st < st.src_size ∧
          ptrDiff (srcToEncode st) (chunkSrcUsed encode st) ≥ (1 <<< 16) then none
      else some { src := (engineCall encode st).src, dst := (engineCall encode st).dst,
                  src_size := ptrDiff st.src_size (chunkSrcUsed encode st),
                  dst_size := ptrDiff st.dst_size (chunkDstUsed encode st),
                  hashTable := (engineCall encode st).hashTable,
                  mem := (engineCall encode st).mem } := rfl

theorem loop_fail_of_chunk (encode : Encoder) (dst_buffer : Nat) (st : RawState)
    (hpos : st.src_size > 0) (h : lz4raw_encode_chunk encode st = none) (n : Nat) :
    lz4raw_encode_loop encode dst_buffer (n + 1) st = .fail := by
  rw [lz4raw_encode_loop, if_pos hpos, h]

theorem loop_after (encode : Encoder) (dst_buffer : Nat) : ∀ (k : Nat) (st0 st : RawState)
    (n : Nat), afterChunks encode k st0 = some st →
    lz4raw_encode_loop encode dst_buffer (k + n) st0 = lz4raw_encode_loop encode dst_buffer n st := by
  intro k
  induction k with
  | zero =>
    intro st0 st n h
    simp only [afterChunks, Option.some.injEq] at h
    rw [h, Nat.zero_add]
  | succ k ih =>
    intro st0 st n h
    rw [afterChunks] at h
    by_cases hpos : st0.src_size > 0
    · rw [if_pos hpos] at h
      match hc : lz4raw_encode_chunk encode st0 with
      | none => rw [hc] at h; cases h
      | some st1 =>
        rw [hc] at h
        dsimp only at h
        rw [show k + 1 + n = (k + n) + 1 by omega, lz4raw_encode_loop, if_pos hpos, hc]
        exact ih st1 st n h
    · rw [if_neg hpos] at h; cases h


theorem ptrDiff_lt (a b : Nat) : ptrDiff a b < 2 ^ 64 := by
  unfold ptrDiff; omega

theorem ptrDiff_self (a : Nat) : ptrDiff a a = 0 := by
  unfold ptrDiff; omega

theorem ptrDiff_chain (a b c : Nat) :
    (ptrDiff b c + ptrDiff a b) % 2 ^ 64 = ptrDiff a c := by
  unfold ptrDiff; omega

theorem loop_total (encode : Encoder) (dst_buffer : Nat) : ∀ (budget : Nat) (st : RawState)
    (bytes : Nat) (final : RawState),
    lz4raw_encode_loop encode dst_buffer budget st = .ok bytes final →
    bytes = ptrDiff final.dst dst_buffer ∧
    bytes = (ptrDiff st.dst dst_buffer + (dstUsedList encode budget st).sum) % 2 ^ 64 := by
  intro budget
  induction budget with
  | zero =>
    intro st bytes final h
    rw [lz4raw_encode_loop] at h
    split at h
    · cases h
    · simp only [RawResult.ok.injEq] at h
      obtain ⟨h1, h2⟩ := h
      subst h2
      have := ptrDiff_lt st.dst dst_buffer
      refine ⟨h1.symm, ?_⟩
      simp only [dstUsedList, List.sum_nil, Nat.add_zero]
      omega
  | succ n ih =>
    intro st bytes final h
    rw [lz4raw_encode_loop] at h
    by_cases hpos : st.src_size > 0
    · rw [if_pos hpos] at h
      match hc : lz4raw_encode_chunk encode st with
      | none => rw [hc] at h; cases h
      | some st1 =>
        rw [hc] at h
        dsimp only at h
        obtain ⟨i1, i2⟩ := ih st1 bytes final h
        refine ⟨i1, ?_⟩
        have hd : st1.dst = (engineCall encode st).dst := by
          rw [chunk_eq] at hc
          split at hc
          · cases hc
          · split at hc
            · cases hc
            · simp only [Option.some.injEq] at hc
              rw [← hc]
        have hl : dstUsedList encode (n + 1) st = chunkDstUsed encode st :: dstUsedList encode n st1 := by
          rw [dstUsedList, if_pos hpos, hc]
        rw [i2, hl, List.sum_cons, hd]
        have := ptrDiff_chain (engineCall encode st).dst st.dst dst_buffer
        unfold chunkDstUsed
        omega
    · rw [if_neg hpos] at h
      simp only [RawResult.ok.injEq] at h
      obtain ⟨h1, h2⟩ := h
      subst h2
      have := ptrDiff_lt st.dst dst_buffer
      refine ⟨h1.symm, ?_⟩
      have hl : dstUsedList encode (n + 1) st = [] := by
        rw [dstUsedList, if_neg hpos]
      rw [hl]
      simp only [List.sum_nil, Nat.add_zero]
      omega


/-! ## The transitions of the main loop -/

/-- The memory-free run is the iteration of `engineStep`. -/
theorem trace_succ (e : Env) (fuel : Nat) (l : Label) (c : Cursor) :
    trace e (fuel + 1) l c =
      match engineStep e l c with
      | .fail => some none
      | .last a op =>
          (match emitted e l c with
           | none => some (lastTrace e a op)
           | some s => consSeq s (some (lastTrace e a op)))
      | .next l1 c1 =>
          (match emitted e l c with
           | none => trace e fuel l1 c1
           | some s => consSeq s (trace e fuel l1 c1)) := by
  cases l with
  | findMatch f step smn =>
    rw [trace, engineStep]
    dsimp only [emitted]
    by_cases c1 : f + step > e.mflimit
    · rw [if_pos c1, if_pos c1]
    · rw [if_neg c1, if_neg c1]
      generalize LZ4_getPositionOnHash c.forwardH c.table e.tableType 0 = m
      by_cases c2 : (if e.tableType = byU16 then False else m + MAX_DISTANCE < f) ∨
          LZ4_read32 e.source m ≠ LZ4_read32 e.source f
      · rw [if_pos c2, if_pos c2]
      · rw [if_neg c2, if_neg c2]
        generalize catchUp e.source c.anchor 0 f f m = cu
        by_cases c3 : e.outputLimited = limitedOutput ∧
            ((c.op + 1 + (cu.1 - c.anchor) + (2 + 1 + LASTLITERALS) + (cu.1 - c.anchor) / 255
              : Nat) : Int) > e.maxOutputSize
        · rw [if_pos c3, if_pos c3]
        · rw [if_neg c3, if_neg c3]
  | nextMatch m t =>
    rw [trace, engineStep]
    dsimp only [emitted, seqAt]
    generalize LZ4_count e.source (c.ip + MINMATCH) (m + MINMATCH) e.matchlimit = mc
    by_cases c1 : e.outputLimited = limitedOutput ∧
        ((c.op + 2 + (1 + LASTLITERALS) + mc >>> 8 : Nat) : Int) > e.maxOutputSize
    · rw [if_pos c1, if_pos c1]
    · rw [if_neg c1, if_neg c1]
      by_cases c2 : c.ip + (MINMATCH + mc) > e.mflimit
      · rw [if_pos c2, if_pos c2]
      · rw [if_neg c2, if_neg c2]
        generalize LZ4_getPosition e.source (c.ip + (MINMATCH + mc))
          (LZ4_putPosition e.source (c.ip + (MINMATCH + mc) - 2) c.table e.tableType 0)
          e.tableType 0 = m'
        by_cases c3 : m' + MAX_DISTANCE ≥ c.ip + (MINMATCH + mc) ∧
            LZ4_read32 e.source m' = LZ4_read32 e.source (c.ip + (MINMATCH + mc))
        · rw [if_pos c3, if_pos c3]
        · rw [if_neg c3, if_neg c3]

theorem step_inv (e : Env) (g : GoodEnv e) (l : Label) (c : Cursor) (l1 : Label) (c1 : Cursor)
    (h : StateInv e l c) (hs : engineStep e l c = .next l1 c1) : StateInv e l1 c1 := by
  have hsz := g.hsize
  have hmin := g.hmin
  have hacc := g.hacc
  have hml : e.matchlimit = e.inputSize - 5 := rfl
  have hmfl : e.mflimit = e.inputSize - 12 := rfl
  cases l with
  | findMatch f step smn =>
    obtain ⟨⟨a1, a2, a3, a4, a5⟩, hfH, h3, h4, h5, h6⟩ := h
    rw [engineStep] at hs
    dsimp only at hs
    by_cases c1' : f + step > e.mflimit
    · rw [if_pos c1'] at hs; cases hs
    · rw [if_neg c1'] at hs
      rw [get_eq] at hs
      by_cases c2 : (if e.tableType = byU16 then False
          else c.table c.forwardH + MAX_DISTANCE < f) ∨
          LZ4_read32 e.source (c.table c.forwardH) ≠ LZ4_read32 e.source f
      · rw [if_pos c2] at hs
        simp only [Step.next.injEq] at hs
        obtain ⟨rfl, rfl⟩ := hs
        dsimp only [StateInv]
        refine ⟨⟨by omega, by omega, by omega, by omega, a5⟩, rfl,
          put_lt _ _ _ _ _ (fun x => by have := h3 x; omega) (by omega), ?_, ?_, ?_⟩
        · rw [Nat.shiftRight_eq_div_pow]; simp only [LZ4_SKIPTRIGGER]; omega
        · omega
        · omega
      · rw [if_neg c2] at hs
        have hm := h3 c.forwardH
        have hrd : LZ4_read32 e.source (c.table c.forwardH) = LZ4_read32 e.source f := by
          by_contra hne; exact c2 (Or.inr hne)
        have hdist : f ≤ c.table c.forwardH + 65535 := by
          by_cases htt : e.tableType = byU16
          · have := g.hU16 htt
            simp only [LZ4_64Klimit, KB, MFLIMIT, WILDCOPYLENGTH, MINMATCH] at this
            omega
          · by_contra hlt
            apply c2
            left
            rw [if_neg htt]
            simp only [MAX_DISTANCE]
            omega
        obtain ⟨u1, u2, u3, u4, u5⟩ := catchUp_spec e.source c.anchor f f (c.table c.forwardH)
        generalize catchUp e.source c.anchor 0 f f (c.table c.forwardH) = cu at u1 u2 u3 u4 u5 hs
        by_cases c3 : e.outputLimited = limitedOutput ∧
            ((c.op + 1 + (cu.1 - c.anchor) + (2 + 1 + LASTLITERALS) + (cu.1 - c.anchor) / 255
              : Nat) : Int) > e.maxOutputSize
        · rw [if_pos c3] at hs; cases hs
        · rw [if_neg c3] at hs
          simp only [Step.next.injEq] at hs
          obtain ⟨rfl, rfl⟩ := hs
          dsimp only [StateInv]
          have hu4 := u4 (by omega)
          refine ⟨⟨hu4, by omega, a5, by omega⟩, by omega, by omega, 4 + (f - cu.1), by omega,
            ?_, ?_, ?_⟩
          · omega
          · intro i hi
            by_cases hlt : i < f - cu.1
            · exact u5 i hlt
            · have := read32_eq hrd (i - (f - cu.1)) (by omega)
              have e1 : cu.1 + i = f + (i - (f - cu.1)) := by omega
              have e2 : cu.2 + i = c.table c.forwardH + (i - (f - cu.1)) := by omega
              rw [e1, e2, this]
          · exact put_lt _ _ _ _ _ (fun x => by have := h3 x; omega) (by omega)
  | nextMatch m token =>
    obtain ⟨⟨a1, a2, a3, a4⟩, h2, h3, k, k1, k2, k3, k4⟩ := h
    rw [engineStep] at hs
    dsimp only at hs
    obtain ⟨n1, n2, n3⟩ := count_spec e.source (c.ip + MINMATCH) (m + MINMATCH) e.matchlimit
    have hlow : k - 4 ≤ LZ4_count e.source (c.ip + MINMATCH) (m + MINMATCH) e.matchlimit := by
      apply n3
      · simp only [MINMATCH]; omega
      · intro i hi
        have := k3 (i + 4) (by omega)
        simp only [MINMATCH]
        rw [show m + 4 + i = m + (i + 4) by omega, show c.ip + 4 + i = c.ip + (i + 4) by omega]
        exact this.symm
    have hup := n1 (by simp only [MINMATCH]; omega)
    generalize LZ4_count e.source (c.ip + MINMATCH) (m + MINMATCH) e.matchlimit = mc
      at n2 hlow hup hs
    simp only [MINMATCH] at n2 hup hs
    by_cases c1' : e.outputLimited = limitedOutput ∧
        ((c.op + 2 + (1 + LASTLITERALS) + mc >>> 8 : Nat) : Int) > e.maxOutputSize
    · rw [if_pos c1'] at hs; cases hs
    · rw [if_neg c1'] at hs
      by_cases c2 : c.ip + (4 + mc) > e.mflimit
      · rw [if_pos c2] at hs; cases hs
      · rw [if_neg c2] at hs
        have ht1 : ∀ x, LZ4_putPosition e.source (c.ip + (4 + mc) - 2) c.table e.tableType 0 x
            < c.ip + (4 + mc) :=
          putPosition_lt _ _ _ _ _ (fun x => by have := k4 x; omega) (by omega)
        have hm' := getPosition_lt e.source (c.ip + (4 + mc)) _ e.tableType _ ht1
        generalize LZ4_getPosition e.source (c.ip + (4 + mc))
          (LZ4_putPosition e.source (c.ip + (4 + mc) - 2) c.table e.tableType 0)
          e.tableType 0 = m' at hm' hs
        by_cases c3 : m' + MAX_DISTANCE ≥ c.ip + (4 + mc) ∧
            LZ4_read32 e.source m' = LZ4_read32 e.source (c.ip + (4 + mc))
        · rw [if_pos c3] at hs
          simp only [Step.next.injEq] at hs
          obtain ⟨rfl, rfl⟩ := hs
          dsimp only [StateInv]
          refine ⟨⟨Nat.le_refl _, by omega, by omega, by omega⟩, hm', ?_, 4, Nat.le_refl _,
            ?_, ?_, ?_⟩
          · have := c3.1; simp only [MAX_DISTANCE] at this; omega
          · omega
          · intro i hi; exact (read32_eq c3.2 i hi).symm
          · exact putPosition_lt _ _ _ _ _ (fun x => by have := ht1 x; omega) (by omega)
        · rw [if_neg c3] at hs
          simp only [Step.next.injEq] at hs
          obtain ⟨rfl, rfl⟩ := hs
          dsimp only [StateInv]
          refine ⟨⟨by omega, Nat.le_refl _, by omega, by omega, by omega⟩, rfl, ?_,
            Nat.le_refl _, hacc.1, by omega⟩
          exact putPosition_lt _ _ _ _ _ (fun x => by have := ht1 x; omega) (by omega)

theorem start_inv (e : Env) (g : GoodEnv e) (table : Table) (htab : ∀ h, table h = 0) :
    StateInv e (startLabel e) (startCursor e table) := by
  have hmin := g.hmin
  have hacc := g.hacc
  have hml : e.matchlimit = e.inputSize - 5 := rfl
  have hmfl : e.mflimit = e.inputSize - 12 := rfl
  dsimp only [StateInv, startLabel, startCursor]
  refine ⟨⟨by omega, by omega, by omega, by omega, by omega⟩, rfl, ?_, Nat.le_refl _, hacc.1,
    by omega⟩
  exact putPosition_lt _ _ _ _ _ (fun x => by rw [htab x]; omega) (by omega)

theorem visits_inv (e : Env) (g : GoodEnv e) {l : Label} {c : Cursor} {l2 : Label} {c2 : Cursor}
    (hv : Visits e l c l2 c2) : StateInv e l c → StateInv e l2 c2 := by
  induction hv with
  | here l c => exact fun h => h
  | step hs _ ih => exact fun h => ih (step_inv e g _ _ _ _ h hs)

/-- The engine without the memory enters the main loop at `startLabel`. -/
theorem engineTrace_start (table : Table) (S : List Byte) (maxOut : Int)
    (lim : limitedOutput_directive) (tt : tableType_t) (acc : Nat)
    (hmin : 13 ≤ S.length) (hlen : S.length ≤ LZ4_MAX_INPUT_SIZE)
    (htt : tt = byU16 → S.length < LZ4_64Klimit) :
    engineTrace table S S.length maxOut lim tt acc =
      trace ⟨S, S.length, maxOut, lim, tt, acc⟩ (2 * S.length + 8)
        (startLabel ⟨S, S.length, maxOut, lim, tt, acc⟩)
        (startCursor ⟨S, S.length, maxOut, lim, tt, acc⟩ table) := by
  unfold engineTrace
  rw [if_neg (by simp only [LZ4_MAX_INPUT_SIZE] at hlen ⊢; omega)]
  rw [if_neg (by
    intro h
    have := htt h.1
    have h2 := h.2
    simp only [LZ4_64Klimit, KB, MFLIMIT, WILDCOPYLENGTH, MINMATCH] at this h2
    omega)]
  simp only [Int.toNat_ofNat]
  rw [if_neg (by simp only [LZ4_minLength, MFLIMIT, WILDCOPYLENGTH, MINMATCH]; omega)]
  rfl

theorem probe_step (e : Env) (f st smn : Nat) (c : Cursor) (l1 : Label) (c1 : Cursor)
    (hs : engineStep e (.findMatch f st smn) c = .next l1 c1) :
    f + st ≤ e.mflimit ∧ c1.anchor = c.anchor ∧
    ((l1 = .findMatch (f + st) (smn >>> LZ4_SKIPTRIGGER) ((smn + 1) % 2 ^ 32) ∧ c1.ip = f) ∨
     (LZ4_read32 e.source (LZ4_getPositionOnHash c.forwardH c.table e.tableType 0) =
        LZ4_read32 e.source f ∧
      l1 = .nextMatch (catchUp e.source c.anchor 0 f f
        (LZ4_getPositionOnHash c.forwardH c.table e.tableType 0)).2 c.op ∧
      c1.ip = (catchUp e.source c.anchor 0 f f
        (LZ4_getPositionOnHash c.forwardH c.table e.tableType 0)).1)) := by
  rw [engineStep] at hs
  dsimp only at hs
  by_cases c1' : f + st > e.mflimit
  · rw [if_pos c1'] at hs; cases hs
  · rw [if_neg c1'] at hs
    generalize LZ4_getPositionOnHash c.forwardH c.table e.tableType 0 = m at hs ⊢
    by_cases c2 : (if e.tableType = byU16 then False else m + MAX_DISTANCE < f) ∨
        LZ4_read32 e.source m ≠ LZ4_read32 e.source f
    · rw [if_pos c2] at hs
      simp only [Step.next.injEq] at hs
      obtain ⟨rfl, rfl⟩ := hs
      exact ⟨by omega, rfl, Or.inl ⟨rfl, rfl⟩⟩
    · rw [if_neg c2] at hs
      have hrd : LZ4_read32 e.source m = LZ4_read32 e.source f := by
        by_contra hne; exact c2 (Or.inr hne)
      generalize catchUp e.source c.anchor 0 f f m = cu at hs ⊢
      by_cases c3 : e.outputLimited = limitedOutput ∧
          ((c.op + 1 + (cu.1 - c.anchor) + (2 + 1 + LASTLITERALS) + (cu.1 - c.anchor) / 255
            : Nat) : Int) > e.maxOutputSize
      · rw [if_pos c3] at hs; cases hs
      · rw [if_neg c3] at hs
        simp only [Step.next.injEq] at hs
        obtain ⟨rfl, rfl⟩ := hs
        exact ⟨by omega, rfl, Or.inr ⟨hrd, rfl, rfl⟩⟩

theorem probe_last (e : Env) (f st smn : Nat) (c : Cursor) :
    (f + st > e.mflimit → engineStep e (.findMatch f st smn) c = .last c.anchor c.op) ∧
    (∀ a op, engineStep e (.findMatch f st smn) c = .last a op →
      f + st > e.mflimit ∧ a = c.anchor ∧ op = c.op) := by
  constructor
  · intro h
    rw [engineStep]
    dsimp only
    rw [if_pos h]
  · intro a op hs
    rw [engineStep] at hs
    dsimp only at hs
    by_cases c1' : f + st > e.mflimit
    · rw [if_pos c1'] at hs
      simp only [Step.last.injEq] at hs
      exact ⟨c1', hs.1.symm, hs.2.symm⟩
    · rw [if_neg c1'] at hs
      generalize LZ4_getPositionOnHash c.forwardH c.table e.tableType 0 = m at hs
      by_cases c2 : (if e.tableType = byU16 then False else m + MAX_DISTANCE < f) ∨
          LZ4_read32 e.source m ≠ LZ4_read32 e.source f
      · rw [if_pos c2] at hs; cases hs
      · rw [if_neg c2] at hs
        generalize catchUp e.source c.anchor 0 f f m = cu at hs
        by_cases c3 : e.outputLimited = limitedOutput ∧
            ((c.op + 1 + (cu.1 - c.anchor) + (2 + 1 + LASTLITERALS) + (cu.1 - c.anchor) / 255
              : Nat) : Int) > e.maxOutputSize
        · rw [if_pos c3] at hs; cases hs
        · rw [if_neg c3] at hs; cases hs

theorem match_step (e : Env) (m t : Nat) (c : Cursor) (l1 : Label) (c1 : Cursor)
    (hs : engineStep e (.nextMatch m t) c = .next l1 c1) :
    c1.anchor ≤ e.mflimit ∧
    c1.anchor = c.ip + (MINMATCH +
      LZ4_count e.source (c.ip + MINMATCH) (m + MINMATCH) e.matchlimit) ∧
    ((∃ m1 t1, l1 = .nextMatch m1 t1 ∧ c1.ip = c1.anchor ∧
        m1 = (candidate e (.nextMatch m t) c).1 ∧
        LZ4_read32 e.source m1 = LZ4_read32 e.source c1.ip ∧ c1.ip ≤ m1 + MAX_DISTANCE) ∨
     (l1 = .findMatch (c1.anchor + 1) 1 ((e.acceleration <<< LZ4_SKIPTRIGGER) % 2 ^ 32) ∧
        c1.ip = c1.anchor + 1)) := by
  rw [engineStep] at hs
  dsimp only [candidate]
  dsimp only at hs
  generalize LZ4_count e.source (c.ip + MINMATCH) (m + MINMATCH) e.matchlimit = mc at hs ⊢
  by_cases c1' : e.outputLimited = limitedOutput ∧
      ((c.op + 2 + (1 + LASTLITERALS) + mc >>> 8 : Nat) : Int) > e.maxOutputSize
  · rw [if_pos c1'] at hs; cases hs
  · rw [if_neg c1'] at hs
    by_cases c2 : c.ip + (MINMATCH + mc) > e.mflimit
    · rw [if_pos c2] at hs; cases hs
    · rw [if_neg c2] at hs
      generalize LZ4_getPosition e.source (c.ip + (MINMATCH + mc))
        (LZ4_putPosition e.source (c.ip + (MINMATCH + mc) - 2) c.table e.tableType 0)
        e.tableType 0 = m' at hs ⊢
      by_cases c3 : m' + MAX_DISTANCE ≥ c.ip + (MINMATCH + mc) ∧
          LZ4_read32 e.source m' = LZ4_read32 e.source (c.ip + (MINMATCH + mc))
      · rw [if_pos c3] at hs
        simp only [Step.next.injEq] at hs
        obtain ⟨rfl, rfl⟩ := hs
        exact ⟨by dsimp only; omega, rfl, Or.inl ⟨_, _, rfl, rfl, rfl, c3.2, c3.1⟩⟩
      · rw [if_neg c3] at hs
        simp only [Step.next.injEq] at hs
        obtain ⟨rfl, rfl⟩ := hs
        exact ⟨by dsimp only; omega, rfl, Or.inr ⟨rfl, rfl⟩⟩

theorem match_last (e : Env) (m t : Nat) (c : Cursor) (a op : Nat)
    (hs : engineStep e (.nextMatch m t) c = .last a op) :
    a > e.mflimit ∧
    a = c.ip + (MINMATCH + LZ4_count e.source (c.ip + MINMATCH) (m + MINMATCH) e.matchlimit) := by
  rw [engineStep] at hs
  dsimp only at hs
  generalize LZ4_count e.source (c.ip + MINMATCH) (m + MINMATCH) e.matchlimit = mc at hs ⊢
  by_cases c1' : e.outputLimited = limitedOutput ∧
      ((c.op + 2 + (1 + LASTLITERALS) + mc >>> 8 : Nat) : Int) > e.maxOutputSize
  · rw [if_pos c1'] at hs; cases hs
  · rw [if_neg c1'] at hs
    by_cases c2 : c.ip + (MINMATCH + mc) > e.mflimit
    · rw [if_pos c2] at hs
      simp only [Step.last.injEq] at hs
      rw [← hs.1]
      exact ⟨c2, rfl⟩
    · rw [if_neg c2] at hs
      generalize LZ4_getPosition e.source (c.ip + (MINMATCH + mc))
        (LZ4_putPosition e.source (c.ip + (MINMATCH + mc) - 2) c.table e.tableType 0)
        e.tableType 0 = m' at hs
      by_cases c3 : m' + MAX_DISTANCE ≥ c.ip + (MINMATCH + mc) ∧
          LZ4_read32 e.source m' = LZ4_read32 e.source (c.ip + (MINMATCH + mc))
      · rw [if_pos c3] at hs; cases hs
      · rw [if_neg c3] at hs; cases hs

/-- The match a visit of `_next_match` encodes: its length and where it ends. -/
theorem match_at (e : Env) (m t : Nat) (c : Cursor) (h : StateInv e (.nextMatch m t) c) :
    c.ip + ((seqAt e m c).matchCode + MINMATCH) ≤ e.matchlimit ∧
    (seqAt e m c).offset = c.ip - m ∧
    (seqAt e m c).lits.length = c.ip - c.anchor ∧
    ∀ i, i < (seqAt e m c).matchCode + MINMATCH →
      readByte e.source (c.ip + i) = readByte e.source (m + i) := by
  obtain ⟨⟨a1, a2, a3, a4⟩, h2, h3, k, k1, k2, k3, k4⟩ := h
  obtain ⟨n1, n2, n3⟩ := count_spec e.source (c.ip + MINMATCH) (m + MINMATCH) e.matchlimit
  have hup := n1 (by simp only [MINMATCH]; omega)
  dsimp only [seqAt]
  generalize LZ4_count e.source (c.ip + MINMATCH) (m + MINMATCH) e.matchlimit = mc
    at n2 hup ⊢
  simp only [MINMATCH] at n2 hup ⊢
  refine ⟨by omega, offset_cast _ _ h2 h3, slice_length _ _ _, fun i hi => ?_⟩
  by_cases h4 : i < 4
  · exact k3 i (by omega)
  · have := n2 (i - 4) (by omega)
    rw [show m + 4 + (i - 4) = m + i by omega,
      show c.ip + 4 + (i - 4) = c.ip + i by omega] at this
    exact this.symm

theorem lastTrace_some {e : Env} {a op : Nat} {b : List Seq × List Byte}
    (h : lastTrace e a op = some b) : b = ([], slice e.source a (e.iend - a)) := by
  unfold lastTrace at h
  dsimp only at h
  split at h
  · cases h
  · simp only [Option.some.injEq] at h
    exact h.symm

theorem consSeq_some {s : Seq} {r : Option (Option (List Seq × List Byte))}
    {b : List Seq × List Byte} (h : consSeq s r = some (some b)) :
    ∃ b', r = some (some b') ∧ b = (s :: b'.1, b'.2) := by
  match r, h with
  | some (some b'), h =>
    simp only [consSeq, Option.map_some', Option.some.injEq] at h
    exact ⟨b', rfl, h.symm⟩

/-- Where the matches of a run lie: none starts after `mflimit`, none ends
after `matchlimit`, and at least `LASTLITERALS` bytes remain for the final
literal run. -/
theorem trace_ends (e : Env) (g : GoodEnv e) : ∀ (fuel : Nat) (l : Label) (c : Cursor),
    StateInv e l c → ∀ b, trace e fuel l c = some (some b) →
      (∀ x, x ∈ matchesOf c.anchor b.1 → x.1 ≤ e.mflimit ∧ x.1 + x.2.2 ≤ e.matchlimit) ∧
      5 ≤ b.2.length := by
  have hmin := g.hmin
  have hml : e.matchlimit = e.inputSize - 5 := rfl
  have hie : e.iend = e.inputSize := rfl
  intro fuel
  induction fuel with
  | zero => intro l c _ b hb; cases hb
  | succ fuel ih =>
    intro l c hinv b hb
    rw [trace_succ] at hb
    cases hst : engineStep e l c with
    | fail => rw [hst] at hb; cases hb
    | last a op =>
      rw [hst] at hb
      cases l with
      | findMatch f st smn =>
        dsimp only [emitted] at hb
        simp only [Option.some.injEq] at hb
        have := lastTrace_some hb
        subst this
        obtain ⟨_, ha, _⟩ := (probe_last e f st smn c).2 a op hst
        obtain ⟨⟨_, _, _, _, a5⟩, _⟩ := hinv
        refine ⟨fun x hx => by simp [matchesOf] at hx, ?_⟩
        dsimp only
        rw [slice_length]
        omega
      | nextMatch m t =>
        dsimp only [emitted] at hb
        obtain ⟨b', hb', rfl⟩ := consSeq_some hb
        simp only [Option.some.injEq] at hb'
        have := lastTrace_some hb'
        subst this
        obtain ⟨_, ha⟩ := match_last e m t c a op hst
        obtain ⟨q1, q2, q3, q4⟩ := match_at e m t c hinv
        obtain ⟨⟨a1, a2, a3, a4⟩, _⟩ := hinv
        dsimp only [seqAt] at ha q1
        constructor
        · intro x hx
          simp only [matchesOf, List.mem_singleton, List.mem_cons, List.not_mem_nil, or_false]
            at hx
          subst hx
          dsimp only
          rw [q3]
          dsimp only [seqAt]
          omega
        · dsimp only
          rw [slice_length]
          omega
    | next l1 c1 =>
      rw [hst] at hb
      have hinv1 := step_inv e g l c l1 c1 hinv hst
      cases l with
      | findMatch f st smn =>
        dsimp only [emitted] at hb
        obtain ⟨_, ha, _⟩ := probe_step e f st smn c l1 c1 hst
        have := ih l1 c1 hinv1 b hb
        rw [ha] at this
        exact this
      | nextMatch m t =>
        dsimp only [emitted] at hb
        obtain ⟨b', hb', rfl⟩ := consSeq_some hb
        obtain ⟨_, ha, _⟩ := match_step e m t c l1 c1 hst
        obtain ⟨q1, q2, q3, q4⟩ := match_at e m t c hinv
        obtain ⟨⟨a1, a2, a3, a4⟩, _⟩ := hinv
        obtain ⟨i1, i2⟩ := ih l1 c1 hinv1 b' hb'
        dsimp only [seqAt] at q1
        refine ⟨fun x hx => ?_, i2⟩
        simp only [matchesOf, List.mem_cons] at hx
        rcases hx with hx | hx
        · subst hx
          dsimp only
          rw [q3]
          dsimp only [seqAt]
          omega
        · apply i1
          rw [ha]
          rw [q3] at hx
          dsimp only [seqAt] at hx
          rw [show c.anchor + (c.ip - c.anchor) = c.ip by omega] at hx
          rw [show MINMATCH + LZ4_count e.source (c.ip + MINMATCH) (m + MINMATCH) e.matchlimit
            = LZ4_count e.source (c.ip + MINMATCH) (m + MINMATCH) e.matchlimit + MINMATCH
            from Nat.add_comm _ _]
          exact hx

/-- What a covering block says about its matches. -/
theorem covers_matches (S : List Byte) : ∀ (ss : List Seq) (a : Nat) (last : List Byte),
    Covers S a ss last → ∀ x, x ∈ matchesOf a ss →
      1 ≤ x.2.1 ∧ x.2.1 ≤ 65535 ∧ x.2.1 ≤ x.1 ∧ x.1 + x.2.2 ≤ S.length ∧
      ∀ i, i < x.2.2 → S.getD (x.1 + i) 0 = S.getD (x.1 - x.2.1 + i) 0 := by
  intro ss
  induction ss with
  | nil => intro a last _ x hx; simp [matchesOf] at hx
  | cons s ss ih =>
    intro a last h x hx
    obtain ⟨h1, h2, h3, h4, h5, h6, h7, h8⟩ := h
    simp only [matchesOf, List.mem_cons] at hx
    rcases hx with hx | hx
    · subst hx
      dsimp only
      refine ⟨h3, h5, h4, h6, fun i hi => ?_⟩
      rw [h7 i hi]
      congr 1
      omega
    · exact ih _ _ h8 x hx

/-! ## Where the matches of a run lie -/

theorem covers_last (S : List Byte) : ∀ (ss : List Seq) (a : Nat) (last : List Byte),
    Covers S a ss last → last = S.drop (S.length - last.length) := by
  intro ss
  induction ss with
  | nil =>
    intro a last h
    obtain ⟨h1, h2⟩ := h
    subst h2
    rw [List.length_drop]
    congr 1
    omega
  | cons s ss ih =>
    intro a last h
    exact ih _ _ h.2.2.2.2.2.2.2

theorem encBlock_split : ∀ (ss : List Seq) (last : List Byte),
    ∃ front, encBlock ss last = front ++ encLiterals last 0 := by
  intro ss
  induction ss with
  | nil => intro last; exact ⟨[], rfl⟩
  | cons s ss ih =>
    intro last
    obtain ⟨front, hf⟩ := ih last
    exact ⟨encSeq s ++ front, by simp only [encBlock, hf, List.append_assoc]⟩

theorem engineTrace_small (table : Table) (S : List Byte) (maxOut : Int)
    (lim : limitedOutput_directive) (tt : tableType_t) (acc : Nat) (n : Nat) (hn : n < 13) :
    engineTrace table S n maxOut lim tt acc = some (lastTrace ⟨S, n, maxOut, lim, tt, acc⟩ 0 0) := by
  unfold engineTrace
  rw [if_neg (by simp only [LZ4_MAX_INPUT_SIZE]; omega)]
  rw [if_neg (by
    intro h
    have h2 := h.2
    simp only [LZ4_64Klimit, KB, MFLIMIT, WILDCOPYLENGTH, MINMATCH] at h2
    omega)]
  simp only [Int.toNat_ofNat]
  rw [if_pos (by simp only [LZ4_minLength, MFLIMIT, WILDCOPYLENGTH, MINMATCH]; omega)]

/-- The matches of a run on a fresh table: where they start and end, and how
long the final literal run is. -/
theorem engineTrace_ends (S : List Byte) (maxOut : Int) (lim : limitedOutput_directive)
    (tt : tableType_t) (acc : Nat)
    (hlen : S.length ≤ LZ4_MAX_INPUT_SIZE)
    (htt : tt = byU16 → S.length < LZ4_64Klimit)
    (hacc : 64 ≤ (acc <<< LZ4_SKIPTRIGGER) % 2 ^ 32 ∧
      (acc <<< LZ4_SKIPTRIGGER) % 2 ^ 32 + S.length ≤ 2 ^ 32)
    (b : List Seq × List Byte)
    (hb : engineTrace (fun _ => 0) S S.length maxOut lim tt acc = some (some b)) :
    (S.length < 13 → b.1 = []) ∧
    (13 ≤ S.length → 5 ≤ b.2.length) ∧
    ∀ x, x ∈ matchesOf 0 b.1 → x.1 + MFLIMIT ≤ S.length ∧ x.1 + x.2.2 + LASTLITERALS ≤ S.length := by
  by_cases h13 : S.length < 13
  · rw [engineTrace_small _ _ _ _ _ _ _ h13] at hb
    simp only [Option.some.injEq] at hb
    have := lastTrace_some hb
    subst this
    exact ⟨fun _ => rfl, fun h => by omega, fun x hx => by simp [matchesOf] at hx⟩
  · have h13' : 13 ≤ S.length := by omega
    rw [engineTrace_start _ _ _ _ _ _ h13' hlen htt] at hb
    have g : GoodEnv ⟨S, S.length, maxOut, lim, tt, acc⟩ := ⟨rfl, h13', htt, hacc⟩
    obtain ⟨i1, i2⟩ := trace_ends _ g _ _ _ (start_inv _ g _ (fun _ => rfl)) b hb
    refine ⟨fun h => by omega, fun _ => i2, fun x hx => ?_⟩
    have := i1 x hx
    simp only [Env.mflimit, Env.matchlimit, Env.iend, MFLIMIT, WILDCOPYLENGTH, MINMATCH,
      LASTLITERALS] at this ⊢
    omega

theorem searchSteps_snd (acc : Nat) : ∀ k,
    (searchSteps acc k).2 = ((acc <<< LZ4_SKIPTRIGGER) % 2 ^ 32 + k) % 2 ^ 32 := by
  intro k
  induction k with
  | zero => simp [searchSteps]
  | succ k ih =>
    have hd : (searchSteps acc (k + 1)).2 = ((searchSteps acc k).2 + 1) % 2 ^ 32 := rfl
    rw [hd, ih]
    omega

theorem searchSteps_fst (acc k : Nat) (hk : 1 ≤ k) (h : acc * 64 + k - 1 < 2 ^ 32) :
    (searchSteps acc k).1 = (acc * 64 + k - 1) >>> LZ4_SKIPTRIGGER := by
  obtain ⟨j, rfl⟩ : ∃ j, k = j + 1 := ⟨k - 1, by omega⟩
  have hd : (searchSteps acc (j + 1)).1 = (searchSteps acc j).2 >>> LZ4_SKIPTRIGGER := rfl
  rw [hd, searchSteps_snd]
  have hs : acc <<< LZ4_SKIPTRIGGER = acc * 64 := by
    rw [Nat.shiftLeft_eq]; rfl
  rw [hs]
  congr 1
  omega

/-! ## Inputs below the minimum length, and the literal header -/

/-- An input below `LZ4_minLength` goes straight to `_last_literals`. -/
theorem generic_small (table : Table) (S : List Byte) (dest : Mem) (maxOut : Int)
    (lim : limitedOutput_directive) (tt : tableType_t) (acc : Nat) (n : Nat) (hn : n < 13) :
    LZ4_compress_generic table S dest n maxOut lim tt acc =
      some (lastLiterals ⟨S, n, maxOut, lim, tt, acc⟩ 0 0 dest table) := by
  unfold LZ4_compress_generic
  rw [if_neg (by simp only [LZ4_MAX_INPUT_SIZE]; omega)]
  rw [if_neg (by
    intro h
    have h2 := h.2
    simp only [LZ4_64Klimit, KB, MFLIMIT, WILDCOPYLENGTH, MINMATCH] at h2
    omega)]
  simp only [Int.toNat_ofNat]
  rw [if_pos (by simp only [LZ4_minLength, MFLIMIT, WILDCOPYLENGTH, MINMATCH]; omega)]

/-- An input of at least `LZ4_minLength` bytes enters the main loop. -/
theorem generic_start (table : Table) (S : List Byte) (dest : Mem) (maxOut : Int)
    (lim : limitedOutput_directive) (tt : tableType_t) (acc : Nat) (n : Nat)
    (hmin : 13 ≤ n) (hlen : n ≤ LZ4_MAX_INPUT_SIZE) (htt : tt = byU16 → n < LZ4_64Klimit) :
    LZ4_compress_generic table S dest n maxOut lim tt acc =
      run ⟨S, n, maxOut, lim, tt, acc⟩ (2 * n + 8) (startLabel ⟨S, n, maxOut, lim, tt, acc⟩)
        ⟨1, 0, 0, LZ4_hashPosition S 1 tt, LZ4_putPosition S 0 table tt 0, dest⟩ := by
  unfold LZ4_compress_generic
  rw [if_neg (by simp only [LZ4_MAX_INPUT_SIZE] at hlen ⊢; omega)]
  rw [if_neg (by
    intro h
    have := htt h.1
    have h2 := h.2
    simp only [LZ4_64Klimit, KB, MFLIMIT, WILDCOPYLENGTH, MINMATCH] at this h2
    omega)]
  simp only [Int.toNat_ofNat]
  rw [if_neg (by simp only [LZ4_minLength, MFLIMIT, WILDCOPYLENGTH, MINMATCH]; omega)]
  rfl

theorem small_observed (table : Table) (S : List Byte) (dest : Mem) (maxOut : Int)
    (lim : limitedOutput_directive) (tt : tableType_t) (acc : Nat) (n : Nat) (hn : n < 13)
    (hcap : lim = noLimit ∨ ((n : Int) + 1 ≤ maxOut % 2 ^ 32)) :
    observed (LZ4_compress_generic table S dest n maxOut lim tt acc) =
      some (n + 1, toByte (n <<< ML_BITS) :: slice S 0 n) := by
  rw [observed_generic, engineTrace_small _ _ _ _ _ _ _ hn]
  have hl : lastTrace ⟨S, n, maxOut, lim, tt, acc⟩ 0 0 = some ([], slice S 0 n) := by
    unfold lastTrace
    dsimp only [Env.iend]
    rw [if_neg]
    · rfl
    · intro h
      rcases hcap with hc | hc
      · rw [hc] at h; cases h.1
      · have h2 := h.2
        simp only [RUN_MASK, ML_BITS, RUN_BITS] at h2
        have : (n - 0 + 255 - (1 <<< (8 - 4) - 1)) / 255 = 0 := by
          have : (1 <<< (8 - 4) - 1) = 15 := by decide
          rw [this]; omega
        rw [this] at h2
        push_cast at h2
        omega
  rw [hl]
  simp only [traceObserved, Option.map_some', encBlock, encLiterals, slice_length,
    lenBytes_small n (by omega), List.nil_append, List.length_cons, Option.some.injEq,
    Prod.mk.injEq, List.cons.injEq, and_true, true_and]
  apply Fin.ext
  simp only [tokenByte, toByte_val, Nat.shiftLeft_eq, ML_BITS]
  have h1 : min n 15 = n := by omega
  have h2 : min 0 15 = 0 := by decide
  rw [h1, h2]
  rfl

theorem slice_getD (S : List Byte) (a n i : Nat) (h : i < n) :
    (slice S a n).getD i 0 = S.getD (a + i) 0 := by
  simp [slice, List.getD_eq_getElem?_getD, h]

theorem header_of_emits (d d' : Mem) (op : Nat) (S : List Byte) (a L : Nat)
    (h : Emits d op d' (encLiterals (slice S a L) 0)) :
    LiteralHeader d' op L ∧
    ∀ i, i < L → d' (op + 1 + (lenBytes L).length + i) = S.getD (a + i) 0 := by
  have hlen : (encLiterals (slice S a L) 0).length = 1 + (lenBytes L).length + L := by
    rw [encLiterals_length, slice_length, lenBytes_length]
  have hdef : encLiterals (slice S a L) 0 = tokenByte L 0 :: (lenBytes L ++ slice S a L) := by
    simp only [encLiterals, slice_length]
  have h0 := h.2 0 (by omega)
  rw [hdef] at h0
  simp only [Nat.add_zero, List.getD_cons_zero] at h0
  refine ⟨⟨?_, ?_, fun i hi => ?_⟩, fun i hi => ?_⟩
  · rw [h0, tokenByte_val]
    have h1 : min L 15 ≤ 15 := Nat.min_le_right _ _
    have h2 : min 0 15 = 0 := by decide
    rw [h2, Nat.shiftRight_eq_div_pow]
    simp only [ML_BITS, RUN_MASK, RUN_BITS]
    have : (1 <<< (8 - 4) - 1) = 15 := by decide
    rw [this]
    omega
  · rw [h0, tokenByte_val]
    have h2 : min 0 15 = 0 := by decide
    rw [h2]
    omega
  · have := h.2 (1 + i) (by omega)
    rw [hdef] at this
    rw [show op + 1 + i = op + (1 + i) by omega, this, Nat.add_comm 1 i, List.getD_cons_succ,
      getD_append_left _ _ _ hi]
  · have := h.2 (1 + ((lenBytes L).length + i)) (by omega)
    rw [hdef] at this
    rw [show op + 1 + (lenBytes L).length + i = op + (1 + ((lenBytes L).length + i)) by omega,
      this, Nat.add_comm 1 _, List.getD_cons_succ, getD_append_right, slice_getD _ _ _ _ hi]

theorem lenBytes_sum (L : Nat) (h : 15 ≤ L) : 15 + ((lenBytes L).map Fin.val).sum = L := by
  have hd : lenBytes L =
      List.replicate ((L - 15) / 255) (toByte 255) ++ [toByte ((L - 15) % 255)] := by
    simp [lenBytes, h]
  rw [hd]
  simp only [List.map_append, List.map_replicate, List.sum_append, List.sum_replicate,
    List.map_cons, List.map_nil, List.sum_cons, List.sum_nil, smul_eq_mul, toByte_val]
  have := Nat.div_add_mod (L - 15) 255
  have h1 : (L - 15) % 255 % 256 = (L - 15) % 255 := by omega
  have h2 : 255 % 256 = 255 := by decide
  rw [h1, h2]
  omega

/-! ## The size of a block -/

theorem encSeq_length (s : Seq) :
    (encSeq s).length =
      3 + lenFieldSize s.lits.length + s.lits.length + lenFieldSize s.matchCode := by
  simp only [encSeq, List.length_append, encLiterals_length, List.length_cons, List.length_nil,
    lenBytes_length]
  omega

/-- The size of a covering block: 255 output bytes pay for at most 256 source
bytes, up to the header of the final run. -/
theorem covers_size (S : List Byte) : ∀ (ss : List Seq) (a : Nat) (last : List Byte),
    Covers S a ss last → 255 * (encBlock ss last).length + 256 * a ≤ 256 * S.length + 495 := by
  intro ss
  induction ss with
  | nil =>
    intro a last h
    obtain ⟨h1, h2⟩ := h
    subst h2
    simp only [encBlock, encLiterals_length, List.length_drop, lenFieldSize]
    split <;> omega
  | cons s ss ih =>
    intro a last h
    obtain ⟨h1, _, _, _, _, h6, _, h8⟩ := h
    have := ih _ _ h8
    simp only [encBlock, List.length_append, encSeq_length, lenFieldSize, MINMATCH] at this ⊢
    split <;> split <;> omega

theorem block_bound (S : List Byte) (b : List Seq × List Byte) (h : Covers S 0 b.1 b.2) :
    1 ≤ (encBlock b.1 b.2).length ∧
    (encBlock b.1 b.2).length ≤ S.length + S.length / 255 + 16 := by
  have h1 := encBlock_length b.1 b.2
  have h2 := covers_size S b.1 0 b.2 h
  omega

/-! ## A run that overruns the match-length check -/

theorem readByte_replicate (n : Nat) (a : Byte) (i : Nat) (h : i < n) :
    readByte (List.replicate n a) i = a.val := by
  simp [readByte, List.getD_eq_getElem?_getD, List.getElem?_replicate, h]

theorem fresh_put_zero (S : List Byte) (tt : tableType_t) (x : Nat) :
    LZ4_putPosition S 0 (fun _ => 0) tt 0 x = 0 := by
  cases tt <;> simp only [LZ4_putPosition, LZ4_putPositionOnHash, setEntry] <;> split <;> rfl

theorem lastLiterals_fail (e : Env) (anchor op : Nat) (dest : Mem) (table : Table)
    (h : e.outputLimited = limitedOutput ∧
      ((op + (e.iend - anchor) + 1 + ((e.iend - anchor) + 255 - RUN_MASK) / 255 : Nat) : Int)
        > e.maxOutputSize % 2 ^ 32) :
    lastLiterals e anchor op dest table = ⟨0, dest, table⟩ := if_pos h

/-- The limited engine on 500000 equal bytes with room for 1963: the check of
"Encode MatchLength" passes, the field is written up to index 1964, and
"Encode Last Literals" then returns 0. -/
theorem overflow_run (S : List Byte) (dest : Mem)
    (hS : ∀ i, i + 1 < 500000 → readByte S i = readByte S (i + 1)) :
    ∃ o, LZ4_compress_generic (fun _ => 0) S dest (500000 : Nat) 1963 limitedOutput byU32 1
        = some o ∧
      o.ret = 0 ∧ o.dest 1963 = toByte 255 ∧ o.dest 1964 = toByte 175 := by
  have hall : ∀ i, i < 500000 → readByte S i = readByte S 0 := by
    intro i
    induction i with
    | zero => intro _; rfl
    | succ i ih => intro h; rw [← hS i h]; exact ih (by omega)
  have hrd : LZ4_read32 S 0 = LZ4_read32 S 1 := by
    have e0 : LZ4_read32 S 0 = readByte S 0 + readByte S 1 <<< 8 + readByte S 2 <<< 16
        + readByte S 3 <<< 24 := rfl
    have e1 : LZ4_read32 S 1 = readByte S 1 + readByte S 2 <<< 8 + readByte S 3 <<< 16
        + readByte S 4 <<< 24 := rfl
    rw [e0, e1, hall 1 (by omega), hall 2 (by omega), hall 3 (by omega), hall 4 (by omega)]
  have hcount : LZ4_count S 5 4 499995 = 499990 := by
    obtain ⟨n1, n2, n3⟩ := count_spec S 5 4 499995
    have := n1 (by omega)
    have := n3 499990 (by omega) (fun i hi => by
      rw [hall (4 + i) (by omega), hall (5 + i) (by omega)])
    omega
  rw [generic_start _ _ _ _ _ _ _ _ (by omega) (by simp only [LZ4_MAX_INPUT_SIZE]; omega)
    (fun h => by cases h)]
  have hfuel : 2 * 500000 + 8 = 1000006 + 1 + 1 := rfl
  rw [hfuel]
  dsimp only [startLabel]
  rw [run]
  dsimp only
  have hml : (⟨S, 500000, 1963, limitedOutput, byU32, 1⟩ : Env).mflimit = 499988 := rfl
  have hmt : (⟨S, 500000, 1963, limitedOutput, byU32, 1⟩ : Env).matchlimit = 499995 := rfl
  rw [hml, if_neg (by omega), get_eq, fresh_put_zero]
  rw [if_neg (by
    intro h
    rcases h with h | h
    · rw [if_neg (by intro h'; cases h')] at h
      simp only [MAX_DISTANCE] at h
      omega
    · exact h hrd)]
  have hcu : catchUp S 0 0 1 1 0 = (1, 0) := by
    simp [catchUp]
  rw [hcu]
  dsimp only
  have henc : encodeLiterals ⟨S, 500000, 1963, limitedOutput, byU32, 1⟩ 1 0 0 dest =
      some (0, 2, LZ4_wildCopy (store dest 0 (toByte (1 <<< ML_BITS))) 1 S 0 2) := by
    unfold encodeLiterals
    dsimp only
    rw [if_neg (by
      intro h
      have h2 := h.2
      simp only [LASTLITERALS] at h2
      omega)]
    rfl
  rw [henc]
  dsimp only
  rw [run]
  dsimp only
  rw [hmt, hml]
  have hc2 : LZ4_count S (1 + MINMATCH) (0 + MINMATCH) 499995 = 499990 := hcount
  rw [hc2]
  rw [if_neg (by
    intro h
    have h2 := h.2
    simp only [LASTLITERALS, Nat.shiftRight_eq_div_pow] at h2
    omega)]
  rw [if_pos (by simp only [MINMATCH]; omega)]
  generalize LZ4_writeLE16 (LZ4_wildCopy (store dest 0 (toByte (1 <<< ML_BITS))) 1 S 0 2) 2
    ((((1 : Nat) : Int) - ((0 : Nat) : Int)) % 2 ^ 16).toNat = d2
  obtain ⟨s1, s2, s3, s4⟩ := encodeMatchLength_spec d2 (2 + 2) 0 499990 (by omega)
  have hlf : lenFieldSize 499990 = 1961 := by decide
  have hlb : lenBytes 499990 = List.replicate 1960 (toByte 255) ++ [toByte 175] := by
    simp only [lenBytes]
    rw [if_pos (by omega)]
  rw [hlf] at s1
  rw [hlb] at s4
  generalize encodeMatchLength d2 (2 + 2) 0 499990 = w at s1 s2 s3 s4
  have hfail := lastLiterals_fail ⟨S, 500000, 1963, limitedOutput, byU32, 1⟩
    (1 + (MINMATCH + 499990)) w.2 w.1
    (LZ4_putPositionOnHash 1 (LZ4_hashPosition S 1 byU32)
      (LZ4_putPosition S 0 (fun _ => 0) byU32 0) byU32 0)
    ⟨rfl, by
      rw [s1]
      show ((2 + 2 + 1961 + (500000 - (1 + (MINMATCH + 499990))) + 1 +
        (500000 - (1 + (MINMATCH + 499990)) + 255 - RUN_MASK) / 255 : Nat) : Int)
          > 1963 % 2 ^ 32
      decide⟩
  rw [hfail]
  refine ⟨_, rfl, rfl, ?_, ?_⟩
  · have := s4 1959 (by
      rw [List.length_append, List.length_replicate, List.length_singleton]; omega)
    rw [getD_replicate_append _ _ _ _ (by omega), if_pos (by omega)] at this
    exact this
  · have := s4 1960 (by
      rw [List.length_append, List.length_replicate, List.length_singleton]; omega)
    rw [getD_replicate_append _ _ _ _ (by omega), if_neg (by omega)] at this
    exact this

/-- Where the output-bound checks do cover what is written: the literal check
always, the match check for every `matchCode` below 330495. -/
theorem output_checks_cover :
    (∀ (e : Env) (ip anchor op : Nat) (dest : Mem) (token op' : Nat) (d' : Mem),
      e.outputLimited = limitedOutput →
      encodeLiterals e ip anchor op dest = some (token, op', d') → (op' : Int) ≤ e.maxOutputSize) ∧
    (∀ mc, mc < 330495 → lenFieldSize mc ≤ (1 + LASTLITERALS) + mc >>> 8) ∧
    (1 + LASTLITERALS) + 330495 >>> 8 < lenFieldSize 330495 := by
  refine ⟨?_, ?_, by decide⟩
  · intro e ip anchor op dest token op' d' hlim h
    obtain ⟨_, h2, _⟩ := encodeLiterals_spec e ip anchor op dest token op' d' h
    have hn : ¬ (encodeLiterals e ip anchor op dest = none) := by rw [h]; simp
    rw [encodeLiterals_none] at hn
    have hle : ((op + 1 + (ip - anchor) + (2 + 1 + LASTLITERALS) + (ip - anchor) / 255 : Nat)
        : Int) ≤ e.maxOutputSize := by
      by_contra hc
      exact hn ⟨hlim, by omega⟩
    rw [h2]
    simp only [lenFieldSize, LASTLITERALS] at hle ⊢
    split <;> omega
  · intro mc h
    simp only [lenFieldSize, LASTLITERALS, Nat.shiftRight_eq_div_pow]
    split <;> omega

/-! ## The safe decoder: its writes and its errors -/

theorem outBytes_succ (m : Mem) (n : Nat) : outBytes m (n + 1) = outBytes m n ++ [m n] := by
  simp [outBytes, List.range_succ]

theorem outBytes_congr (m m' : Mem) (n : Nat) (h : ∀ i, i < n → m i = m' i) :
    outBytes m n = outBytes m' n := by
  unfold outBytes
  apply List.map_congr_left
  intro i hi
  exact h i (List.mem_range.mp hi)

theorem outBytes_getD (m : Mem) (n i : Nat) (h : i < n) : (outBytes m n).getD i 0 = m i := by
  simp [outBytes, List.getD_eq_getElem?_getD, h]

theorem outBytes_copyLiterals (m : Mem) (op : Nat) (bs : List Byte) :
    outBytes (copyLiterals m op bs) (op + bs.length) = outBytes m op ++ bs := by
  apply List.ext_getElem
  · simp [outBytes]
  · intro i h1 h2
    simp only [outBytes, List.length_map, List.length_range] at h1
    by_cases hi : i < op
    · rw [List.getElem_append_left (by simp [outBytes]; exact hi)]
      simp [outBytes, copyLiterals]
      intro h; omega
    · rw [List.getElem_append_right (by simp [outBytes]; omega)]
      simp only [outBytes, List.getElem_map, List.getElem_range, copyLiterals, List.length_map,
        List.length_range]
      rw [if_pos ⟨by omega, by omega⟩, List.getD_eq_getElem?_getD,
        List.getElem?_eq_getElem (by omega)]
      rfl

theorem copyLiterals_frame (m : Mem) (op : Nat) (bs : List Byte) (i : Nat)
    (h : op + bs.length ≤ i) : copyLiterals m op bs i = m i := by
  simp only [copyLiterals]
  rw [if_neg (by omega)]

theorem copyMatchMem_spec (off : Nat) (h1 : 1 ≤ off) : ∀ (n : Nat) (m : Mem) (op : Nat),
    off ≤ op →
    outBytes (copyMatchMem n m op off) (op + n) = copyMatch n (outBytes m op) off ∧
    ∀ i, op + n ≤ i → copyMatchMem n m op off i = m i := by
  intro n
  induction n with
  | zero => intro m op _; exact ⟨rfl, fun i _ => rfl⟩
  | succ n ih =>
    intro m op h2
    obtain ⟨i1, i2⟩ := ih (store m op (m (op - off))) (op + 1) (by omega)
    have hlen : (outBytes m op).length = op := outBytes_length m op
    have hs : outBytes (store m op (m (op - off))) (op + 1) =
        outBytes m op ++ [(outBytes m op).getD ((outBytes m op).length - off) 0] := by
      rw [outBytes_succ, store_same, hlen, outBytes_getD _ _ _ (by omega)]
      congr 1
      exact outBytes_congr _ _ _ (fun i hi => store_other _ _ _ _ (by omega))
    constructor
    · rw [copyMatchMem, copyMatch, ← hs, ← i1]
      congr 1
      omega
    · intro i hi
      rw [copyMatchMem, i2 i (by omega), store_other _ _ _ _ (by omega)]

/-- The decoder on a destination buffer does what the list decoder does: it
fails exactly when the list decoder fails, it returns the length of the
decoded output and leaves that output at the start of the destination, and it
never stores at or beyond the capacity. -/
theorem safeDecode_sim (cap : Nat) : ∀ (fuel : Nat) (inp : List Byte) (op : Nat) (m : Mem),
    (safeDecodeLoop cap fuel inp op m).1 =
        (decodeLoop cap fuel inp (outBytes m op)).map List.length ∧
    (∀ out, decodeLoop cap fuel inp (outBytes m op) = some out →
        outBytes (safeDecodeLoop cap fuel inp op m).2 out.length = out) ∧
    (op ≤ cap → ∀ i, cap ≤ i → (safeDecodeLoop cap fuel inp op m).2 i = m i) := by
  intro fuel
  induction fuel with
  | zero =>
    intro inp op m
    exact ⟨rfl, fun out h => (by cases h), fun _ i _ => rfl⟩
  | succ fuel ih =>
    intro inp op m
    cases inp with
    | nil => exact ⟨rfl, fun out h => (by cases h), fun _ i _ => rfl⟩
    | cons token inp =>
      rw [safeDecodeLoop, decodeLoop]
      generalize (if token.val >>> ML_BITS = RUN_MASK then readLength inp RUN_MASK
        else some (token.val >>> ML_BITS, inp)) = rl
      cases rl with
      | none => exact ⟨rfl, fun out h => (by cases h), fun _ i _ => rfl⟩
      | some p =>
        obtain ⟨L, inp1⟩ := p
        dsimp only
        rw [outBytes_length]
        by_cases c1 : L > inp1.length ∨ op + L > cap
        · rw [if_pos c1, if_pos c1]
          exact ⟨rfl, fun out h => (by cases h), fun _ i _ => rfl⟩
        · rw [if_neg c1, if_neg c1]
          have hL : (inp1.take L).length = L := by
            rw [List.length_take]; omega
          have hlit : outBytes (copyLiterals m op (inp1.take L)) (op + L) =
              outBytes m op ++ inp1.take L := by
            have := outBytes_copyLiterals m op (inp1.take L)
            rwa [hL] at this
          have hfr : ∀ i, cap ≤ i → copyLiterals m op (inp1.take L) i = m i :=
            fun i hi => copyLiterals_frame _ _ _ _ (by rw [hL]; omega)
          rw [← hlit]
          generalize copyLiterals m op (inp1.take L) = m1 at hfr ⊢
          cases hdrop : inp1.drop L with
          | nil =>
            dsimp only
            refine ⟨by simp [outBytes_length], fun out h => ?_, fun _ i hi => hfr i hi⟩
            simp only [Option.some.injEq] at h
            rw [← h, outBytes_length]
          | cons lo tl =>
            cases tl with
            | nil =>
              dsimp only
              exact ⟨rfl, fun out h => (by cases h), fun _ i hi => hfr i hi⟩
            | cons hi inp2 =>
              dsimp only
              rw [outBytes_length]
              by_cases c2 : lo.val + hi.val <<< 8 = 0 ∨ lo.val + hi.val <<< 8 > op + L
              · rw [if_pos c2, if_pos c2]
                exact ⟨rfl, fun out h => (by cases h), fun _ i hi => hfr i hi⟩
              · rw [if_neg c2, if_neg c2]
                generalize (if token.val % 16 = ML_MASK then readLength inp2 ML_MASK
                  else some (token.val % 16, inp2)) = rm
                cases rm with
                | none =>
                  exact ⟨rfl, fun out h => (by cases h), fun _ i hi => hfr i hi⟩
                | some q =>
                  obtain ⟨ml, inp3⟩ := q
                  dsimp only
                  by_cases c3 : op + L + (ml + MINMATCH) > cap
                  · rw [if_pos c3, if_pos c3]
                    exact ⟨rfl, fun out h => (by cases h), fun _ i hi => hfr i hi⟩
                  · rw [if_neg c3, if_neg c3]
                    obtain ⟨k1, k2⟩ := copyMatchMem_spec (lo.val + hi.val <<< 8) (by omega)
                      (ml + MINMATCH) m1 (op + L) (by omega)
                    rw [← k1]
                    obtain ⟨j1, j2, j3⟩ := ih inp3 (op + L + (ml + MINMATCH))
                      (copyMatchMem (ml + MINMATCH) m1 (op + L) (lo.val + hi.val <<< 8))
                    refine ⟨j1, j2, fun hop i hi => ?_⟩
                    rw [j3 (by omega) i hi, k2 i (by omega), hfr i hi]

theorem encSeq_eq (s : Seq) (rest : List Byte) :
    encSeq s ++ rest = tokenByte s.lits.length s.matchCode ::
      (lenBytes s.lits.length ++ (s.lits ++ (toByte s.offset :: toByte (s.offset >>> 8) ::
        (lenBytes s.matchCode ++ rest)))) := by
  simp [encSeq, encLiterals]

theorem encLiterals_eq (lits : List Byte) (mc : Nat) (rest : List Byte) :
    encLiterals lits mc ++ rest =
      tokenByte lits.length mc :: (lenBytes lits.length ++ (lits ++ rest)) := by
  simp [encLiterals]

/-- One well-formed sequence that fits is decoded in one pass of the token
loop. -/
theorem decode_seq (cap fuel : Nat) (s : Seq) (rest out : List Byte)
    (h : 1 ≤ s.offset ∧ s.offset ≤ (out ++ s.lits).length ∧ s.offset ≤ 65535 ∧
      (out ++ s.lits).length + (s.matchCode + MINMATCH) ≤ cap) :
    decodeLoop cap (fuel + 1) (encSeq s ++ rest) out = decodeLoop cap fuel rest (expandSeq out s) := by
  obtain ⟨h1, h2, h3, h4⟩ := h
  rw [encSeq_eq, decodeLoop, read_literal_length]
  dsimp only
  rw [if_neg (by simp at h4 ⊢; omega)]
  rw [List.take_left, List.drop_left]
  dsimp only
  rw [offset_bytes _ h3, if_neg (by omega), read_match_length]
  dsimp only
  rw [if_neg (by omega)]
  rfl

theorem encSeqs_length (ss : List Seq) : ss.length ≤ (encSeqs ss).length := by
  induction ss with
  | nil => exact Nat.le_refl _
  | cons s ss ih =>
    simp only [encSeqs, List.length_append, List.length_cons, encSeq, encLiterals]
    omega

theorem decode_prefix (cap : Nat) : ∀ (ss : List Seq) (out rest : List Byte) (fuel : Nat),
    SeqsFit cap out ss →
    decodeLoop cap (fuel + ss.length) (encSeqs ss ++ rest) out =
      decodeLoop cap fuel rest (expandSeqs out ss) := by
  intro ss
  induction ss with
  | nil => intro out rest fuel _; rfl
  | cons s ss ih =>
    intro out rest fuel h
    obtain ⟨h1, h2⟩ := h
    have e : fuel + (s :: ss).length = (fuel + ss.length) + 1 := by simp; omega
    rw [e]
    simp only [encSeqs, List.append_assoc]
    rw [decode_seq cap _ s _ out h1]
    exact ih _ _ _ h2

theorem readLength_replicate : ∀ (k acc : Nat),
    readLength (List.replicate k (toByte 255)) acc = none := by
  intro k
  induction k with
  | zero => intro acc; rfl
  | succ k ih =>
    intro acc
    have hv : (toByte 255).val = 255 := rfl
    rw [List.replicate_succ, readLength, if_pos hv]
    exact ih _

/-- A corrupt token makes the token loop fail. -/
theorem bad_token (cap : Nat) (out bad : List Byte) (h : BadToken cap out bad) :
    ∀ fuel, decodeLoop cap fuel bad out = none := by
  intro fuel
  cases fuel with
  | zero => rfl
  | succ fuel =>
    cases h with
    | zeroOffset lits mc rest =>
      rw [encLiterals_eq, decodeLoop, read_literal_length]
      dsimp only
      by_cases c1 : lits.length > (lits ++ 0 :: 0 :: rest).length ∨ out.length + lits.length > cap
      · rw [if_pos c1]
      · rw [if_neg c1, List.take_left, List.drop_left]
        dsimp only
        rw [if_pos (Or.inl (by decide))]
    | literalsPastSource L mc bytes hb =>
      rw [decodeLoop, read_literal_length]
      dsimp only
      rw [if_pos (Or.inl hb)]
    | literalsPastCapacity lits mc rest hc =>
      rw [encLiterals_eq, decodeLoop, read_literal_length]
      dsimp only
      rw [if_pos (Or.inr hc)]
    | matchPastCapacity s rest hc =>
      rw [encSeq_eq, decodeLoop, read_literal_length]
      dsimp only
      generalize hr : (toByte s.offset :: toByte (s.offset >>> 8) :: (lenBytes s.matchCode ++ rest))
        = tail
      by_cases c1 : s.lits.length > (s.lits ++ tail).length ∨ out.length + s.lits.length > cap
      · rw [if_pos c1]
      · rw [if_neg c1, List.take_left, List.drop_left, ← hr]
        dsimp only
        generalize (toByte s.offset).val + (toByte (s.offset >>> 8)).val <<< 8 = off
        by_cases c2 : off = 0 ∨ off > (out ++ s.lits).length
        · rw [if_pos c2]
        · rw [if_neg c2, read_match_length]
          dsimp only
          rw [if_pos (by simp; omega)]
    | matchLengthPastSource lits lo hi k =>
      rw [encLiterals_eq, decodeLoop, read_literal_length]
      dsimp only
      by_cases c1 : lits.length > (lits ++ lo :: hi :: List.replicate k (toByte 255)).length ∨
          out.length + lits.length > cap
      · rw [if_pos c1]
      · rw [if_neg c1, List.take_left, List.drop_left]
        dsimp only
        by_cases c2 : lo.val + hi.val <<< 8 = 0 ∨ lo.val + hi.val <<< 8 > (out ++ lits).length
        · rw [if_pos c2]
        · rw [if_neg c2]
          have hv : (tokenByte lits.length 15).val % 16 = ML_MASK := by
            rw [tokenByte_val]
            have h1 : min lits.length 15 ≤ 15 := Nat.min_le_right _ _
            simp only [ML_MASK, ML_BITS]
            omega
          rw [if_pos hv, readLength_replicate]

/-- What `LZ4P_decompress_safe` returns and leaves behind, by the list
decoder. -/
theorem decompress_safe_eq (source : List Byte) (dest : Mem) (cs mds : Nat) :
    (LZ4P_decompress_safe source dest cs mds).1 =
      (match referenceDecode (source.take cs) mds with
       | none => -1
       | some out => (out.length : Int)) ∧
    (∀ out, referenceDecode (source.take cs) mds = some out →
      outBytes (LZ4P_decompress_safe source dest cs mds).2 out.length = out) := by
  obtain ⟨s1, s2, _⟩ := safeDecode_sim mds ((source.take cs).length + 1) (source.take cs) 0 dest
  have hd : LZ4P_decompress_safe source dest cs mds =
      (match (safeDecodeLoop mds ((source.take cs).length + 1) (source.take cs) 0 dest).1 with
       | none => (-1, (safeDecodeLoop mds ((source.take cs).length + 1) (source.take cs) 0 dest).2)
       | some n =>
          ((n : Int), (safeDecodeLoop mds ((source.take cs).length + 1) (source.take cs) 0 dest).2))
      := by
    unfold LZ4P_decompress_safe
    rw [if_neg (by omega)]
    simp only [Int.toNat_ofNat]
  have hout : outBytes dest 0 = [] := rfl
  rw [hout] at s1 s2
  have hr : referenceDecode (source.take cs) mds =
      decodeLoop mds ((source.take cs).length + 1) (source.take cs) [] := rfl
  rw [hd, hr]
  generalize safeDecodeLoop mds ((source.take cs).length + 1) (source.take cs) 0 dest = r
    at s1 s2
  generalize decodeLoop mds ((source.take cs).length + 1) (source.take cs) [] = d at s1 s2
  cases d with
  | none =>
    simp only [Option.map_none'] at s1
    rw [s1]
    exact ⟨rfl, fun out h => by cases h⟩
  | some out =>
    simp only [Option.map_some'] at s1
    rw [s1]
    exact ⟨rfl, fun out' h => s2 out' h⟩

/-- No call of `LZ4P_decompress_safe` stores at or beyond index
`maxDecompressedSize`. -/
theorem decompress_safe_frame (source : List Byte) (dest : Mem) (cs mds : Int) (i : Nat)
    (h : mds ≤ (i : Int)) : (LZ4P_decompress_safe source dest cs mds).2 i = dest i := by
  unfold LZ4P_decompress_safe
  by_cases c : cs < 0 ∨ mds < 0
  · rw [if_pos c]
  · rw [if_neg c]
    obtain ⟨_, _, s3⟩ := safeDecode_sim mds.toNat ((source.take cs.toNat).length + 1)
      (source.take cs.toNat) 0 dest
    have := s3 (Nat.zero_le _) i (by omega)
    dsimp only
    split <;> exact this

/-- A valid prefix followed by a corrupt token makes the list decoder fail. -/
theorem corrupt_stream_fails (cap : Nat) (ss : List Seq) (bad : List Byte)
    (h1 : SeqsFit cap [] ss) (h2 : BadToken cap (expandSeqs [] ss) bad) :
    referenceDecode (encSeqs ss ++ bad) cap = none := by
  unfold referenceDecode
  have hl := encSeqs_length ss
  have e : (encSeqs ss ++ bad).length + 1 =
      ((encSeqs ss ++ bad).length + 1 - ss.length) + ss.length := by
    rw [List.length_append]; omega
  rw [e, decode_prefix cap ss [] bad _ h1]
  exact bad_token cap _ bad h2 _

theorem asInt_small (x : Nat) (h : x < 2 ^ 31) : asInt x = (x : Int) := by
  unfold asInt
  have h1 : x % 2 ^ 32 = x := Nat.mod_eq_of_lt (by omega)
  rw [h1, if_pos h]

/-! ## The catch-up loop and the hash functions -/

/-- The catch-up loop with any low limit and a budget that covers the literal
run: what it keeps, and why it stops. -/
theorem catchUp_full (S : List Byte) (anchor lowLimit : Nat) : ∀ (n ip m : Nat),
    anchor ≤ ip → lowLimit ≤ m → ip - anchor ≤ n →
    (catchUp S anchor lowLimit n ip m).1 ≤ ip ∧
    (catchUp S anchor lowLimit n ip m).2 + ip = m + (catchUp S anchor lowLimit n ip m).1 ∧
    anchor ≤ (catchUp S anchor lowLimit n ip m).1 ∧
    lowLimit ≤ (catchUp S anchor lowLimit n ip m).2 ∧
    (∀ j, j < ip - (catchUp S anchor lowLimit n ip m).1 →
      readByte S ((catchUp S anchor lowLimit n ip m).1 + j) =
        readByte S ((catchUp S anchor lowLimit n ip m).2 + j)) ∧
    ((catchUp S anchor lowLimit n ip m).1 = anchor ∨
      (catchUp S anchor lowLimit n ip m).2 = lowLimit ∨
      readByte S ((catchUp S anchor lowLimit n ip m).1 - 1) ≠
        readByte S ((catchUp S anchor lowLimit n ip m).2 - 1)) := by
  intro n
  induction n with
  | zero =>
    intro ip m h1 h2 h3
    have hd : catchUp S anchor lowLimit 0 ip m = (ip, m) := rfl
    rw [hd]
    exact ⟨Nat.le_refl _, rfl, h1, h2, fun j hj => by simp at hj, Or.inl (by dsimp only; omega)⟩
  | succ n ih =>
    intro ip m h1 h2 h3
    by_cases hc : (ip > anchor ∧ m > lowLimit) ∧ readByte S (ip - 1) = readByte S (m - 1)
    · have hd : catchUp S anchor lowLimit (n + 1) ip m =
          catchUp S anchor lowLimit n (ip - 1) (m - 1) := by
        simp only [catchUp, hc, and_self, if_true]
      rw [hd]
      obtain ⟨⟨c1, c2⟩, c3⟩ := hc
      obtain ⟨i1, i2, i3, i4, i5, i6⟩ := ih (ip - 1) (m - 1) (by omega) (by omega) (by omega)
      refine ⟨by omega, by omega, i3, i4, fun j hj => ?_, i6⟩
      by_cases hj' : j < ip - 1 - (catchUp S anchor lowLimit n (ip - 1) (m - 1)).1
      · exact i5 j hj'
      · have e1 : (catchUp S anchor lowLimit n (ip - 1) (m - 1)).1 + j = ip - 1 := by omega
        have e2 : (catchUp S anchor lowLimit n (ip - 1) (m - 1)).2 + j = m - 1 := by omega
        rw [e1, e2, c3]
    · have hd : catchUp S anchor lowLimit (n + 1) ip m = (ip, m) := by
        simp only [catchUp, hc, if_false]
      rw [hd]
      refine ⟨Nat.le_refl _, rfl, h1, h2, fun j hj => by simp at hj, ?_⟩
      dsimp only
      by_cases e1 : ip = anchor
      · exact Or.inl e1
      · by_cases e2 : m = lowLimit
        · exact Or.inr (Or.inl e2)
        · exact Or.inr (Or.inr (fun he => hc ⟨⟨by omega, by omega⟩, he⟩))

/-! ## The chunk loop: the table fill and the progress of the loop -/

theorem hashFill_spec : ∀ (n i : Nat) (t : RawTable), i % 4 = 0 →
    i ≤ LZ4_COMPRESS_HASH_ENTRIES → LZ4_COMPRESS_HASH_ENTRIES ≤ i + 4 * n →
    ∀ j, hashFillLoop n i t j =
      if i ≤ j ∧ j < LZ4_COMPRESS_HASH_ENTRIES then HASH_FILL else t j := by
  have hE : LZ4_COMPRESS_HASH_ENTRIES = 1024 := by decide
  intro n
  induction n with
  | zero =>
    intro i t _ h2 h3 j
    rw [hashFillLoop, if_neg (by omega)]
  | succ n ih =>
    intro i t h1 h2 h3 j
    by_cases hi : i < LZ4_COMPRESS_HASH_ENTRIES
    · rw [hashFillLoop, if_pos hi, ih (i + 4) _ (by omega) (by omega) (by omega) j]
      by_cases hj : i + 4 ≤ j ∧ j < LZ4_COMPRESS_HASH_ENTRIES
      · rw [if_pos hj, if_pos ⟨by omega, hj.2⟩]
      · rw [if_neg hj]
        by_cases hj2 : j = i ∨ j = i + 1 ∨ j = i + 2 ∨ j = i + 3
        · rw [if_pos hj2, if_pos ⟨by omega, by omega⟩]
        · rw [if_neg hj2, if_neg (by omega)]
    · rw [hashFillLoop, if_neg hi, if_neg (by omega)]

/-- The table the per-chunk engine is handed: all 1024 entries are
`HASH_FILL`, the rest of the memory is untouched. -/
theorem hashFill_all (t : RawTable) (j : Nat) :
    hashFillLoop LZ4_COMPRESS_HASH_ENTRIES 0 t j =
      if j < LZ4_COMPRESS_HASH_ENTRIES then HASH_FILL else t j := by
  have hE : LZ4_COMPRESS_HASH_ENTRIES = 1024 := by decide
  rw [hashFill_spec LZ4_COMPRESS_HASH_ENTRIES 0 t (by decide) (by omega) (by omega) j]
  by_cases hj : j < LZ4_COMPRESS_HASH_ENTRIES
  · rw [if_pos ⟨Nat.zero_le _, hj⟩, if_pos hj]
  · rw [if_neg (fun h => hj h.2), if_neg hj]

theorem srcToEncode_le (st : RawState) :
    srcToEncode st ≤ BLOCK_SIZE_2G ∧ srcToEncode st ≤ st.src_size ∧
    (st.src_size > 0 → srcToEncode st > 0) ∧
    (srcToEncode st < st.src_size → srcToEncode st = BLOCK_SIZE_2G) ∧
    toInt32 (srcToEncode st) = (srcToEncode st : Int) := by
  have hb : srcToEncode st ≤ BLOCK_SIZE_2G := by unfold srcToEncode; split <;> omega
  refine ⟨hb, ?_, ?_, ?_, ?_⟩
  · unfold srcToEncode; split <;> omega
  · unfold srcToEncode; simp only [BLOCK_SIZE_2G]; split <;> omega
  · unfold srcToEncode; split <;> omega
  · unfold toInt32
    simp only [BLOCK_SIZE_2G] at hb
    have h1 : srcToEncode st % 2 ^ 32 = srcToEncode st := Nat.mod_eq_of_lt (by omega)
    rw [h1, if_pos (by omega)]

/-- One iteration of the chunk loop with an engine that consumes at most the
chunk: it fails, or the remaining size drops, by at least `chunkProgress` for
a chunk that is not the last one and to 0 for the last one. -/
theorem chunk_progress (encode : Encoder) (st : RawState)
    (hused : chunkSrcUsed encode st ≤ srcToEncode st) (hpos : st.src_size > 0) :
    lz4raw_encode_chunk encode st = none ∨
    ∃ st', lz4raw_encode_chunk encode st = some st' ∧ st'.src_size < st.src_size ∧
      (srcToEncode st < st.src_size →
        chunkSrcUsed encode st > BLOCK_SIZE_2G - 65536 ∧
        st'.src_size + chunkProgress ≤ st.src_size) ∧
      (srcToEncode st = st.src_size →
        chunkSrcUsed encode st = st.src_size ∧ st'.src_size = 0) := by
  obtain ⟨h1, h2, h3, h4, _⟩ := srcToEncode_le st
  rw [chunk_eq]
  by_cases c1 : srcToEncode st = st.src_size ∧ chunkSrcUsed encode st < srcToEncode st
  · rw [if_pos c1]; left; rfl
  · rw [if_neg c1]
    by_cases c2 : srcToEncode st < st.src_size ∧
        ptrDiff (srcToEncode st) (chunkSrcUsed encode st) ≥ (1 <<< 16)
    · rw [if_pos c2]; left; rfl
    · rw [if_neg c2]
      right
      refine ⟨_, rfl, ?_, fun hn => ?_, fun hf => ?_⟩
      · dsimp only
        by_cases hn : srcToEncode st < st.src_size
        · have hd : ¬ ptrDiff (srcToEncode st) (chunkSrcUsed encode st) ≥ (1 <<< 16) :=
            fun h => c2 ⟨hn, h⟩
          have h4' := h4 hn
          simp only [BLOCK_SIZE_2G] at h4'
          have e16 : (1 <<< 16 : Nat) = 65536 := by decide
          rw [e16] at hd
          unfold ptrDiff at hd ⊢
          omega
        · have he : srcToEncode st = st.src_size := by omega
          have : ¬ chunkSrcUsed encode st < srcToEncode st := fun h => c1 ⟨he, h⟩
          unfold ptrDiff
          omega
      · have hd : ¬ ptrDiff (srcToEncode st) (chunkSrcUsed encode st) ≥ (1 <<< 16) :=
          fun h => c2 ⟨hn, h⟩
        have h4' := h4 hn
        simp only [BLOCK_SIZE_2G] at h4'
        have e16 : (1 <<< 16 : Nat) = 65536 := by decide
        rw [e16] at hd
        dsimp only
        simp only [BLOCK_SIZE_2G, chunkProgress]
        unfold ptrDiff at hd ⊢
        omega
      · have : ¬ chunkSrcUsed encode st < srcToEncode st := fun h => c1 ⟨hf, h⟩
        dsimp only
        unfold ptrDiff
        omega

/-- The chunk loop ends within a budget of one iteration per `chunkProgress`
bytes. -/
theorem loop_terminates (encode : Encoder) (dst_buffer : Nat)
    (hused : ∀ st, chunkSrcUsed encode st ≤ srcToEncode st) : ∀ (budget : Nat) (st : RawState),
    st.src_size ≤ budget * chunkProgress →
    lz4raw_encode_loop encode dst_buffer budget st ≠ .outOfBudget := by
  intro budget
  induction budget with
  | zero =>
    intro st h
    rw [lz4raw_encode_loop, if_neg (by omega)]
    intro hc; cases hc
  | succ n ih =>
    intro st h
    rw [lz4raw_encode_loop]
    by_cases hpos : st.src_size > 0
    · rw [if_pos hpos]
      rcases chunk_progress encode st (hused st) hpos with hc | ⟨st', hc, _, hn, hf⟩
      · rw [hc]; intro h'; cases h'
      · rw [hc]
        dsimp only
        apply ih
        obtain ⟨_, h2, _, _, _⟩ := srcToEncode_le st
        by_cases hlast : srcToEncode st = st.src_size
        · rw [(hf hlast).2]; omega
        · have := (hn (by omega)).2
          have e : (n + 1) * chunkProgress = n * chunkProgress + chunkProgress := by ring
          omega
    · rw [if_neg hpos]
      intro hc; cases hc

theorem fullEncoder_used (st : RawState) :
    chunkSrcUsed fullEncoder st = srcToEncode st := by
  obtain ⟨h1, _, _, _, h5⟩ := srcToEncode_le st
  have hd : chunkSrcUsed fullEncoder st = ptrDiff (st.src + (toInt32 (srcToEncode st)).toNat) st.src :=
    rfl
  rw [hd, h5]
  simp only [BLOCK_SIZE_2G] at h1
  unfold ptrDiff
  omega

/-! ## The stores and the reads of the main loop -/

theorem stored_le (e : Env) (l : Label) (c : Cursor) (p : Nat)
    (hp : p ∈ storedPositions e l c) : p ≤ e.mflimit := by
  cases l with
  | findMatch f st smn =>
    simp only [storedPositions] at hp
    split at hp
    · simp at hp
    · simp only [List.mem_singleton] at hp
      omega
  | nextMatch m t =>
    simp only [storedPositions] at hp
    split at hp
    · simp at hp
    · split at hp
      · simp at hp
      · simp only [List.mem_cons, List.mem_singleton, List.not_mem_nil, or_false] at hp
        rcases hp with hp | hp <;> omega

theorem table_after (e : Env) (l : Label) (c : Cursor) (l1 : Label) (c1 : Cursor)
    (hs : engineStep e l c = .next l1 c1) : c1.table = tableAfter e l c := by
  cases l with
  | findMatch f st smn =>
    rw [engineStep] at hs
    dsimp only at hs
    dsimp only [tableAfter]
    by_cases c1' : f + st > e.mflimit
    · rw [if_pos c1'] at hs; cases hs
    · rw [if_neg c1'] at hs
      rw [if_neg c1']
      generalize LZ4_getPositionOnHash c.forwardH c.table e.tableType 0 = m at hs
      by_cases c2 : (if e.tableType = byU16 then False else m + MAX_DISTANCE < f) ∨
          LZ4_read32 e.source m ≠ LZ4_read32 e.source f
      · rw [if_pos c2] at hs
        simp only [Step.next.injEq] at hs
        rw [← hs.2]
      · rw [if_neg c2] at hs
        generalize catchUp e.source c.anchor 0 f f m = cu at hs
        by_cases c3 : e.outputLimited = limitedOutput ∧
            ((c.op + 1 + (cu.1 - c.anchor) + (2 + 1 + LASTLITERALS) + (cu.1 - c.anchor) / 255
              : Nat) : Int) > e.maxOutputSize
        · rw [if_pos c3] at hs; cases hs
        · rw [if_neg c3] at hs
          simp only [Step.next.injEq] at hs
          rw [← hs.2]
  | nextMatch m t =>
    rw [engineStep] at hs
    dsimp only at hs
    dsimp only [tableAfter]
    generalize LZ4_count e.source (c.ip + MINMATCH) (m + MINMATCH) e.matchlimit = mc at hs ⊢
    by_cases c1' : e.outputLimited = limitedOutput ∧
        ((c.op + 2 + (1 + LASTLITERALS) + mc >>> 8 : Nat) : Int) > e.maxOutputSize
    · rw [if_pos c1'] at hs; cases hs
    · rw [if_neg c1'] at hs
      rw [if_neg c1']
      by_cases c2 : c.ip + (MINMATCH + mc) > e.mflimit
      · rw [if_pos c2] at hs; cases hs
      · rw [if_neg c2] at hs
        rw [if_neg c2]
        generalize LZ4_getPosition e.source (c.ip + (MINMATCH + mc))
          (LZ4_putPosition e.source (c.ip + (MINMATCH + mc) - 2) c.table e.tableType 0)
          e.tableType 0 = m' at hs
        by_cases c3 : m' + MAX_DISTANCE ≥ c.ip + (MINMATCH + mc) ∧
            LZ4_read32 e.source m' = LZ4_read32 e.source (c.ip + (MINMATCH + mc))
        · rw [if_pos c3] at hs
          simp only [Step.next.injEq] at hs
          rw [← hs.2]
        · rw [if_neg c3] at hs
          simp only [Step.next.injEq] at hs
          rw [← hs.2]

/-- Reading a slot back after a store returns the stored position, as long as
the position fits the width of the table. -/
theorem get_put (p h : Nat) (t : Table) (tt : tableType_t)
    (h16 : tt = byU16 → p < 2 ^ 16) (h32 : p < 2 ^ 32) :
    LZ4_getPositionOnHash h (LZ4_putPositionOnHash p h t tt 0) tt 0 = p := by
  cases tt with
  | byU32 =>
    simp only [LZ4_getPositionOnHash, LZ4_putPositionOnHash, setEntry, if_true, Nat.add_zero,
      Nat.sub_zero]
    exact Nat.mod_eq_of_lt h32
  | byU16 =>
    simp only [LZ4_getPositionOnHash, LZ4_putPositionOnHash, setEntry, if_true, Nat.add_zero,
      Nat.sub_zero]
    exact Nat.mod_eq_of_lt (h16 rfl)

theorem hashWidth_le (tt : tableType_t) : hashWidth tt ≤ 8 := by
  unfold hashWidth; split <;> omega

/-- Every read of a pass from a state that satisfies the invariant lies inside
the input. -/
theorem reads_in_bounds (e : Env) (g : GoodEnv e) (l : Label) (c : Cursor)
    (h : StateInv e l c) : ∀ r, r ∈ readsAt e l c → r.1 + r.2 ≤ e.iend := by
  have hmin := g.hmin
  have hml : e.matchlimit = e.inputSize - 5 := rfl
  have hmfl : e.mflimit = e.inputSize - 12 := rfl
  have hie : e.iend = e.inputSize := rfl
  have hw := hashWidth_le e.tableType
  intro r hr
  cases l with
  | findMatch f st smn =>
    obtain ⟨⟨a1, a2, a3, a4, a5⟩, hfH, h3, h4, h5, h6⟩ := h
    simp only [readsAt] at hr
    by_cases c1 : f + st > e.mflimit
    · rw [if_pos c1] at hr; simp at hr
    · rw [if_neg c1, get_eq] at hr
      have hm := h3 c.forwardH
      simp only [List.mem_cons, List.mem_singleton, List.not_mem_nil, or_false] at hr
      rcases hr with hr | hr | hr <;> subst hr <;> dsimp only <;> omega
  | nextMatch m t =>
    obtain ⟨⟨a1, a2, a3, a4⟩, h2, h3, k, k1, k2, k3, k4⟩ := h
    obtain ⟨n1, n2, n3⟩ := count_spec e.source (c.ip + MINMATCH) (m + MINMATCH) e.matchlimit
    have hlow : k - 4 ≤ LZ4_count e.source (c.ip + MINMATCH) (m + MINMATCH) e.matchlimit := by
      apply n3
      · simp only [MINMATCH]; omega
      · intro i hi
        have := k3 (i + 4) (by omega)
        simp only [MINMATCH]
        rw [show m + 4 + i = m + (i + 4) by omega, show c.ip + 4 + i = c.ip + (i + 4) by omega]
        exact this.symm
    simp only [readsAt] at hr
    generalize LZ4_count e.source (c.ip + MINMATCH) (m + MINMATCH) e.matchlimit = mc at hlow hr
    simp only [MINMATCH] at hr
    by_cases c1 : e.outputLimited = limitedOutput ∧
        ((c.op + 2 + (1 + LASTLITERALS) + mc >>> 8 : Nat) : Int) > e.maxOutputSize
    · rw [if_pos c1] at hr; simp at hr
    · rw [if_neg c1] at hr
      by_cases c2 : c.ip + (4 + mc) > e.mflimit
      · rw [if_pos c2] at hr; simp at hr
      · rw [if_neg c2] at hr
        have ht1 : ∀ x, LZ4_putPosition e.source (c.ip + (4 + mc) - 2) c.table e.tableType 0 x
            < c.ip + (4 + mc) :=
          putPosition_lt _ _ _ _ _ (fun x => by have := k4 x; omega) (by omega)
        have hm' := getPosition_lt e.source (c.ip + (4 + mc)) _ e.tableType _ ht1
        generalize LZ4_getPosition e.source (c.ip + (4 + mc))
          (LZ4_putPosition e.source (c.ip + (4 + mc) - 2) c.table e.tableType 0)
          e.tableType 0 = m' at hm' hr
        simp only [List.mem_cons, List.mem_singleton, List.not_mem_nil, or_false] at hr
        rcases hr with hr | hr | hr | hr | hr <;> subst hr <;> dsimp only <;> omega

theorem acc_range (a n : Nat) (h1 : 1 ≤ a) (h2 : a ≤ 2 ^ 25) (hn : n ≤ LZ4_MAX_INPUT_SIZE) :
    64 ≤ (a <<< LZ4_SKIPTRIGGER) % 2 ^ 32 ∧ (a <<< LZ4_SKIPTRIGGER) % 2 ^ 32 + n ≤ 2 ^ 32 := by
  have hs : a <<< LZ4_SKIPTRIGGER = a * 64 := by rw [Nat.shiftLeft_eq]; rfl
  rw [hs]
  simp only [LZ4_MAX_INPUT_SIZE] at hn
  omega

/-- The engine on a fresh table returns, in both output modes and for both
table types. -/
theorem generic_total (S : List Byte) (dest : Mem) (maxOut : Int) (lim : limitedOutput_directive)
    (tt : tableType_t) (acc : Nat)
    (hlen : S.length ≤ LZ4_MAX_INPUT_SIZE)
    (hacc : 64 ≤ (acc <<< LZ4_SKIPTRIGGER) % 2 ^ 32 ∧
      (acc <<< LZ4_SKIPTRIGGER) % 2 ^ 32 + S.length ≤ 2 ^ 32) :
    ∃ o, LZ4_compress_generic (fun _ => 0) S dest S.length maxOut lim tt acc = some o := by
  by_cases htt : tt = byU16 → S.length < LZ4_64Klimit
  · cases lim with
    | noLimit =>
      obtain ⟨o, _, h, _⟩ := generic_noLimit S dest maxOut tt acc hlen htt hacc
      exact ⟨o, h⟩
    | limitedOutput =>
      obtain ⟨o, h, _⟩ := generic_limited S dest maxOut tt acc hlen htt hacc
      exact ⟨o, h⟩
  · have h1 : tt = byU16 := by
      by_contra hne; exact htt (fun h => absurd h hne)
    have h2 : ¬ S.length < LZ4_64Klimit := fun h => htt (fun _ => h)
    unfold LZ4_compress_generic
    rw [if_neg (by simp only [LZ4_MAX_INPUT_SIZE] at hlen ⊢; omega)]
    rw [if_pos ⟨h1, by
      simp only [LZ4_64Klimit, KB, MFLIMIT, WILDCOPYLENGTH, MINMATCH] at h2 ⊢
      omega⟩]
    exact ⟨_, rfl⟩

theorem tableAfter_stores (e : Env) (l : Label) (c : Cursor) :
    (∀ f st smn, l = .findMatch f st smn →
      tableAfter e l c = (storedPositions e l c).foldl
        (fun t p => LZ4_putPositionOnHash p c.forwardH t e.tableType 0) c.table) ∧
    (∀ m t, l = .nextMatch m t →
      tableAfter e l c = (storedPositions e l c).foldl
        (fun t p => LZ4_putPosition e.source p t e.tableType 0) c.table) := by
  constructor
  · intro f st smn hl
    subst hl
    dsimp only [tableAfter, storedPositions]
    by_cases h : f + st > e.mflimit
    · rw [if_pos h, if_pos h]; rfl
    · rw [if_neg h, if_neg h]; rfl
  · intro m t hl
    subst hl
    dsimp only [tableAfter, storedPositions]
    generalize LZ4_count e.source (c.ip + MINMATCH) (m + MINMATCH) e.matchlimit = mc
    by_cases c1 : e.outputLimited = limitedOutput ∧
        ((c.op + 2 + (1 + LASTLITERALS) + mc >>> 8 : Nat) : Int) > e.maxOutputSize
    · rw [if_pos c1, if_pos c1]; rfl
    · rw [if_neg c1, if_neg c1]
      by_cases c2 : c.ip + (MINMATCH + mc) > e.mflimit
      · rw [if_pos c2, if_pos c2]; rfl
      · rw [if_neg c2, if_neg c2]; rfl

/-! ## The claims -/

/-- Claim C1: round trip.  For every byte sequence `S` of at most
`LZ4_MAX_INPUT_SIZE` bytes, every prior content of the destination and of the
(non-null) workspace and every `maxOutputSize >= LZ4_COMPRESSBOUND(len S)`
(which is `len S + len S / 255 + 16`), `LZ4P_compress_default` returns, the
value returned is not 0, and the reference decoder applied to the bytes
produced, with capacity `len S`, yields exactly `S`. -/
theorem compress_default_roundtrip (S : List Byte) (dest : Mem) (wrkmem : LZ4_stream_t_internal)
    (maxOutputSize : Int) (hlen : S.length ≤ LZ4_MAX_INPUT_SIZE)
    (hmax : maxOutputSize ≥ LZ4_COMPRESSBOUND S.length) :
    LZ4_COMPRESSBOUND S.length = S.length + S.length / 255 + 16 ∧
    ∃ o, LZ4P_compress_default S dest S.length maxOutputSize (some wrkmem) = some o ∧
      o.ret ≠ 0 ∧ referenceDecode o.bytes S.length = some S := by
  refine ⟨compressBound_eq _ hlen, ?_⟩
  rw [default_eq, if_pos hmax, if_pos hmax]
  obtain ⟨o, b, h1, _, h3, h4, h5⟩ := generic_noLimit S dest 0
    (if (S.length : Int) < (LZ4_64Klimit : Int) then byU16 else byU32) 1 hlen
    (tableType_ok _) (acc_default _ hlen)
  refine ⟨o, h1, ?_, ?_⟩
  · have := encBlock_length b.1 b.2
    omega
  · show referenceDecode (outBytes o.dest o.ret) S.length = some S
    rw [h5]
    exact decode_block S b h3

theorem compress_default_roundtrip_witness :
    twentyA.length ≤ LZ4_MAX_INPUT_SIZE ∧ (36 : Int) ≥ LZ4_COMPRESSBOUND twentyA.length ∧
    (LZ4_COMPRESSBOUND twentyA.length = twentyA.length + twentyA.length / 255 + 16 ∧
    ∃ o, LZ4P_compress_default twentyA (fun _ => 0) twentyA.length 36 (some usedWorkspace)
        = some o ∧
      o.ret ≠ 0 ∧ referenceDecode o.bytes twentyA.length = some twentyA) :=
  ⟨by decide, by decide,
    compress_default_roundtrip twentyA (fun _ => 0) usedWorkspace 36 (by decide) (by decide)⟩

/-- Claim C2, the failing input: `inputSize = 0` and `maxOutputSize = -1`.
The capacity is below `LZ4_COMPRESSBOUND(0) = 16`, so the call takes the
`limitedOutput` path; "Encode Last Literals" compares the 1 byte it needs with
`(U32)maxOutputSize = 4294967295`, writes the token and returns 1, which is
neither 0 nor at most `maxOutputSize`. -/
theorem compress_default_negative_capacity (S : List Byte) (dest : Mem)
    (wrkmem : LZ4_stream_t_internal) :
    (-1 : Int) < LZ4_COMPRESSBOUND 0 ∧
    LZ4P_compress_default S dest 0 (-1) (some wrkmem) =
      LZ4_compress_generic (fun _ => 0) S dest 0 (-1) limitedOutput byU16 1 ∧
    observed (LZ4P_compress_default S dest 0 (-1) (some wrkmem)) = some (1, [0x00]) ∧
    ¬ ((1 : Int) ≤ -1) := by
  have hb : ¬ ((-1 : Int) ≥ LZ4_COMPRESSBOUND 0) := by decide
  have htt : (if (0 : Int) < (LZ4_64Klimit : Int) then byU16 else byU32) = byU16 := by decide
  refine ⟨by decide, ?_, ?_, by decide⟩
  · rw [default_eq, if_neg hb, if_neg hb, htt]
  · rw [default_eq, if_neg hb, if_neg hb, htt, observed_generic, negative_trace]
    rfl

/-- Claim C3: determinism.  For every source, `inputSize`, `maxOutputSize`
and acceleration, the value returned and the bytes produced by
`LZ4P_compress_fast_extState` and by `LZ4P_compress_default` are the same
whatever the non-null workspace (and the destination) held before, because the
stream state is reset before the engine runs. -/
theorem compress_deterministic (S : List Byte) (inputSize maxOutputSize acceleration : Int)
    (dest1 dest2 : Mem) (state1 state2 : LZ4_stream_t_internal) :
    observed (LZ4P_compress_fast_extState (some state1) S dest1 inputSize maxOutputSize
        acceleration) =
      observed (LZ4P_compress_fast_extState (some state2) S dest2 inputSize maxOutputSize
        acceleration) ∧
    observed (LZ4P_compress_default S dest1 inputSize maxOutputSize (some state1)) =
      observed (LZ4P_compress_default S dest2 inputSize maxOutputSize (some state2)) ∧
    LZ4P_resetStream state1 = LZ4P_resetStream state2 ∧
    LZ4P_compress_fast_extState (some state1) S dest1 inputSize maxOutputSize acceleration =
      LZ4P_compress_fast_extState (some state2) S dest1 inputSize maxOutputSize acceleration := by
  refine ⟨?_, ?_, rfl, ?_⟩
  · rw [extState_eq, extState_eq, observed_generic, observed_generic]
  · rw [default_eq, default_eq, observed_generic, observed_generic]
  · rw [extState_eq, extState_eq]

/-- Claim C4, counterexample: for the empty source `maxOutputSize = 0` makes
`LZ4P_compress_default` return 0 and produce nothing, while
`maxOutputSize = LZ4_COMPRESSBOUND(0)` makes it return 1 and produce the byte
`00`. -/
theorem zero_capacity_counterexample :
    observed (LZ4P_compress_default [] (fun _ => 0) 0 0 (some usedWorkspace)) = some (0, []) ∧
    observed (LZ4P_compress_default [] (fun _ => 0) 0 (LZ4_COMPRESSBOUND 0)
      (some usedWorkspace)) = some (1, [0x00]) := by
  decide

/-- Claim C4, amended: a destination capacity of zero is a bound of zero bytes.
For every source of at most `LZ4_MAX_INPUT_SIZE` bytes and every non-null
workspace, `LZ4P_compress_default` with `maxOutputSize = 0` runs the engine
with `limitedOutput` and the limit 0, returns 0 and produces no byte; the
engine runs without an output limit when
`maxOutputSize = LZ4_COMPRESSBOUND(inputSize)`, and then the value returned
is not 0. -/
theorem zero_capacity_fails (S : List Byte) (dest : Mem) (wrkmem : LZ4_stream_t_internal)
    (hlen : S.length ≤ LZ4_MAX_INPUT_SIZE) :
    LZ4P_compress_default S dest S.length 0 (some wrkmem) =
      LZ4_compress_generic (fun _ => 0) S dest S.length 0 limitedOutput
        (if (S.length : Int) < (LZ4_64Klimit : Int) then byU16 else byU32) 1 ∧
    observed (LZ4P_compress_default S dest S.length 0 (some wrkmem)) = some (0, []) ∧
    LZ4P_compress_default S dest S.length (LZ4_COMPRESSBOUND S.length) (some wrkmem) =
      LZ4_compress_generic (fun _ => 0) S dest S.length 0 noLimit
        (if (S.length : Int) < (LZ4_64Klimit : Int) then byU16 else byU32) 1 ∧
    ∃ o, LZ4P_compress_default S dest S.length (LZ4_COMPRESSBOUND S.length) (some wrkmem)
        = some o ∧ o.ret ≠ 0 := by
  have hb := compressBound_eq _ hlen
  have hneg : ¬ ((0 : Int) ≥ LZ4_COMPRESSBOUND S.length) := by omega
  obtain ⟨o, h1, h2, _⟩ := compress_default_bounded S dest wrkmem 0 hlen (Int.le_refl _)
    (by omega)
  have hz : o.ret = 0 := by omega
  refine ⟨?_, ?_, ?_, ?_⟩
  · rw [default_eq, if_neg hneg, if_neg hneg]
  · rw [h1]
    simp [observed, Outcome.bytes, hz, outBytes]
  · rw [default_eq, if_pos (Int.le_refl _), if_pos (Int.le_refl _)]
  · rw [default_eq, if_pos (Int.le_refl _), if_pos (Int.le_refl _)]
    obtain ⟨oN, b, g1, _, _, g4, _⟩ := generic_noLimit S dest 0
      (if (S.length : Int) < (LZ4_64Klimit : Int) then byU16 else byU32) 1 hlen
      (tableType_ok _) (acc_default _ hlen)
    refine ⟨oN, g1, ?_⟩
    have := encBlock_length b.1 b.2
    omega

theorem zero_capacity_fails_witness :
    ([0x01, 0x02, 0x03] : List Byte).length ≤ LZ4_MAX_INPUT_SIZE ∧
    (LZ4P_compress_default [0x01, 0x02, 0x03] (fun _ => 0)
        ([0x01, 0x02, 0x03] : List Byte).length 0 (some usedWorkspace) =
      LZ4_compress_generic (fun _ => 0) [0x01, 0x02, 0x03] (fun _ => 0)
        ([0x01, 0x02, 0x03] : List Byte).length 0 limitedOutput
        (if (([0x01, 0x02, 0x03] : List Byte).length : Int) < (LZ4_64Klimit : Int) then byU16
          else byU32) 1 ∧
    observed (LZ4P_compress_default [0x01, 0x02, 0x03] (fun _ => 0)
        ([0x01, 0x02, 0x03] : List Byte).length 0 (some usedWorkspace)) = some (0, []) ∧
    LZ4P_compress_default [0x01, 0x02, 0x03] (fun _ => 0) ([0x01, 0x02, 0x03] : List Byte).length
        (LZ4_COMPRESSBOUND ([0x01, 0x02, 0x03] : List Byte).length) (some usedWorkspace) =
      LZ4_compress_generic (fun _ => 0) [0x01, 0x02, 0x03] (fun _ => 0)
        ([0x01, 0x02, 0x03] : List Byte).length 0 noLimit
        (if (([0x01, 0x02, 0x03] : List Byte).length : Int) < (LZ4_64Klimit : Int) then byU16
          else byU32) 1 ∧
    ∃ o, LZ4P_compress_default [0x01, 0x02, 0x03] (fun _ => 0)
        ([0x01, 0x02, 0x03] : List Byte).length
        (LZ4_COMPRESSBOUND ([0x01, 0x02, 0x03] : List Byte).length) (some usedWorkspace)
        = some o ∧ o.ret ≠ 0) :=
  ⟨by decide, zero_capacity_fails [0x01, 0x02, 0x03] (fun _ => 0) usedWorkspace (by decide)⟩

/-- Claim C5: the 20 bytes "aaaaaaaaaaaaaaaaaaaa", compressed with acceleration
1 into a destination of at least `LZ4_COMPRESSBOUND(20) = 36` bytes, give the
10 bytes `1A 61 01 00 50 61 61 61 61 61`: one sequence with the literal 'a',
offset 1 and match code 10 (match length 14), then the final literal-only
token with 5 literals; 10 is less than 20, and the reference decoder turns the
10 bytes back into the 20. -/
theorem compress_twentyA (dest : Mem) (wrkmem : LZ4_stream_t_internal) (maxOutputSize : Int)
    (hmax : maxOutputSize ≥ LZ4_COMPRESSBOUND 20) :
    observed (LZ4P_compress_default twentyA dest 20 maxOutputSize (some wrkmem)) =
      some (10, [0x1A, 0x61, 0x01, 0x00, 0x50, 0x61, 0x61, 0x61, 0x61, 0x61]) ∧
    [0x1A, 0x61, 0x01, 0x00, 0x50, 0x61, 0x61, 0x61, 0x61, 0x61] =
      encSeq ⟨[0x61], 1, 14 - MINMATCH⟩ ++ encLiterals [0x61, 0x61, 0x61, 0x61, 0x61] 0 ∧
    10 < twentyA.length ∧
    referenceDecode [0x1A, 0x61, 0x01, 0x00, 0x50, 0x61, 0x61, 0x61, 0x61, 0x61] 20
      = some twentyA := by
  refine ⟨?_, by decide, by decide, by decide⟩
  rw [default_eq, if_pos hmax, if_pos hmax, observed_generic]
  have h : (if (20 : Int) < (LZ4_64Klimit : Int) then byU16 else byU32) = byU16 := by decide
  rw [h, twentyA_trace]
  decide

theorem compress_twentyA_witness :
    (36 : Int) ≥ LZ4_COMPRESSBOUND 20 ∧
    (observed (LZ4P_compress_default twentyA (fun _ => 0) 20 36 (some usedWorkspace)) =
      some (10, [0x1A, 0x61, 0x01, 0x00, 0x50, 0x61, 0x61, 0x61, 0x61, 0x61]) ∧
    [0x1A, 0x61, 0x01, 0x00, 0x50, 0x61, 0x61, 0x61, 0x61, 0x61] =
      encSeq ⟨[0x61], 1, 14 - MINMATCH⟩ ++ encLiterals [0x61, 0x61, 0x61, 0x61, 0x61] 0 ∧
    10 < twentyA.length ∧
    referenceDecode [0x1A, 0x61, 0x01, 0x00, 0x50, 0x61, 0x61, 0x61, 0x61, 0x61] 20
      = some twentyA) :=
  ⟨by decide, compress_twentyA (fun _ => 0) usedWorkspace 36 (by decide)⟩

/-- Claim C6: compressing 0 bytes into a destination of at least
`LZ4_COMPRESSBOUND(0) = 16` bytes succeeds with the single byte `00`, the token
of a zero-length literal run with no offset and no match field, and the
reference decoder turns that byte into 0 bytes. -/
theorem compress_empty (S : List Byte) (dest : Mem) (wrkmem : LZ4_stream_t_internal)
    (maxOutputSize : Int) (hmax : maxOutputSize ≥ 16) :
    observed (LZ4P_compress_default S dest 0 maxOutputSize (some wrkmem)) = some (1, [0x00]) ∧
    [0x00] = encLiterals [] 0 ∧
    referenceDecode [0x00] 0 = some [] := by
  refine ⟨?_, by decide, by decide⟩
  have hb : LZ4_COMPRESSBOUND 0 = 16 := by decide
  rw [default_eq, hb, if_pos hmax, if_pos hmax, observed_generic]
  have h : (if (0 : Int) < (LZ4_64Klimit : Int) then byU16 else byU32) = byU16 := by decide
  rw [h, empty_trace]
  decide

theorem compress_empty_witness :
    (16 : Int) ≥ 16 ∧
    (observed (LZ4P_compress_default [] (fun _ => 0) 0 16 (some usedWorkspace)) =
      some (1, [0x00]) ∧
    [0x00] = encLiterals [] 0 ∧
    referenceDecode [0x00] 0 = some []) :=
  ⟨by decide, compress_empty [] (fun _ => 0) usedWorkspace 16 (by decide)⟩

/-- Claim C7: chunking wrapper, final chunk.  Whatever the per-chunk engine
does, when the chunk being encoded is the last one
(`src_to_encode == src_size`) and the engine consumed fewer than
`src_to_encode` source bytes, the loop body returns 0, so the loop entered in
that state returns 0, and so does every run of the loop that reaches that
state. -/
theorem final_chunk_short_fails (encode : Encoder) (st : RawState)
    (hlast : srcToEncode st = st.src_size)
    (hshort : chunkSrcUsed encode st < srcToEncode st) :
    lz4raw_encode_chunk encode st = none ∧
    (∀ n dst_buffer, (lz4raw_encode_loop encode dst_buffer (n + 1) st).ret = some 0) ∧
    (∀ k n dst_buffer st0, afterChunks encode k st0 = some st →
      (lz4raw_encode_loop encode dst_buffer (k + (n + 1)) st0).ret = some 0) := by
  have hc : lz4raw_encode_chunk encode st = none := by
    rw [chunk_eq, if_pos ⟨hlast, hshort⟩]
  have hpos : st.src_size > 0 := by omega
  refine ⟨hc, fun n b => ?_, fun k n b st0 h => ?_⟩
  · rw [loop_fail_of_chunk encode b st hpos hc]; rfl
  · rw [loop_after encode b k st0 st (n + 1) h, loop_fail_of_chunk encode b st hpos hc]; rfl

theorem final_chunk_short_fails_witness :
    srcToEncode (sampleState 10) = (sampleState 10).src_size ∧
    chunkSrcUsed (sampleEncoder 4) (sampleState 10) < srcToEncode (sampleState 10) ∧
    (lz4raw_encode_chunk (sampleEncoder 4) (sampleState 10) = none ∧
    (∀ n dst_buffer,
      (lz4raw_encode_loop (sampleEncoder 4) dst_buffer (n + 1) (sampleState 10)).ret = some 0) ∧
    (∀ k n dst_buffer st0, afterChunks (sampleEncoder 4) k st0 = some (sampleState 10) →
      (lz4raw_encode_loop (sampleEncoder 4) dst_buffer (k + (n + 1)) st0).ret = some 0)) :=
  ⟨by decide, by decide,
    final_chunk_short_fails (sampleEncoder 4) (sampleState 10) (by decide) (by decide)⟩

/-- Claim C8, counterexample: a chunk that is not the last one (`src_size` is
`0x7ffff000 + 1`, so `src_to_encode` is `0x7ffff000`) and leaves exactly 65536
bytes unconsumed, which is not more than 65536, makes the loop body return 0. -/
theorem nonfinal_chunk_counterexample :
    srcToEncode (sampleState (0x7ffff000 + 1)) < (sampleState (0x7ffff000 + 1)).src_size ∧
    srcToEncode (sampleState (0x7ffff000 + 1)) -
      chunkSrcUsed (sampleEncoder (0x7ffff000 - 65536)) (sampleState (0x7ffff000 + 1)) = 65536 ∧
    ¬ (65536 > 65536) ∧
    lz4raw_encode_chunk (sampleEncoder (0x7ffff000 - 65536)) (sampleState (0x7ffff000 + 1))
      = none := by
  refine ⟨by decide, by decide, by decide, ?_⟩
  rw [chunk_eq, if_neg (by decide), if_pos (by decide)]

/-- Claim C8, amended: chunking wrapper, non-final chunk.  A chunk that is not
the last one (`src_to_encode < src_size`) makes the loop body return 0 if and
only if it left at least 65536 = `LZ4_DISTANCE_BOUND` bytes unconsumed
(`src_to_encode - src_used >= (1 << 16)` in `size_t` arithmetic, which is the
plain difference when `src_used <= src_to_encode`); so leaving exactly 65536
bytes fails and leaving 65535 bytes does not. -/
theorem nonfinal_chunk_fails_iff (encode : Encoder) (st : RawState)
    (hnonfinal : srcToEncode st < st.src_size) :
    (lz4raw_encode_chunk encode st = none ↔
      ptrDiff (srcToEncode st) (chunkSrcUsed encode st) ≥ LZ4_DISTANCE_BOUND) ∧
    (chunkSrcUsed encode st ≤ srcToEncode st →
      (lz4raw_encode_chunk encode st = none ↔
        srcToEncode st - chunkSrcUsed encode st ≥ 65536) ∧
      (srcToEncode st - chunkSrcUsed encode st = 65536 → lz4raw_encode_chunk encode st = none) ∧
      (srcToEncode st - chunkSrcUsed encode st = 65535 →
        lz4raw_encode_chunk encode st ≠ none)) := by
  have hiff : lz4raw_encode_chunk encode st = none ↔
      ptrDiff (srcToEncode st) (chunkSrcUsed encode st) ≥ LZ4_DISTANCE_BOUND := by
    rw [chunk_eq, if_neg (by omega)]
    constructor
    · intro h
      by_contra hn
      rw [if_neg (fun hc => hn hc.2)] at h
      cases h
    · intro h
      rw [if_pos ⟨hnonfinal, h⟩]
  refine ⟨hiff, fun hle => ?_⟩
  have hblock : srcToEncode st ≤ BLOCK_SIZE_2G := by
    unfold srcToEncode; split <;> omega
  have hd : ptrDiff (srcToEncode st) (chunkSrcUsed encode st) =
      srcToEncode st - chunkSrcUsed encode st := by
    unfold ptrDiff
    simp only [BLOCK_SIZE_2G] at hblock
    omega
  rw [hd] at hiff
  simp only [LZ4_DISTANCE_BOUND] at hiff
  refine ⟨hiff, fun h => hiff.2 (by omega), fun h hn => ?_⟩
  have := hiff.1 hn
  omega

theorem nonfinal_chunk_fails_iff_witness :
    srcToEncode (sampleState (0x7ffff000 + 1)) < (sampleState (0x7ffff000 + 1)).src_size ∧
    ((lz4raw_encode_chunk (sampleEncoder (0x7ffff000 - 65535)) (sampleState (0x7ffff000 + 1))
        = none ↔
      ptrDiff (srcToEncode (sampleState (0x7ffff000 + 1)))
        (chunkSrcUsed (sampleEncoder (0x7ffff000 - 65535)) (sampleState (0x7ffff000 + 1)))
        ≥ LZ4_DISTANCE_BOUND) ∧
    lz4raw_encode_chunk (sampleEncoder (0x7ffff000 - 65535)) (sampleState (0x7ffff000 + 1))
      ≠ none) :=
  ⟨by decide,
    (nonfinal_chunk_fails_iff (sampleEncoder (0x7ffff000 - 65535))
      (sampleState (0x7ffff000 + 1)) (by decide)).1,
    ((nonfinal_chunk_fails_iff (sampleEncoder (0x7ffff000 - 65535))
      (sampleState (0x7ffff000 + 1)) (by decide)).2 (by decide)).2.2 (by decide)⟩

/-- Claim C9: chunking wrapper result.  When `lz4raw_encode_buffer` succeeds
it returns `dst - dst_buffer`, the total number of bytes written, and that is
the sum of the `dst_used` values of its chunks (a `size_t`, so modulo `2^64`;
the sum itself when it is below `2^64`).  For `src_size = 0` the loop body
never runs, whatever the engine is: the result is 0 and the hash table, the
destination and the cursors are the ones passed in. -/
theorem encode_buffer_total (encode : Encoder) (budget : Nat) (mem : Mem)
    (dst_buffer dst_size src_buffer src_size : Nat) (hashTable : RawTable) :
    (∀ bytes final,
      lz4raw_encode_buffer encode budget mem dst_buffer dst_size src_buffer src_size hashTable
        = .ok bytes final →
      bytes = ptrDiff final.dst dst_buffer ∧
      bytes = (dstUsedList encode budget
        ⟨src_buffer, dst_buffer, src_size, dst_size, hashTable, mem⟩).sum % 2 ^ 64 ∧
      ((dstUsedList encode budget
          ⟨src_buffer, dst_buffer, src_size, dst_size, hashTable, mem⟩).sum < 2 ^ 64 →
        bytes = (dstUsedList encode budget
          ⟨src_buffer, dst_buffer, src_size, dst_size, hashTable, mem⟩).sum)) ∧
    lz4raw_encode_buffer encode budget mem dst_buffer dst_size src_buffer 0 hashTable =
      .ok 0 ⟨src_buffer, dst_buffer, 0, dst_size, hashTable, mem⟩ ∧
    dstUsedList encode budget ⟨src_buffer, dst_buffer, 0, dst_size, hashTable, mem⟩ = [] := by
  refine ⟨fun bytes final h => ?_, ?_, ?_⟩
  · obtain ⟨h1, h2⟩ := loop_total encode dst_buffer budget _ bytes final h
    dsimp only at h2
    rw [ptrDiff_self, Nat.zero_add] at h2
    exact ⟨h1, h2, fun hlt => by rw [h2, Nat.mod_eq_of_lt hlt]⟩
  · unfold lz4raw_encode_buffer
    cases budget <;> simp [lz4raw_encode_loop, ptrDiff_self]
  · cases budget <;> simp [dstUsedList]

theorem encode_buffer_total_witness :
    lz4raw_encode_buffer (sampleEncoder 5) 2 (fun _ => 0) 0 100 0 5 (fun _ => ⟨1, 1⟩) =
      .ok 3 ⟨5, 3, 0, 97, hashFillLoop LZ4_COMPRESS_HASH_ENTRIES 0 (fun _ => ⟨1, 1⟩),
        fun _ => 0⟩ ∧
    3 = (dstUsedList (sampleEncoder 5) 2 ⟨0, 0, 5, 100, fun _ => ⟨1, 1⟩, fun _ => 0⟩).sum
      % 2 ^ 64 :=
  have h : lz4raw_encode_buffer (sampleEncoder 5) 2 (fun _ => 0) 0 100 0 5 (fun _ => ⟨1, 1⟩) =
      .ok 3 ⟨5, 3, 0, 97, hashFillLoop LZ4_COMPRESS_HASH_ENTRIES 0 (fun _ => ⟨1, 1⟩),
        fun _ => 0⟩ := by
    unfold lz4raw_encode_buffer
    rw [lz4raw_encode_loop, if_pos (by decide), chunk_eq, if_neg (by decide), if_neg (by decide)]
    dsimp only
    rw [lz4raw_encode_loop, if_neg (by decide)]
    have he : engineCall (sampleEncoder 5) ⟨0, 0, 5, 100, fun _ => ⟨1, 1⟩, fun _ => 0⟩ =
        ⟨3, 5, hashFillLoop LZ4_COMPRESS_HASH_ENTRIES 0 (fun _ => ⟨1, 1⟩), fun _ => 0⟩ := rfl
    have hs : chunkSrcUsed (sampleEncoder 5) ⟨0, 0, 5, 100, fun _ => ⟨1, 1⟩, fun _ => 0⟩ = 5 := by
      decide
    have hd : chunkDstUsed (sampleEncoder 5) ⟨0, 0, 5, 100, fun _ => ⟨1, 1⟩, fun _ => 0⟩ = 3 := by
      decide
    have p1 : ptrDiff 5 5 = 0 := by decide
    have p2 : ptrDiff 100 3 = 97 := by decide
    have p3 : ptrDiff 3 0 = 3 := by decide
    rw [he, hs, hd, p1, p2]
    dsimp only
    rw [p3]
  ⟨h, ((encode_buffer_total (sampleEncoder 5) 2 (fun _ => 0) 0 100 0 5 (fun _ => ⟨1, 1⟩)).1
    3 _ h).2.1⟩

/-- Claim C10: input too large.  For every `int` value `inputSize` that is
negative or above `LZ4_MAX_INPUT_SIZE`, `LZ4_compress_generic` returns 0 and
leaves the destination and the table as they were, and so does
`LZ4P_compress_default`; the engine also returns 0 without a write when it is
called with `byU16` and `inputSize >= 64 KB + 11`, and
`LZ4P_compress_fast_extState` calls the engine with `byU32` for such a
size. -/
theorem input_too_large (table : Table) (S : List Byte) (dest : Mem)
    (inputSize maxOutputSize acceleration : Int) (lim : limitedOutput_directive)
    (tt : tableType_t) (acc : Nat) (wrkmem : LZ4_stream_t_internal)
    (hint : -2 ^ 31 ≤ inputSize ∧ inputSize < 2 ^ 31) :
    (inputSize < 0 ∨ inputSize > (LZ4_MAX_INPUT_SIZE : Int) →
      LZ4_compress_generic table S dest inputSize maxOutputSize lim tt acc
        = some ⟨0, dest, table⟩ ∧
      LZ4P_compress_default S dest inputSize maxOutputSize (some wrkmem)
        = some ⟨0, dest, fun _ => 0⟩) ∧
    (inputSize ≥ 64 * 1024 + 11 →
      LZ4_compress_generic table S dest inputSize maxOutputSize lim byU16 acc
        = some ⟨0, dest, table⟩ ∧
      LZ4P_compress_fast_extState (some wrkmem) S dest inputSize maxOutputSize acceleration =
        LZ4_compress_generic (fun _ => 0) S dest inputSize
          (if maxOutputSize ≥ LZ4_COMPRESSBOUND inputSize then 0 else maxOutputSize)
          (if maxOutputSize ≥ LZ4_COMPRESSBOUND inputSize then noLimit else limitedOutput)
          byU32 (if acceleration < 1 then LZ4_ACCELERATION_DEFAULT else acceleration).toNat) := by
  have hgen : ∀ (t : Table) (m : Int) (l : limitedOutput_directive) (ty : tableType_t) (a : Nat),
      inputSize < 0 ∨ inputSize > (LZ4_MAX_INPUT_SIZE : Int) →
      LZ4_compress_generic t S dest inputSize m l ty a = some ⟨0, dest, t⟩ := by
    intro t m l ty a h
    unfold LZ4_compress_generic
    rw [if_pos (by simp only [LZ4_MAX_INPUT_SIZE] at h ⊢; omega)]
  refine ⟨fun h => ⟨hgen _ _ _ _ _ h, ?_⟩, fun h => ⟨?_, ?_⟩⟩
  · rw [default_eq]
    exact hgen _ _ _ _ _ h
  · unfold LZ4_compress_generic
    split
    · rfl
    · rw [if_pos ⟨rfl, by simp only [LZ4_64Klimit, KB, MFLIMIT, WILDCOPYLENGTH, MINMATCH]; omega⟩]
  · have h64 : ¬ (inputSize < (LZ4_64Klimit : Int)) := by
      simp only [LZ4_64Klimit, KB, MFLIMIT, WILDCOPYLENGTH, MINMATCH]; omega
    rw [extState_eq, if_neg h64]

theorem input_too_large_witness :
    ((-2 : Int) ^ 31 ≤ 0x7E000001 ∧ (0x7E000001 : Int) < 2 ^ 31) ∧
    ((0x7E000001 : Int) < 0 ∨ (0x7E000001 : Int) > (LZ4_MAX_INPUT_SIZE : Int)) ∧
    ((0x7E000001 : Int) ≥ 64 * 1024 + 11) ∧
    (LZ4_compress_generic (fun _ => 0) twentyA (fun _ => 0) 0x7E000001 100 limitedOutput byU32 1
        = some ⟨0, fun _ => 0, fun _ => 0⟩ ∧
      LZ4P_compress_default twentyA (fun _ => 0) 0x7E000001 100 (some usedWorkspace)
        = some ⟨0, fun _ => 0, fun _ => 0⟩) ∧
    (LZ4_compress_generic (fun _ => 0) twentyA (fun _ => 0) 0x7E000001 100 limitedOutput byU16 1
        = some ⟨0, fun _ => 0, fun _ => 0⟩ ∧
      LZ4P_compress_fast_extState (some usedWorkspace) twentyA (fun _ => 0) 0x7E000001 100 1 =
        LZ4_compress_generic (fun _ => 0) twentyA (fun _ => 0) 0x7E000001
          (if (100 : Int) ≥ LZ4_COMPRESSBOUND 0x7E000001 then 0 else 100)
          (if (100 : Int) ≥ LZ4_COMPRESSBOUND 0x7E000001 then noLimit else limitedOutput)
          byU32 (if (1 : Int) < 1 then LZ4_ACCELERATION_DEFAULT else 1).toNat) :=
  ⟨by decide, by decide, by decide,
    (input_too_large (fun _ => 0) twentyA (fun _ => 0) 0x7E000001 100 1 limitedOutput byU32 1
      usedWorkspace (by decide)).1 (by decide),
    (input_too_large (fun _ => 0) twentyA (fun _ => 0) 0x7E000001 100 1 limitedOutput byU32 1
      usedWorkspace (by decide)).2 (by decide)⟩

/-- Claim C11: decoder safety, for the decoder `LZ4P_decompress_safe` modelled
from section 4.5 of the spec (its definition is not among the sources) and the
glue function `__lz4_decompress_crypto` of `lz4p.c`.  Take any token stream
made of well-formed sequences that fit the destination, followed by a corrupt
token: one that encodes the offset 0, a literal run that passes the end of the
source or of the destination capacity, a match that passes the destination
capacity, or a match length whose continuation bytes pass the end of the
source.  Then `LZ4P_decompress_safe` returns a negative value,
`__lz4_decompress_crypto` returns `-EINVAL` and leaves `*dlen` as it was, and
no byte at or beyond index `maxDecompressedSize` of the destination is
changed; the last holds for every call of the decoder, whatever the stream
and the sizes. -/
theorem decoder_safety (cap : Nat) (ss : List Seq) (bad : List Byte) (dest : Mem)
    (h1 : SeqsFit cap [] ss) (h2 : BadToken cap (expandSeqs [] ss) bad)
    (hs : (encSeqs ss ++ bad).length < 2 ^ 31) (hc : cap < 2 ^ 31) :
    (LZ4P_decompress_safe (encSeqs ss ++ bad) dest (encSeqs ss ++ bad).length cap).1 < 0 ∧
    (__lz4_decompress_crypto (encSeqs ss ++ bad) (encSeqs ss ++ bad).length dest cap).1
      = -EINVAL ∧
    (__lz4_decompress_crypto (encSeqs ss ++ bad) (encSeqs ss ++ bad).length dest cap).2.1 = cap ∧
    (∀ i, cap ≤ i →
      (LZ4P_decompress_safe (encSeqs ss ++ bad) dest (encSeqs ss ++ bad).length cap).2 i
        = dest i) ∧
    (∀ i, cap ≤ i →
      (__lz4_decompress_crypto (encSeqs ss ++ bad) (encSeqs ss ++ bad).length dest cap).2.2 i
        = dest i) ∧
    (∀ (source : List Byte) (d : Mem) (compressedSize maxDecompressedSize : Int) (i : Nat),
      maxDecompressedSize ≤ (i : Int) →
      (LZ4P_decompress_safe source d compressedSize maxDecompressedSize).2 i = d i) := by
  have hneg : (LZ4P_decompress_safe (encSeqs ss ++ bad) dest (encSeqs ss ++ bad).length cap).1
      < 0 := by
    rw [(decompress_safe_eq _ dest _ cap).1, List.take_length,
      corrupt_stream_fails cap ss bad h1 h2]
    decide
  have hfr : ∀ i, cap ≤ i →
      (LZ4P_decompress_safe (encSeqs ss ++ bad) dest (encSeqs ss ++ bad).length cap).2 i
        = dest i :=
    fun i hi => decompress_safe_frame _ _ _ _ i (by omega)
  have hcr : __lz4_decompress_crypto (encSeqs ss ++ bad) (encSeqs ss ++ bad).length dest cap =
      (-EINVAL, cap,
        (LZ4P_decompress_safe (encSeqs ss ++ bad) dest (encSeqs ss ++ bad).length cap).2) := by
    unfold __lz4_decompress_crypto
    rw [asInt_small _ hs, asInt_small _ hc]
    dsimp only
    rw [if_pos hneg]
  rw [hcr]
  exact ⟨hneg, rfl, rfl, hfr, hfr, fun source d cs mds i hi =>
    decompress_safe_frame source d cs mds i hi⟩

theorem decoder_safety_witness :
    SeqsFit 20 [] [⟨[0x61], 1, 10⟩] ∧
    BadToken 20 (expandSeqs [] [⟨[0x61], 1, 10⟩]) (encLiterals [0x62] 0 ++ (0 :: 0 :: [])) ∧
    (encSeqs [⟨[0x61], 1, 10⟩] ++ (encLiterals [0x62] 0 ++ (0 :: 0 :: []))).length < 2 ^ 31 ∧
    20 < 2 ^ 31 ∧
    (LZ4P_decompress_safe
      (encSeqs [⟨[0x61], 1, 10⟩] ++ (encLiterals [0x62] 0 ++ (0 :: 0 :: []))) (fun _ => 0)
      (encSeqs [⟨[0x61], 1, 10⟩] ++ (encLiterals [0x62] 0 ++ (0 :: 0 :: []))).length
      (20 : Nat)).1 < 0 :=
  ⟨⟨⟨by decide, by decide, by decide, by decide⟩, trivial⟩,
    BadToken.zeroOffset [0x62] 0 [], by decide, by decide,
    (decoder_safety 20 [⟨[0x61], 1, 10⟩] (encLiterals [0x62] 0 ++ (0 :: 0 :: [])) (fun _ => 0)
      ⟨⟨by decide, by decide, by decide, by decide⟩, trivial⟩
      (BadToken.zeroOffset [0x62] 0 []) (by decide) (by decide)).1⟩

/-- Claim C12: the worst-case size.  For every source `S` of at most
`LZ4_MAX_INPUT_SIZE` bytes, `LZ4_COMPRESSBOUND(inputSize)` is
`inputSize + inputSize / 255 + 16`, and the unlimited engine, which is the
path `LZ4P_compress_fast_extState` and `LZ4P_compress_default` take when
`maxOutputSize >= LZ4_COMPRESSBOUND(inputSize)`, returns a length that is at
least 1 and at most `LZ4_COMPRESSBOUND(inputSize)`: for the engine itself
(`noLimit`, on a fresh table, with the table type that fits the size and an
acceleration whose `searchMatchNb` starts at 64 or more without wrapping), for
`LZ4P_compress_fast_extState` with every acceleration up to `2^25` (values
below 1 are replaced by 1), and for `LZ4P_compress_default`. -/
theorem worst_case_size (S : List Byte) (dest : Mem) (hlen : S.length ≤ LZ4_MAX_INPUT_SIZE) :
    LZ4_COMPRESSBOUND S.length = S.length + S.length / 255 + 16 ∧
    (∀ (maxOut : Int) (tt : tableType_t) (acc : Nat),
      (tt = byU16 → S.length < LZ4_64Klimit) →
      (64 ≤ (acc <<< LZ4_SKIPTRIGGER) % 2 ^ 32 ∧
        (acc <<< LZ4_SKIPTRIGGER) % 2 ^ 32 + S.length ≤ 2 ^ 32) →
      ∃ o, LZ4_compress_generic (fun _ => 0) S dest S.length maxOut noLimit tt acc = some o ∧
        1 ≤ o.ret ∧ (o.ret : Int) ≤ LZ4_COMPRESSBOUND S.length) ∧
    (∀ (state : LZ4_stream_t_internal) (maxOutputSize acceleration : Int),
      maxOutputSize ≥ LZ4_COMPRESSBOUND S.length → acceleration ≤ 2 ^ 25 →
      ∃ o, LZ4P_compress_fast_extState (some state) S dest S.length maxOutputSize acceleration
          = some o ∧
        1 ≤ o.ret ∧ (o.ret : Int) ≤ LZ4_COMPRESSBOUND S.length) ∧
    (∀ (wrkmem : LZ4_stream_t_internal) (maxOutputSize : Int),
      maxOutputSize ≥ LZ4_COMPRESSBOUND S.length →
      ∃ o, LZ4P_compress_default S dest S.length maxOutputSize (some wrkmem) = some o ∧
        1 ≤ o.ret ∧ (o.ret : Int) ≤ LZ4_COMPRESSBOUND S.length) := by
  have hb := compressBound_eq _ hlen
  have key : ∀ (maxOut : Int) (tt : tableType_t) (acc : Nat),
      (tt = byU16 → S.length < LZ4_64Klimit) →
      (64 ≤ (acc <<< LZ4_SKIPTRIGGER) % 2 ^ 32 ∧
        (acc <<< LZ4_SKIPTRIGGER) % 2 ^ 32 + S.length ≤ 2 ^ 32) →
      ∃ o, LZ4_compress_generic (fun _ => 0) S dest S.length maxOut noLimit tt acc = some o ∧
        1 ≤ o.ret ∧ (o.ret : Int) ≤ LZ4_COMPRESSBOUND S.length := by
    intro maxOut tt acc htt hacc
    obtain ⟨o, b, h1, _, h3, h4, _⟩ := generic_noLimit S dest maxOut tt acc hlen htt hacc
    obtain ⟨b1, b2⟩ := block_bound S b h3
    refine ⟨o, h1, by omega, ?_⟩
    rw [hb, h4]
    have : ((S.length / 255 : Nat) : Int) = (S.length : Int) / 255 := by norm_cast
    omega
  refine ⟨hb, key, fun state maxOutputSize acceleration hmax hacc => ?_,
    fun wrkmem maxOutputSize hmax => ?_⟩
  · rw [extState_eq, if_pos hmax, if_pos hmax]
    apply key 0 _ _ (tableType_ok _)
    generalize ha : (if acceleration < 1 then LZ4_ACCELERATION_DEFAULT else acceleration).toNat = a
    have h1 : 1 ≤ a ∧ a ≤ 2 ^ 25 := by
      rw [← ha]
      split
      · simp [LZ4_ACCELERATION_DEFAULT]
      · omega
    have hs : a <<< LZ4_SKIPTRIGGER = a * 64 := by rw [Nat.shiftLeft_eq]; rfl
    rw [hs]
    simp only [LZ4_MAX_INPUT_SIZE] at hlen
    omega
  · rw [default_eq, if_pos hmax, if_pos hmax]
    exact key 0 _ 1 (tableType_ok _) (acc_default _ hlen)

theorem worst_case_size_witness :
    twentyA.length ≤ LZ4_MAX_INPUT_SIZE ∧
    (36 : Int) ≥ LZ4_COMPRESSBOUND twentyA.length ∧
    ∃ o, LZ4P_compress_default twentyA (fun _ => 0) twentyA.length 36 (some usedWorkspace)
        = some o ∧
      1 ≤ o.ret ∧ (o.ret : Int) ≤ LZ4_COMPRESSBOUND twentyA.length :=
  ⟨by decide, by decide,
    (worst_case_size twentyA (fun _ => 0) (by decide)).2.2.2 usedWorkspace 36 (by decide)⟩

/-- Claim C13, counterexample: inputs of 5 and of 12 bytes are not below 5,
yet `LZ4_compress_generic` goes straight to `_last_literals` for both, because
the threshold `LZ4_minLength` is `MFLIMIT + 1 = 13`: the 12 equal bytes of
`twelveA` come out as the token `C0` and 12 literals, without a match. -/
theorem min_length_counterexample :
    ¬ ((5 : Int) < 5) ∧ LZ4_minLength = 13 ∧
    LZ4_compress_generic (fun _ => 0) fiveBytes (fun _ => 0) 5 0 noLimit byU16 1 =
      some (lastLiterals ⟨fiveBytes, 5, 0, noLimit, byU16, 1⟩ 0 0 (fun _ => 0) (fun _ => 0)) ∧
    LZ4_compress_generic (fun _ => 0) twelveA (fun _ => 0) 12 0 noLimit byU16 1 =
      some (lastLiterals ⟨twelveA, 12, 0, noLimit, byU16, 1⟩ 0 0 (fun _ => 0) (fun _ => 0)) ∧
    observed (LZ4_compress_generic (fun _ => 0) fiveBytes (fun _ => 0) 5 0 noLimit byU16 1) =
      some (6, [0x50, 1, 2, 3, 4, 5]) ∧
    observed (LZ4_compress_generic (fun _ => 0) twelveA (fun _ => 0) 12 0 noLimit byU16 1) =
      some (13, 0xC0 :: twelveA) := by
  refine ⟨by decide, by decide, generic_small _ _ _ _ _ _ _ 5 (by decide),
    generic_small _ _ _ _ _ _ _ 12 (by decide), ?_, ?_⟩
  · rw [observed_generic]; decide
  · rw [observed_generic]; decide

/-- Claim C13, amended: the minimum-input threshold is
`LZ4_minLength = MFLIMIT + 1 = 13` bytes.  For every source, table, destination
and parameters, `LZ4_compress_generic` goes straight to `_last_literals`, with
`anchor` and `op` at the start and the table untouched, when
`inputSize < 13`; then, in the unlimited mode or when `inputSize + 1` bytes
fit, it returns `inputSize + 1` and the output is the token byte
`inputSize << 4` followed by the `inputSize` source bytes.  An input of 13
bytes or more (up to `LZ4_MAX_INPUT_SIZE`, and below the 64K limit for `byU16`)
enters the main loop at its first probe. -/
theorem min_length_threshold (table : Table) (S : List Byte) (dest : Mem) (maxOut : Int)
    (lim : limitedOutput_directive) (tt : tableType_t) (acc : Nat) (n : Nat) :
    LZ4_minLength = 13 ∧
    (n < LZ4_minLength →
      LZ4_compress_generic table S dest n maxOut lim tt acc =
        some (lastLiterals ⟨S, n, maxOut, lim, tt, acc⟩ 0 0 dest table)) ∧
    (n < LZ4_minLength → (lim = noLimit ∨ ((n : Int) + 1 ≤ maxOut % 2 ^ 32)) →
      observed (LZ4_compress_generic table S dest n maxOut lim tt acc) =
        some (n + 1, toByte (n <<< ML_BITS) :: slice S 0 n)) ∧
    (LZ4_minLength ≤ n → n ≤ LZ4_MAX_INPUT_SIZE → (tt = byU16 → n < LZ4_64Klimit) →
      LZ4_compress_generic table S dest n maxOut lim tt acc =
        run ⟨S, n, maxOut, lim, tt, acc⟩ (2 * n + 8) (startLabel ⟨S, n, maxOut, lim, tt, acc⟩)
          ⟨1, 0, 0, LZ4_hashPosition S 1 tt, LZ4_putPosition S 0 table tt 0, dest⟩) := by
  have h13 : LZ4_minLength = 13 := by decide
  rw [h13]
  exact ⟨rfl, fun h => generic_small _ _ _ _ _ _ _ n h,
    fun h hcap => small_observed _ _ _ _ _ _ _ n h hcap,
    fun h1 h2 h3 => generic_start _ _ _ _ _ _ _ n h1 h2 h3⟩

theorem min_length_threshold_witness :
    (12 < LZ4_minLength) ∧ (noLimit = noLimit ∨ (((12 : Nat) : Int) + 1 ≤ 0 % 2 ^ 32)) ∧
    observed (LZ4_compress_generic (fun _ => 0) twelveA (fun _ => 0) (12 : Nat) 0 noLimit byU16 1)
      = some (12 + 1, toByte (12 <<< ML_BITS) :: slice twelveA 0 12) ∧
    (LZ4_minLength ≤ 20 ∧ 20 ≤ LZ4_MAX_INPUT_SIZE ∧ (byU16 = byU16 → 20 < LZ4_64Klimit)) ∧
    LZ4_compress_generic (fun _ => 0) twentyA (fun _ => 0) (20 : Nat) 0 noLimit byU16 1 =
      run ⟨twentyA, 20, 0, noLimit, byU16, 1⟩ (2 * 20 + 8)
        (startLabel ⟨twentyA, 20, 0, noLimit, byU16, 1⟩)
        ⟨1, 0, 0, LZ4_hashPosition twentyA 1 byU16,
          LZ4_putPosition twentyA 0 (fun _ => 0) byU16 0, fun _ => 0⟩ :=
  ⟨by decide, Or.inl rfl,
    (min_length_threshold (fun _ => 0) twelveA (fun _ => 0) 0 noLimit byU16 1 12).2.2.1
      (by decide) (Or.inl rfl),
    ⟨by decide, by decide, by decide⟩,
    (min_length_threshold (fun _ => 0) twentyA (fun _ => 0) 0 noLimit byU16 1 20).2.2.2
      (by decide) (by decide) (by decide)⟩

/-- Claim C14: the literal-length encoding.  For every literal run length `L`:
below 15 there is no continuation byte; from 15 on the continuation bytes are
`(L - 15) / 255` bytes 255 followed by one byte `(L - 15) mod 255`, which is
below 255, so that 15 plus the sum of the continuation bytes is `L`.  When
"Encode Literals" does not return 0, and when "Encode Last Literals" returns a
non-zero length, the token they write has `min L 15` in its high nibble and a
clear low nibble, exactly these continuation bytes follow it, the `L`
literals follow them, and the output cursor ends behind the literals. -/
theorem literal_length_encoding (L : Nat) :
    (L < 15 → lenBytes L = []) ∧
    (15 ≤ L →
      lenBytes L = List.replicate ((L - 15) / 255) (toByte 255) ++ [toByte ((L - 15) % 255)] ∧
      (toByte 255).val = 255 ∧ (toByte ((L - 15) % 255)).val = (L - 15) % 255 ∧
      (L - 15) % 255 < 255 ∧ 15 + ((lenBytes L).map Fin.val).sum = L) ∧
    (∀ (e : Env) (ip anchor op : Nat) (dest : Mem) (token op' : Nat) (d' : Mem),
      ip - anchor = L → encodeLiterals e ip anchor op dest = some (token, op', d') →
      token = op ∧ LiteralHeader d' op L ∧ op' = op + 1 + (lenBytes L).length + L ∧
      ∀ i, i < L → d' (op + 1 + (lenBytes L).length + i) = e.source.getD (anchor + i) 0) ∧
    (∀ (e : Env) (anchor op : Nat) (dest : Mem) (table : Table),
      e.iend - anchor = L → (lastLiterals e anchor op dest table).ret ≠ 0 →
      LiteralHeader (lastLiterals e anchor op dest table).dest op L ∧
      (lastLiterals e anchor op dest table).ret = op + 1 + (lenBytes L).length + L ∧
      ∀ i, i < L → (lastLiterals e anchor op dest table).dest (op + 1 + (lenBytes L).length + i)
        = e.source.getD (anchor + i) 0) := by
  refine ⟨fun h => lenBytes_small L h, fun h => ⟨by simp [lenBytes, h], rfl, ?_, ?_,
    lenBytes_sum L h⟩, ?_, ?_⟩
  · rw [toByte_val]; omega
  · omega
  · intro e ip anchor op dest token op' d' hL h
    obtain ⟨h1, h2, h3⟩ := encodeLiterals_spec e ip anchor op dest token op' d' h
    rw [hL] at h2 h3
    obtain ⟨g1, g2⟩ := header_of_emits _ _ _ _ _ _ h3
    exact ⟨h1, g1, by rw [h2, lenBytes_length], g2⟩
  · intro e anchor op dest table hL hret
    have := lastLiterals_trace e anchor op dest table
    match hlt : lastTrace e anchor op, this with
    | none, h => exact absurd h hret
    | some b, h =>
      obtain ⟨h1, h2, h3⟩ := h
      subst h1
      dsimp only at h2 h3
      rw [hL] at h2 h3
      obtain ⟨g1, g2⟩ := header_of_emits _ _ _ _ _ _ h3
      refine ⟨g1, ?_, g2⟩
      rw [h2, encLiterals_length, slice_length, lenBytes_length]
      omega

theorem literal_length_encoding_witness :
    (15 ≤ 300) ∧
    (lenBytes 300 = List.replicate ((300 - 15) / 255) (toByte 255) ++ [toByte ((300 - 15) % 255)] ∧
      (toByte 255).val = 255 ∧ (toByte ((300 - 15) % 255)).val = (300 - 15) % 255 ∧
      (300 - 15) % 255 < 255 ∧ 15 + ((lenBytes 300).map Fin.val).sum = 300) ∧
    (3 < 15) ∧ lenBytes 3 = [] :=
  ⟨by decide, (literal_length_encoding 300).2.1 (by decide), by decide,
    (literal_length_encoding 3).1 (by decide)⟩

/-- Claim C15: the match-length encoding equals the naive varint.  A match of
length `M` is encoded by `matchCode = M - MINMATCH` (the engine advances `ip`
by `MINMATCH + matchCode`).  For every `matchCode`, with the token below the
output cursor: the writes of "Encode MatchLength", with their
`0xFFFFFFFF` stores four bytes at a time, end at the same output cursor as the
byte-by-byte loop `naiveMatchLength` and leave the same bytes below that
cursor; the cursor advances by the number of continuation bytes; below 15 the
code is added to the token and nothing else is written; from 15 on 15 is added
to the token and the bytes between the offset field and the new cursor are
`(matchCode - 15) / 255` bytes `FF` followed by one byte
`(matchCode - 15) mod 255`; and when the low nibble of the token was clear it
becomes `min matchCode 15`, the high nibble staying as it was. -/
theorem match_length_encoding (dest : Mem) (op token matchCode : Nat) (ht : token < op) :
    (encodeMatchLength dest op token matchCode).2 = (naiveMatchLength dest op token matchCode).2 ∧
    (∀ i, i < (encodeMatchLength dest op token matchCode).2 →
      (encodeMatchLength dest op token matchCode).1 i =
        (naiveMatchLength dest op token matchCode).1 i) ∧
    (encodeMatchLength dest op token matchCode).2 = op + (lenBytes matchCode).length ∧
    (∀ i, i < (lenBytes matchCode).length →
      (encodeMatchLength dest op token matchCode).1 (op + i) = (lenBytes matchCode).getD i 0) ∧
    (matchCode < 15 → lenBytes matchCode = [] ∧
      (encodeMatchLength dest op token matchCode).1 token =
        toByte ((dest token).val + matchCode)) ∧
    (15 ≤ matchCode →
      lenBytes matchCode = List.replicate ((matchCode - 15) / 255) (toByte 255)
        ++ [toByte ((matchCode - 15) % 255)] ∧
      (encodeMatchLength dest op token matchCode).1 token = toByte ((dest token).val + 15)) ∧
    ((dest token).val % 16 = 0 →
      ((encodeMatchLength dest op token matchCode).1 token).val % 16 = min matchCode 15 ∧
      ((encodeMatchLength dest op token matchCode).1 token).val / 16 = (dest token).val / 16) ∧
    (∀ (e : Env) (m t : Nat) (c : Cursor) (l1 : Label) (c1 : Cursor),
      engineStep e (.nextMatch m t) c = .next l1 c1 →
        c1.anchor = c.ip + (MINMATCH + (seqAt e m c).matchCode)) := by
  obtain ⟨s1, s2, s3, s4⟩ := encodeMatchLength_spec dest op token matchCode ht
  have hnaive : (naiveMatchLength dest op token matchCode).2 = op + lenFieldSize matchCode ∧
      (naiveMatchLength dest op token matchCode).1 token =
        toByte ((dest token).val + min matchCode 15) ∧
      (∀ i, i < op → i ≠ token → (naiveMatchLength dest op token matchCode).1 i = dest i) ∧
      (∀ i, i < (lenBytes matchCode).length →
        (naiveMatchLength dest op token matchCode).1 (op + i) = (lenBytes matchCode).getD i 0) := by
    have hdef : naiveMatchLength dest op token matchCode =
        if matchCode ≥ 15 then
          writeLength (matchCode - 15) (store dest token (toByte ((dest token).val + 15))) op
            (matchCode - 15)
        else (store dest token (toByte ((dest token).val + matchCode)), op) := rfl
    rw [hdef]
    by_cases hm : matchCode ≥ 15
    · rw [if_pos hm]
      obtain ⟨w1, w2⟩ := writeLength_spec (matchCode - 15) (matchCode - 15)
        (store dest token (toByte ((dest token).val + 15))) op (Nat.div_le_self _ _)
      have hl : lenBytes matchCode = List.replicate ((matchCode - 15) / 255) (toByte 255)
          ++ [toByte ((matchCode - 15) % 255)] := by simp [lenBytes, hm]
      rw [hl]
      refine ⟨?_, ?_, fun i hi hne => ?_, fun i hi => w2.2 i hi⟩
      · rw [w1]; simp only [lenFieldSize, if_pos hm]; omega
      · rw [w2.1 token ht, store_same, show min matchCode 15 = 15 by omega]
      · rw [w2.1 i hi, store_other _ _ _ _ hne]
    · rw [if_neg hm]
      have hl : lenBytes matchCode = [] := lenBytes_small _ (by omega)
      rw [hl]
      refine ⟨?_, ?_, fun i hi hne => ?_, fun i hi => by simp at hi⟩
      · simp only [lenFieldSize, if_neg hm]; omega
      · dsimp only; rw [store_same, show min matchCode 15 = matchCode by omega]
      · dsimp only; rw [store_other _ _ _ _ hne]
  obtain ⟨n1, n2, n3, n4⟩ := hnaive
  have hlf := lenBytes_length matchCode
  refine ⟨by rw [s1, n1], fun i hi => ?_, by rw [s1, hlf], s4, fun h => ?_, fun h => ?_,
    fun h => ?_, fun e m t c l1 c1 hs => ?_⟩
  · rw [s1] at hi
    by_cases h1 : i < op
    · by_cases h2 : i = token
      · rw [h2, s2, n2]
      · rw [s3 i h1 h2, n3 i h1 h2]
    · have e1 : i = op + (i - op) := by omega
      rw [e1, s4 _ (by rw [hlf]; omega), n4 _ (by rw [hlf]; omega)]
  · exact ⟨lenBytes_small _ h, by rw [s2, show min matchCode 15 = matchCode by omega]⟩
  · exact ⟨by simp [lenBytes, h], by rw [s2, show min matchCode 15 = 15 by omega]⟩
  · rw [s2, toByte_val]
    have h1 : min matchCode 15 ≤ 15 := Nat.min_le_right _ _
    have h2 := (dest token).isLt
    omega
  · exact (match_step e m t c l1 c1 hs).2.1

theorem match_length_encoding_witness :
    (0 < 4) ∧
    (encodeMatchLength (fun _ => 0) 4 0 2000).2 = (naiveMatchLength (fun _ => 0) 4 0 2000).2 ∧
    (∀ i, i < (encodeMatchLength (fun _ => 0) 4 0 2000).2 →
      (encodeMatchLength (fun _ => 0) 4 0 2000).1 i = (naiveMatchLength (fun _ => 0) 4 0 2000).1 i) ∧
    (encodeMatchLength (fun _ => 0) 4 0 2000).2 = 4 + (lenBytes 2000).length :=
  ⟨by decide, (match_length_encoding (fun _ => 0) 4 0 2000 (by decide)).1,
    (match_length_encoding (fun _ => 0) 4 0 2000 (by decide)).2.1,
    (match_length_encoding (fun _ => 0) 4 0 2000 (by decide)).2.2.1⟩

/-- Claim C16, the failing input: 500000 equal bytes compressed by
`LZ4P_compress_default` into a buffer of `maxOutputSize = 1963` bytes.  The
capacity is below `LZ4_COMPRESSBOUND(500000)`, so the engine runs in
`limitedOutput` mode with a `byU32` table.  The first probe finds the match at
offset 1 with `matchCode = 499990`; after the token, one literal and the
offset the output cursor is at 4, and the check of "Encode MatchLength"
reserves `(1 + LASTLITERALS) + (matchCode >> 8) = 1959` bytes, which just fit;
the match-length field takes `1 + (matchCode - 15) / 255 = 1961` bytes, so the
engine stores the byte `FF` at index 1963 and the last byte of the field, 175,
at index 1964 of a buffer whose last index is 1962, before "Encode Last
Literals" notices the overflow and returns 0. -/
theorem match_check_overflow (a : Byte) (dest : Mem) (wrkmem : LZ4_stream_t_internal) :
    (1963 : Int) < LZ4_COMPRESSBOUND 500000 ∧
    4 + ((1 + LASTLITERALS) + 499990 >>> 8) = 1963 ∧
    4 + (1 + (499990 - 15) / 255) = 1965 ∧
    ∃ o, LZ4P_compress_default (List.replicate 500000 a) dest 500000 1963 (some wrkmem)
        = some o ∧
      o.ret = 0 ∧ o.dest 1963 = toByte 255 ∧ o.dest 1964 = toByte 175 := by
  refine ⟨by decide, by decide, by decide, ?_⟩
  have hb : ¬ ((1963 : Int) ≥ LZ4_COMPRESSBOUND 500000) := by decide
  have htt : (if (500000 : Int) < (LZ4_64Klimit : Int) then byU16 else byU32) = byU32 := by
    decide
  rw [default_eq, if_neg hb, if_neg hb, htt]
  exact overflow_run (List.replicate 500000 a) dest (fun i hi => by
    rw [readByte_replicate _ _ _ (by omega), readByte_replicate _ _ _ (by omega)])

/-- Claim C17: emitted offsets are valid.  In `noDict` mode, for every source
of at most `LZ4_MAX_INPUT_SIZE` bytes, both table types (`byU16` below the 64K
limit), the limited and the unlimited mode, a fresh hash table and every
acceleration whose `searchMatchNb` starts at 64 or more without wrapping (the
default 1 among them): at every visit of `_next_match` the match lies before
`ip` at a distance `1 <= ip - match <= MAX_DISTANCE = 65535` (positions are
offsets from the start of the source, so `match` is not before it), and the
offset written, `(U16)(ip - match)`, is `ip - match` itself; accordingly every
match of the emitted block has an offset between 1 and 65535 that does not
reach before the start of the source. -/
theorem emitted_offsets_valid (S : List Byte) (maxOut : Int) (lim : limitedOutput_directive)
    (tt : tableType_t) (acc : Nat)
    (hlen : S.length ≤ LZ4_MAX_INPUT_SIZE)
    (htt : tt = byU16 → S.length < LZ4_64Klimit)
    (hacc : 64 ≤ (acc <<< LZ4_SKIPTRIGGER) % 2 ^ 32 ∧
      (acc <<< LZ4_SKIPTRIGGER) % 2 ^ 32 + S.length ≤ 2 ^ 32) :
    (∀ m t c, 13 ≤ S.length →
      Visits ⟨S, S.length, maxOut, lim, tt, acc⟩ (startLabel ⟨S, S.length, maxOut, lim, tt, acc⟩)
        (startCursor ⟨S, S.length, maxOut, lim, tt, acc⟩ (fun _ => 0)) (.nextMatch m t) c →
      m < c.ip ∧ 1 ≤ c.ip - m ∧ c.ip - m ≤ MAX_DISTANCE ∧
        (seqAt ⟨S, S.length, maxOut, lim, tt, acc⟩ m c).offset = c.ip - m) ∧
    (∀ b, engineTrace (fun _ => 0) S S.length maxOut lim tt acc = some (some b) →
      ∀ x, x ∈ matchesOf 0 b.1 → 1 ≤ x.2.1 ∧ x.2.1 ≤ MAX_DISTANCE ∧ x.2.1 ≤ x.1) := by
  constructor
  · intro m t c h13 hv
    have g : GoodEnv ⟨S, S.length, maxOut, lim, tt, acc⟩ := ⟨rfl, h13, htt, hacc⟩
    have hinv := visits_inv _ g hv (start_inv _ g _ (fun _ => rfl))
    obtain ⟨_, q2, _, _⟩ := match_at _ m t c hinv
    obtain ⟨_, h2, h3, _⟩ := hinv
    simp only [MAX_DISTANCE]
    exact ⟨h2, by omega, by omega, q2⟩
  · intro b hb x hx
    obtain ⟨r, h1, _, h3⟩ := engineTrace_good (fun _ => 0) S maxOut lim tt acc (fun _ => rfl)
      hlen htt hacc
    rw [hb] at h1
    simp only [Option.some.injEq] at h1
    obtain ⟨c1, c2, c3, _, _⟩ := covers_matches S b.1 0 b.2 (h3 b h1.symm) x hx
    simp only [MAX_DISTANCE]
    exact ⟨c1, c2, c3⟩

theorem emitted_offsets_valid_witness :
    twentyA.length ≤ LZ4_MAX_INPUT_SIZE ∧ (byU16 = byU16 → twentyA.length < LZ4_64Klimit) ∧
    (64 ≤ (1 <<< LZ4_SKIPTRIGGER) % 2 ^ 32 ∧
      (1 <<< LZ4_SKIPTRIGGER) % 2 ^ 32 + twentyA.length ≤ 2 ^ 32) ∧
    ((∀ m t c, 13 ≤ twentyA.length →
      Visits ⟨twentyA, twentyA.length, 0, noLimit, byU16, 1⟩
        (startLabel ⟨twentyA, twentyA.length, 0, noLimit, byU16, 1⟩)
        (startCursor ⟨twentyA, twentyA.length, 0, noLimit, byU16, 1⟩ (fun _ => 0))
        (.nextMatch m t) c →
      m < c.ip ∧ 1 ≤ c.ip - m ∧ c.ip - m ≤ MAX_DISTANCE ∧
        (seqAt ⟨twentyA, twentyA.length, 0, noLimit, byU16, 1⟩ m c).offset = c.ip - m) ∧
    (∀ b, engineTrace (fun _ => 0) twentyA twentyA.length 0 noLimit byU16 1 = some (some b) →
      ∀ x, x ∈ matchesOf 0 b.1 → 1 ≤ x.2.1 ∧ x.2.1 ≤ MAX_DISTANCE ∧ x.2.1 ≤ x.1)) :=
  ⟨by decide, by decide, by decide,
    emitted_offsets_valid twentyA 0 noLimit byU16 1 (by decide) (by decide) (by decide)⟩

/-- Claim C18: every emitted match is a true repetition.  In `noDict` mode,
for every source of at most `LZ4_MAX_INPUT_SIZE` bytes, both table types, both
output modes, a fresh hash table and every acceleration whose `searchMatchNb`
starts at 64 or more without wrapping: at every visit of `_next_match`, with
`p = ip`, the offset `d` written and the length `M = matchCode + MINMATCH`,
`source[p + i] = source[p - d + i]` for all `i < M`, and the same holds for
every match of the emitted block; and at no program point does the engine pass
to `_next_match` with a candidate whose four bytes differ from the four bytes
at the cursor. -/
theorem emitted_match_repeats (S : List Byte) (maxOut : Int) (lim : limitedOutput_directive)
    (tt : tableType_t) (acc : Nat)
    (hlen : S.length ≤ LZ4_MAX_INPUT_SIZE)
    (htt : tt = byU16 → S.length < LZ4_64Klimit)
    (hacc : 64 ≤ (acc <<< LZ4_SKIPTRIGGER) % 2 ^ 32 ∧
      (acc <<< LZ4_SKIPTRIGGER) % 2 ^ 32 + S.length ≤ 2 ^ 32) :
    (∀ m t c, 13 ≤ S.length →
      Visits ⟨S, S.length, maxOut, lim, tt, acc⟩ (startLabel ⟨S, S.length, maxOut, lim, tt, acc⟩)
        (startCursor ⟨S, S.length, maxOut, lim, tt, acc⟩ (fun _ => 0)) (.nextMatch m t) c →
      ∀ i, i < (seqAt ⟨S, S.length, maxOut, lim, tt, acc⟩ m c).matchCode + MINMATCH →
        readByte S (c.ip + i) =
          readByte S (c.ip - (seqAt ⟨S, S.length, maxOut, lim, tt, acc⟩ m c).offset + i)) ∧
    (∀ b, engineTrace (fun _ => 0) S S.length maxOut lim tt acc = some (some b) →
      ∀ x, x ∈ matchesOf 0 b.1 → ∀ i, i < x.2.2 →
        S.getD (x.1 + i) 0 = S.getD (x.1 - x.2.1 + i) 0) ∧
    (∀ l c m1 t1 c1,
      LZ4_read32 S (candidate ⟨S, S.length, maxOut, lim, tt, acc⟩ l c).1 ≠
        LZ4_read32 S (candidate ⟨S, S.length, maxOut, lim, tt, acc⟩ l c).2 →
      engineStep ⟨S, S.length, maxOut, lim, tt, acc⟩ l c ≠ .next (.nextMatch m1 t1) c1) := by
  refine ⟨?_, ?_, ?_⟩
  · intro m t c h13 hv i hi
    have g : GoodEnv ⟨S, S.length, maxOut, lim, tt, acc⟩ := ⟨rfl, h13, htt, hacc⟩
    have hinv := visits_inv _ g hv (start_inv _ g _ (fun _ => rfl))
    obtain ⟨_, q2, _, q4⟩ := match_at _ m t c hinv
    obtain ⟨_, h2, h3, _⟩ := hinv
    rw [q2, show c.ip - (c.ip - m) = m by omega]
    exact q4 i hi
  · intro b hb x hx
    obtain ⟨r, h1, _, h3⟩ := engineTrace_good (fun _ => 0) S maxOut lim tt acc (fun _ => rfl)
      hlen htt hacc
    rw [hb] at h1
    simp only [Option.some.injEq] at h1
    exact (covers_matches S b.1 0 b.2 (h3 b h1.symm) x hx).2.2.2.2
  · intro l c m1 t1 c1 hne hs
    cases l with
    | findMatch f st smn =>
      obtain ⟨_, _, h | h⟩ := probe_step _ f st smn c _ c1 hs
      · cases h.1
      · exact hne h.1
    | nextMatch m t =>
      obtain ⟨_, ha, h | h⟩ := match_step _ m t c _ c1 hs
      · obtain ⟨m', t', _, h2, h3, h4, _⟩ := h
        apply hne
        rw [← h3, h4, h2, ha]
        rfl
      · cases h.1

theorem emitted_match_repeats_witness :
    twentyA.length ≤ LZ4_MAX_INPUT_SIZE ∧ (byU16 = byU16 → twentyA.length < LZ4_64Klimit) ∧
    (64 ≤ (1 <<< LZ4_SKIPTRIGGER) % 2 ^ 32 ∧
      (1 <<< LZ4_SKIPTRIGGER) % 2 ^ 32 + twentyA.length ≤ 2 ^ 32) ∧
    ((∀ m t c, 13 ≤ twentyA.length →
      Visits ⟨twentyA, twentyA.length, 0, noLimit, byU16, 1⟩
        (startLabel ⟨twentyA, twentyA.length, 0, noLimit, byU16, 1⟩)
        (startCursor ⟨twentyA, twentyA.length, 0, noLimit, byU16, 1⟩ (fun _ => 0))
        (.nextMatch m t) c →
      ∀ i, i < (seqAt ⟨twentyA, twentyA.length, 0, noLimit, byU16, 1⟩ m c).matchCode + MINMATCH →
        readByte twentyA (c.ip + i) =
          readByte twentyA
            (c.ip - (seqAt ⟨twentyA, twentyA.length, 0, noLimit, byU16, 1⟩ m c).offset + i)) ∧
    (∀ b, engineTrace (fun _ => 0) twentyA twentyA.length 0 noLimit byU16 1 = some (some b) →
      ∀ x, x ∈ matchesOf 0 b.1 → ∀ i, i < x.2.2 →
        twentyA.getD (x.1 + i) 0 = twentyA.getD (x.1 - x.2.1 + i) 0) ∧
    (∀ l c m1 t1 c1,
      LZ4_read32 twentyA (candidate ⟨twentyA, twentyA.length, 0, noLimit, byU16, 1⟩ l c).1 ≠
        LZ4_read32 twentyA (candidate ⟨twentyA, twentyA.length, 0, noLimit, byU16, 1⟩ l c).2 →
      engineStep ⟨twentyA, twentyA.length, 0, noLimit, byU16, 1⟩ l c ≠
        .next (.nextMatch m1 t1) c1)) :=
  ⟨by decide, by decide, by decide,
    emitted_match_repeats twentyA 0 noLimit byU16 1 (by decide) (by decide) (by decide)⟩

/-- Claim C19, counterexample: on the 18-byte source `eighteenBytes` the engine
emits two matches, at positions 2 and 6, and the second one starts at position
`6 = iend - MFLIMIT`, which is the first of the last 12 input bytes: "Test end
of chunk" only leaves the loop when `ip > mflimit`, so a match may start
exactly at `mflimit`. -/
theorem stream_ending_counterexample :
    (engineTrace (fun _ => 0) eighteenBytes 18 0 noLimit byU16 1).map
        (Option.map fun b => matchesOf 0 b.1) = some (some [(2, 1, 4), (6, 6, 5)]) ∧
    eighteenBytes.length = 18 ∧ 18 - MFLIMIT ≤ 6 ∧ 6 < 18 := by
  decide

/-- Claim C19, amended: the stream ending.  For every source of at most
`LZ4_MAX_INPUT_SIZE` bytes, both table types, both output modes, a fresh hash
table and every acceleration whose `searchMatchNb` starts at 64 or more
without wrapping: a call of `LZ4_compress_generic` that returns a non-zero
length has produced a block that ends with a literal-only token (the token
with match code 0, the continuation bytes of the literal length and the
literals, which are the last bytes of the source, with no offset and no
match-length field behind them); every match starts at least `MFLIMIT = 12`
bytes before the end of the input (it may start exactly at `iend - 12`) and
ends at least `LASTLITERALS = 5` bytes before it; an input below 13 bytes has
no match, and the final literal run of an input of at least 13 bytes, so of
every block with a match, has at least 5 bytes. -/
theorem stream_ending (S : List Byte) (dest : Mem) (maxOut : Int) (lim : limitedOutput_directive)
    (tt : tableType_t) (acc : Nat)
    (hlen : S.length ≤ LZ4_MAX_INPUT_SIZE)
    (htt : tt = byU16 → S.length < LZ4_64Klimit)
    (hacc : 64 ≤ (acc <<< LZ4_SKIPTRIGGER) % 2 ^ 32 ∧
      (acc <<< LZ4_SKIPTRIGGER) % 2 ^ 32 + S.length ≤ 2 ^ 32) :
    ∃ o, LZ4_compress_generic (fun _ => 0) S dest S.length maxOut lim tt acc = some o ∧
      (o.ret ≠ 0 →
        ∃ b, engineTrace (fun _ => 0) S S.length maxOut lim tt acc = some (some b) ∧
          outBytes o.dest o.ret = encBlock b.1 b.2 ∧
          (∃ front, encBlock b.1 b.2 = front ++ encLiterals b.2 0) ∧
          b.2 = S.drop (S.length - b.2.length) ∧
          (∀ x, x ∈ matchesOf 0 b.1 →
            x.1 + MFLIMIT ≤ S.length ∧ x.1 + x.2.2 + LASTLITERALS ≤ S.length) ∧
          (S.length < 13 → b.1 = []) ∧
          (13 ≤ S.length → 5 ≤ b.2.length) ∧
          (b.1 ≠ [] → 5 ≤ b.2.length)) := by
  obtain ⟨r, h1, _, h3⟩ := engineTrace_good (fun _ => 0) S maxOut lim tt acc (fun _ => rfl)
    hlen htt hacc
  have href := generic_refines (fun _ => 0) S dest S.length maxOut lim tt acc
  rw [h1] at href
  match r, h1, h3, href with
  | none, _, _, href =>
    obtain ⟨x, hx, hx0⟩ := href
    exact ⟨x, hx, fun hret => absurd hx0 hret⟩
  | some b, h1, h3, href =>
    obtain ⟨x, hx, g2, g3⟩ := href
    simp only [List.nil_append] at g2 g3
    obtain ⟨e1, e2, e3⟩ := engineTrace_ends S maxOut lim tt acc hlen htt hacc b h1
    refine ⟨x, hx, fun _ => ⟨b, h1, by rw [g2]; exact g3.outBytes_eq, encBlock_split _ _,
      covers_last S b.1 0 b.2 (h3 b rfl), e3, e1, e2, fun hne => ?_⟩⟩
    by_cases h13 : S.length < 13
    · exact absurd (e1 h13) hne
    · exact e2 (by omega)

theorem stream_ending_witness :
    twentyA.length ≤ LZ4_MAX_INPUT_SIZE ∧ (byU16 = byU16 → twentyA.length < LZ4_64Klimit) ∧
    (64 ≤ (1 <<< LZ4_SKIPTRIGGER) % 2 ^ 32 ∧
      (1 <<< LZ4_SKIPTRIGGER) % 2 ^ 32 + twentyA.length ≤ 2 ^ 32) ∧
    ∃ o, LZ4_compress_generic (fun _ => 0) twentyA (fun _ => 0) twentyA.length 0 noLimit byU16 1
        = some o ∧
      (o.ret ≠ 0 →
        ∃ b, engineTrace (fun _ => 0) twentyA twentyA.length 0 noLimit byU16 1
            = some (some b) ∧
          outBytes o.dest o.ret = encBlock b.1 b.2 ∧
          (∃ front, encBlock b.1 b.2 = front ++ encLiterals b.2 0) ∧
          b.2 = twentyA.drop (twentyA.length - b.2.length) ∧
          (∀ x, x ∈ matchesOf 0 b.1 →
            x.1 + MFLIMIT ≤ twentyA.length ∧ x.1 + x.2.2 + LASTLITERALS ≤ twentyA.length) ∧
          (twentyA.length < 13 → b.1 = []) ∧
          (13 ≤ twentyA.length → 5 ≤ b.2.length) ∧
          (b.1 ≠ [] → 5 ≤ b.2.length)) :=
  ⟨by decide, by decide, by decide,
    stream_ending twentyA (fun _ => 0) 0 noLimit byU16 1 (by decide) (by decide) (by decide)⟩

/-- Claim C20, counterexample: with `acceleration = 2^26` the start value
`acceleration << LZ4_SKIPTRIGGER` of the 32-bit `searchMatchNb` is 0, so the
advance after the first probe is 0 and not `(2^26 * 64 + 1 - 1) >> 6 = 2^26`,
and it is smaller than the advance 1 that `acceleration = 1` gives; on the
source `eighteenBytes` the first probe is rejected and the probe loop goes on
with `forwardIp = 2`, `step = 0` and `searchMatchNb = 1`. -/
theorem accelerating_skip_counterexample :
    (searchSteps (2 ^ 26) 1).1 = 0 ∧ (2 ^ 26 * 64 + 1 - 1) >>> LZ4_SKIPTRIGGER = 2 ^ 26 ∧
    (searchSteps 1 1).1 = 1 ∧
    startLabel ⟨eighteenBytes, 18, 0, noLimit, byU16, 2 ^ 26⟩ = .findMatch 1 1 0 ∧
    (engineStep ⟨eighteenBytes, 18, 0, noLimit, byU16, 2 ^ 26⟩ (.findMatch 1 1 0)
      (startCursor ⟨eighteenBytes, 18, 0, noLimit, byU16, 2 ^ 26⟩ (fun _ => 0))).label =
        some (.findMatch 2 0 1) := by
  refine ⟨by decide, by decide, by decide, by decide, by decide⟩

/-- Claim C20, amended: the accelerating skip.  Every match search starts with
`step = 1` and `searchMatchNb = acceleration << LZ4_SKIPTRIGGER`, so its first
advance is 1; a rejected probe moves the forward cursor by the current `step`
and passes to the next pair of `searchSteps`; as long as
`acceleration * 64 + k - 1 < 2^32` (no wrap of the 32-bit `searchMatchNb`, as
for the default acceleration 1) the advance used after the `k`-th probe is
`(acceleration * 64 + k - 1) >> 6`, and within that range the advances do not
decrease with `k` nor with the acceleration (from 1 on); with acceleration 1
the first 65 advances are 1 and the next one is 2; and a probe gives up to
`_last_literals` exactly when the next probe position `forwardIp + step`
exceeds `mflimit = iend - 12`. -/
theorem accelerating_skip (e : Env) :
    startLabel e =
      .findMatch 1 (searchSteps e.acceleration 0).1 (searchSteps e.acceleration 0).2 ∧
    (∀ m t c f st smn c1, engineStep e (.nextMatch m t) c = .next (.findMatch f st smn) c1 →
      (st, smn) = searchSteps e.acceleration 0) ∧
    (searchSteps e.acceleration 0).1 = 1 ∧
    (∀ f st smn c f1 st1 smn1 c1 k, (st, smn) = searchSteps e.acceleration k →
      engineStep e (.findMatch f st smn) c = .next (.findMatch f1 st1 smn1) c1 →
      f1 = f + st ∧ (st1, smn1) = searchSteps e.acceleration (k + 1)) ∧
    (∀ k, 1 ≤ k → e.acceleration * 64 + k - 1 < 2 ^ 32 →
      (searchSteps e.acceleration k).1 = (e.acceleration * 64 + k - 1) >>> LZ4_SKIPTRIGGER) ∧
    (∀ a a' k k', 1 ≤ a → a ≤ a' → k ≤ k' → a' * 64 + k' - 1 < 2 ^ 32 →
      (searchSteps a k).1 ≤ (searchSteps a' k').1) ∧
    (∀ k, k ≤ 64 → (searchSteps 1 k).1 = 1) ∧ (searchSteps 1 65).1 = 2 ∧
    (∀ f st smn c, f + st > e.mflimit ↔
      engineStep e (.findMatch f st smn) c = .last c.anchor c.op) := by
  refine ⟨rfl, ?_, rfl, ?_, fun k hk h => searchSteps_fst _ k hk h, ?_, ?_, by decide, ?_⟩
  · intro m t c f st smn c1 hs
    obtain ⟨_, _, h | h⟩ := match_step e m t c _ c1 hs
    · obtain ⟨_, _, h, _⟩ := h
      cases h
    · have := h.1
      simp only [Label.findMatch.injEq] at this
      rw [this.2.1, this.2.2]
      rfl
  · intro f st smn c f1 st1 smn1 c1 k hk hs
    obtain ⟨_, _, h | h⟩ := probe_step e f st smn c _ c1 hs
    · have := h.1
      simp only [Label.findMatch.injEq] at this
      have hk2 : smn = (searchSteps e.acceleration k).2 := by rw [← hk]
      refine ⟨this.1, ?_⟩
      rw [this.2.1, this.2.2, hk2]
      rfl
    · cases h.2.1
  · intro a a' k k' ha haa hkk hw
    by_cases hk0 : k = 0
    · subst hk0
      by_cases hk0' : k' = 0
      · subst hk0'; exact Nat.le_refl _
      · rw [searchSteps_fst a' k' (by omega) hw]
        have hd : (searchSteps a 0).1 = 1 := rfl
        rw [hd, Nat.shiftRight_eq_div_pow]
        simp only [LZ4_SKIPTRIGGER]
        omega
    · rw [searchSteps_fst a k (by omega) (by omega), searchSteps_fst a' k' (by omega) hw,
        Nat.shiftRight_eq_div_pow, Nat.shiftRight_eq_div_pow]
      simp only [LZ4_SKIPTRIGGER]
      have : a * 64 ≤ a' * 64 := Nat.mul_le_mul_right _ haa
      omega
  · intro k hk
    by_cases hk0 : k = 0
    · subst hk0; rfl
    · rw [searchSteps_fst 1 k (by omega) (by omega), Nat.shiftRight_eq_div_pow]
      simp only [LZ4_SKIPTRIGGER]
      omega
  · intro f st smn c
    exact ⟨(probe_last e f st smn c).1, fun h => ((probe_last e f st smn c).2 _ _ h).1⟩

theorem accelerating_skip_witness :
    (searchSteps 1 0).1 = 1 ∧ (searchSteps 1 1).1 = (1 * 64 + 1 - 1) >>> LZ4_SKIPTRIGGER ∧
    (searchSteps 1 3).1 ≤ (searchSteps 2 200).1 :=
  ⟨(accelerating_skip ⟨twentyA, 20, 0, noLimit, byU16, 1⟩).2.2.1,
    (accelerating_skip ⟨twentyA, 20, 0, noLimit, byU16, 1⟩).2.2.2.2.1 1 (by decide) (by decide),
    (accelerating_skip ⟨twentyA, 20, 0, noLimit, byU16, 1⟩).2.2.2.2.2.1 1 2 3 200 (by decide)
      (by decide) (by decide) (by decide)⟩

/-- Claim C21: catch-up.  For every source, anchor and low limit, with
`ip >= anchor` and `match >= lowLimit` before the loop (and an iteration bound
that covers the literal run, as the bound `ip` of the engine does): after the
"Catch up" loop the offset `ip - match` is what it was, `ip >= anchor` and
`match >= lowLimit` still hold, `ip` did not move forward, every byte from
the new cursor up to the old one equals the byte at the same distance before
it, and the loop stopped because `ip == anchor`, or `match == lowLimit`, or
`source[ip-1] != source[match-1]`.  In the engine the loop runs on the
candidate the probe accepted, with `lowLimit` the start of the source, and
`_next_match` is entered with its results. -/
theorem catch_up_extends (S : List Byte) (anchor lowLimit n ip mtch : Nat)
    (ha : anchor ≤ ip) (hl : lowLimit ≤ mtch) (hn : ip - anchor ≤ n) :
    ((catchUp S anchor lowLimit n ip mtch).1 : Int) - (catchUp S anchor lowLimit n ip mtch).2
      = (ip : Int) - mtch ∧
    anchor ≤ (catchUp S anchor lowLimit n ip mtch).1 ∧
    lowLimit ≤ (catchUp S anchor lowLimit n ip mtch).2 ∧
    (catchUp S anchor lowLimit n ip mtch).1 ≤ ip ∧
    (∀ j, j < ip - (catchUp S anchor lowLimit n ip mtch).1 →
      readByte S ((catchUp S anchor lowLimit n ip mtch).1 + j) =
        readByte S ((catchUp S anchor lowLimit n ip mtch).2 + j)) ∧
    ((catchUp S anchor lowLimit n ip mtch).1 = anchor ∨
      (catchUp S anchor lowLimit n ip mtch).2 = lowLimit ∨
      readByte S ((catchUp S anchor lowLimit n ip mtch).1 - 1) ≠
        readByte S ((catchUp S anchor lowLimit n ip mtch).2 - 1)) ∧
    (∀ (e : Env) (f st smn : Nat) (c : Cursor) (m t : Nat) (c1 : Cursor),
      engineStep e (.findMatch f st smn) c = .next (.nextMatch m t) c1 →
      c1.ip = (catchUp e.source c.anchor 0 f f (candidate e (.findMatch f st smn) c).1).1 ∧
      m = (catchUp e.source c.anchor 0 f f (candidate e (.findMatch f st smn) c).1).2 ∧
      c1.anchor = c.anchor) := by
  obtain ⟨i1, i2, i3, i4, i5, i6⟩ := catchUp_full S anchor lowLimit n ip mtch ha hl hn
  refine ⟨by omega, i3, i4, i1, i5, i6, fun e f st smn c m t c1 hs => ?_⟩
  obtain ⟨_, h2, h | h⟩ := probe_step e f st smn c _ c1 hs
  · cases h.1
  · obtain ⟨_, h3, h4⟩ := h
    simp only [Label.nextMatch.injEq] at h3
    exact ⟨h4, h3.1, h2⟩

theorem catch_up_extends_witness :
    (0 ≤ 5) ∧ (0 ≤ 3) ∧ (5 - 0 ≤ 5) ∧
    ((catchUp twentyA 0 0 5 5 3).1 : Int) - (catchUp twentyA 0 0 5 5 3).2 = (5 : Int) - 3 ∧
    (catchUp twentyA 0 0 5 5 3).2 = 0 :=
  ⟨by decide, by decide, by decide,
    (catch_up_extends twentyA 0 0 5 5 3 (by decide) (by decide) (by decide)).1, by decide⟩

/-- Claim C22: hash range and width.  For every sequence, `LZ4_hash4` is
`((sequence * 2654435761) mod 2^32) >> (32 - b)` with `b = LZ4_HASHLOG + 1` in
`byU16` mode and `b = LZ4_HASHLOG` otherwise, and it only depends on the low
32 bits of the sequence; it is below `2^(LZ4_HASHLOG+1)` in `byU16` mode and
below `2^LZ4_HASHLOG` in the wide mode, where it is the narrow hash shifted
right by one bit.  The little-endian `LZ4_hash5` is below `2^b` and only
depends on the low 40 bits of the sequence.  So `LZ4_hashPosition` is a valid
index of the table in both modes. -/
theorem hash_range (sequence : Nat) (tableType : tableType_t) (src : List Byte) (p : Nat) :
    LZ4_hash4 sequence tableType =
      ((sequence * 2654435761) % 2 ^ 32) >>>
        (32 - (if tableType = byU16 then LZ4_HASHLOG + 1 else LZ4_HASHLOG)) ∧
    LZ4_hash4 sequence tableType = LZ4_hash4 (sequence % 2 ^ 32) tableType ∧
    LZ4_hash4 sequence byU16 < 2 ^ (LZ4_HASHLOG + 1) ∧
    LZ4_hash4 sequence byU32 < 2 ^ LZ4_HASHLOG ∧
    LZ4_hash4 sequence byU32 = LZ4_hash4 sequence byU16 >>> 1 ∧
    LZ4_hash5 sequence tableType <
      2 ^ (if tableType = byU16 then LZ4_HASHLOG + 1 else LZ4_HASHLOG) ∧
    LZ4_hash5 sequence tableType = LZ4_hash5 (sequence % 2 ^ 40) tableType ∧
    LZ4_hashPosition src p byU16 < 2 ^ (LZ4_HASHLOG + 1) ∧
    LZ4_hashPosition src p byU32 < 2 ^ LZ4_HASHLOG := by
  have h4 : ∀ s, LZ4_hash4 s byU16 < 2 ^ (LZ4_HASHLOG + 1) := by
    intro s
    simp only [LZ4_hash4, if_true, MINMATCH, LZ4_HASHLOG, Nat.shiftRight_eq_div_pow]
    omega
  have hne : ¬ (byU32 = byU16) := by decide
  have h5 : ∀ s, LZ4_hash5 s byU32 < 2 ^ LZ4_HASHLOG := by
    intro s
    have hd : LZ4_hash5 s byU32 =
        ((((s <<< 24) % 2 ^ 64 * 889523592379) % 2 ^ 64) >>> (64 - 12)) % 2 ^ 32 := rfl
    have hx : ((s <<< 24) % 2 ^ 64 * 889523592379) % 2 ^ 64 < 2 ^ 64 := Nat.mod_lt _ (by decide)
    rw [hd, Nat.shiftRight_eq_div_pow]
    generalize ((s <<< 24) % 2 ^ 64 * 889523592379) % 2 ^ 64 = x at hx
    simp only [LZ4_HASHLOG]
    omega
  have h5n : ∀ s, LZ4_hash5 s byU16 < 2 ^ (LZ4_HASHLOG + 1) := by
    intro s
    have hd : LZ4_hash5 s byU16 =
        ((((s <<< 24) % 2 ^ 64 * 889523592379) % 2 ^ 64) >>> (64 - 13)) % 2 ^ 32 := rfl
    have hx : ((s <<< 24) % 2 ^ 64 * 889523592379) % 2 ^ 64 < 2 ^ 64 := Nat.mod_lt _ (by decide)
    rw [hd, Nat.shiftRight_eq_div_pow]
    generalize ((s <<< 24) % 2 ^ 64 * 889523592379) % 2 ^ 64 = x at hx
    simp only [LZ4_HASHLOG]
    omega
  have hm : (sequence % 2 ^ 32 * 2654435761) % 2 ^ 32 = (sequence * 2654435761) % 2 ^ 32 :=
    Nat.mod_mul_mod
  refine ⟨?_, ?_, h4 _, ?_, ?_, ?_, ?_, ?_, ?_⟩
  · cases tableType <;> rfl
  · cases tableType
    · simp only [LZ4_hash4, if_neg hne, hm]
    · simp only [LZ4_hash4, if_true, hm]
  · simp only [LZ4_hash4, if_neg hne, MINMATCH, LZ4_HASHLOG, Nat.shiftRight_eq_div_pow]
    omega
  · simp only [LZ4_hash4, if_neg hne, if_true, MINMATCH, LZ4_HASHLOG, Nat.shiftRight_eq_div_pow]
    omega
  · cases tableType
    · rw [if_neg hne]
      exact h5 _
    · rw [if_pos rfl]
      exact h5n _
  · have e : (sequence <<< 24) % 2 ^ 64 = ((sequence % 2 ^ 40) <<< 24) % 2 ^ 64 := by
      simp only [Nat.shiftLeft_eq]
      omega
    simp only [LZ4_hash5, e]
  · have hne2 : ¬ (byU16 = byU32) := by decide
    simp only [LZ4_hashPosition, if_neg hne2]
    exact h4 _
  · simp only [LZ4_hashPosition, if_true]
    exact h5 _

/-- Claim C23: chunk loop progress and termination.  Assume the per-chunk
engine consumes at most the chunk (`src_used <= src_to_encode` in every
iteration).  Then every iteration of the loop of `lz4raw_encode_buffer`
either returns 0 or strictly decreases the remaining `src_size`: a chunk that
is not the last one and does not fail consumes more than
`0x7ffff000 - 65536` bytes, so the size drops by at least
`chunkProgress = 0x7ffff000 - 65535`, and a last chunk that does not fail
consumes all remaining bytes and leaves 0.  Every chunk handed to the engine
is at most `0x7ffff000` bytes, which the `int` argument holds.  So the loop
ends within `ceil(src_size / (0x7ffff000 - 65535))` iterations: with that
iteration budget (or more) the function returns. -/
theorem chunk_loop_terminates (encode : Encoder)
    (hused : ∀ st, chunkSrcUsed encode st ≤ srcToEncode st) :
    chunkProgress = 0x7ffff000 - 65535 ∧
    (∀ st : RawState, st.src_size > 0 →
      lz4raw_encode_chunk encode st = none ∨
      ∃ st', lz4raw_encode_chunk encode st = some st' ∧ st'.src_size < st.src_size ∧
        (srcToEncode st < st.src_size →
          chunkSrcUsed encode st > BLOCK_SIZE_2G - 65536 ∧
          st'.src_size + chunkProgress ≤ st.src_size) ∧
        (srcToEncode st = st.src_size →
          chunkSrcUsed encode st = st.src_size ∧ st'.src_size = 0)) ∧
    (∀ st : RawState, srcToEncode st ≤ 0x7ffff000 ∧
      toInt32 (srcToEncode st) = (srcToEncode st : Int)) ∧
    (∀ (dst_buffer budget : Nat) (st : RawState),
      (st.src_size + chunkProgress - 1) / chunkProgress ≤ budget →
      lz4raw_encode_loop encode dst_buffer budget st ≠ .outOfBudget) ∧
    (∀ (budget : Nat) (mem : Mem) (dst_buffer dst_size src_buffer src_size : Nat)
      (hashTable : RawTable),
      (src_size + chunkProgress - 1) / chunkProgress ≤ budget →
      (lz4raw_encode_buffer encode budget mem dst_buffer dst_size src_buffer src_size
        hashTable).ret ≠ none) := by
  have hloop : ∀ (dst_buffer budget : Nat) (st : RawState),
      (st.src_size + chunkProgress - 1) / chunkProgress ≤ budget →
      lz4raw_encode_loop encode dst_buffer budget st ≠ .outOfBudget := by
    intro dst_buffer budget st h
    apply loop_terminates encode dst_buffer hused
    simp only [chunkProgress, BLOCK_SIZE_2G] at h ⊢
    omega
  refine ⟨rfl, fun st hpos => chunk_progress encode st (hused st) hpos,
    fun st => ⟨(srcToEncode_le st).1, (srcToEncode_le st).2.2.2.2⟩, hloop, ?_⟩
  intro budget mem dst_buffer dst_size src_buffer src_size hashTable h
  have := hloop dst_buffer budget ⟨src_buffer, dst_buffer, src_size, dst_size, hashTable, mem⟩ h
  unfold lz4raw_encode_buffer
  generalize lz4raw_encode_loop encode dst_buffer budget
    ⟨src_buffer, dst_buffer, src_size, dst_size, hashTable, mem⟩ = r at this
  cases r with
  | outOfBudget => exact absurd rfl this
  | fail => simp [RawResult.ret]
  | ok bytes final => simp [RawResult.ret]

theorem chunk_loop_terminates_witness :
    (∀ st, chunkSrcUsed fullEncoder st ≤ srcToEncode st) ∧
    ((0x100000000 + chunkProgress - 1) / chunkProgress ≤ 3) ∧
    (lz4raw_encode_buffer fullEncoder 3 (fun _ => 0) 0 100 0 0x100000000 (fun _ => ⟨1, 1⟩)).ret
      ≠ none :=
  ⟨fun st => Nat.le_of_eq (fullEncoder_used st), by decide,
    (chunk_loop_terminates fullEncoder (fun st => Nat.le_of_eq (fullEncoder_used st))).2.2.2.2
      3 (fun _ => 0) 0 100 0 0x100000000 (fun _ => ⟨1, 1⟩) (by decide)⟩

/-- Claim C24, counterexample: a table whose entries are all the zero entry
does not stay so: after the fill loop of `lz4raw_encode_buffer` entry 0 (as
every entry below 1024) is `HASH_FILL`, whose offset is `0x80000000` and not
0. -/
theorem hash_fill_counterexample :
    hashFillLoop LZ4_COMPRESS_HASH_ENTRIES 0 (fun _ => ⟨0, 0⟩) 0 = ⟨0x80000000, 0⟩ ∧
    (⟨0x80000000, 0⟩ : lz4_hash_entry_t) ≠ ⟨0, 0⟩ ∧
    HASH_FILL.offset = 0x80000000 ∧ HASH_FILL.offset ≠ 0 := by
  refine ⟨?_, by decide, rfl, by decide⟩
  rw [hashFill_all, if_pos (by decide)]
  rfl

/-- Claim C24, amended: the hash table reset.  `LZ4P_resetStream` sets the
whole stream state to 0 whatever it held, and `LZ4P_compress_fast_extState`
runs the engine on that zero table.  `lz4raw_encode_buffer` hands the engine
of every chunk a table whose `LZ4_COMPRESS_HASH_ENTRIES = 1024` entries are
all `HASH_FILL`, that is `offset = 0x80000000` and `word = 0`, whatever they
held before; entries beyond the table are not touched. -/
theorem hash_table_reset (state : LZ4_stream_t_internal) (t : RawTable) :
    LZ4P_resetStream state = ⟨fun _ => 0, 0, 0, 0, 0⟩ ∧
    (∀ h, (LZ4P_resetStream state).hashTable h = 0) ∧
    (∀ (S : List Byte) (dest : Mem) (inputSize maxOut acc : Int),
      ∃ (m : Int) (lim : limitedOutput_directive) (tt : tableType_t) (a : Nat),
        LZ4P_compress_fast_extState (some state) S dest inputSize maxOut acc =
          LZ4_compress_generic (LZ4P_resetStream state).hashTable S dest inputSize m lim tt a) ∧
    LZ4_COMPRESS_HASH_ENTRIES = 1024 ∧
    HASH_FILL = ⟨0x80000000, 0⟩ ∧
    (∀ j, j < LZ4_COMPRESS_HASH_ENTRIES →
      hashFillLoop LZ4_COMPRESS_HASH_ENTRIES 0 t j = HASH_FILL) ∧
    (∀ j, LZ4_COMPRESS_HASH_ENTRIES ≤ j →
      hashFillLoop LZ4_COMPRESS_HASH_ENTRIES 0 t j = t j) ∧
    (∀ (encode : Encoder) (st : RawState),
      engineCall encode st =
        encode st.dst st.dst_size st.src st.src (toInt32 (srcToEncode st))
          (hashFillLoop LZ4_COMPRESS_HASH_ENTRIES 0 st.hashTable)
          (decide (srcToEncode st < st.src_size)) st.mem) := by
  refine ⟨rfl, fun _ => rfl, fun S dest inputSize maxOut acc => ⟨_, _, _, _, extState_eq _ _ _ _ _ _⟩,
    by decide, rfl, fun j hj => ?_, fun j hj => ?_, fun _ _ => rfl⟩
  · rw [hashFill_all, if_pos hj]
  · rw [hashFill_all, if_neg (by omega)]

theorem hash_table_reset_witness :
    (5 < LZ4_COMPRESS_HASH_ENTRIES) ∧
    hashFillLoop LZ4_COMPRESS_HASH_ENTRIES 0 (fun _ => ⟨7, 7⟩) 5 = HASH_FILL ∧
    (LZ4_COMPRESS_HASH_ENTRIES ≤ 2000) ∧
    hashFillLoop LZ4_COMPRESS_HASH_ENTRIES 0 (fun _ => ⟨7, 7⟩) 2000 = ⟨7, 7⟩ :=
  ⟨by decide, (hash_table_reset usedWorkspace (fun _ => ⟨7, 7⟩)).2.2.2.2.2.1 5 (by decide),
    by decide, (hash_table_reset usedWorkspace (fun _ => ⟨7, 7⟩)).2.2.2.2.2.2.1 2000 (by decide)⟩

/-- Claim C25: the narrow table never truncates.  Every position a pass of
the main loop stores in the hash table (`ip` in the probe loop, `ip - 2` and
`ip` after a match), like position 0 of "First Byte", is at most
`mflimit = iend - 12`.  In `byU16` mode, where the engine only runs for
`inputSize < LZ4_64Klimit = 64 KiB + 11` and returns 0 otherwise, that is at
most 65534, so the `(U16)` cast keeps the position and
`LZ4_getPositionOnHash` after `LZ4_putPositionOnHash` on the same hash returns
it; in `byU32` mode, for `inputSize <= LZ4_MAX_INPUT_SIZE`, the stored offset
is below `2^32` and is returned as it was stored.  The table the next pass
works on is the table of this pass with exactly these stores, and the table the
first pass works on is the fresh table with position 0 stored. -/
theorem narrow_table_lossless (e : Env) (l : Label) (c : Cursor) (p : Nat)
    (hp : p = 0 ∨ p ∈ storedPositions e l c) :
    p ≤ e.mflimit ∧
    (e.tableType = byU16 → e.inputSize < LZ4_64Klimit →
      p ≤ 65534 ∧ (p - 0) % 2 ^ 16 = p ∧
      ∀ h t, LZ4_getPositionOnHash h (LZ4_putPositionOnHash p h t byU16 0) byU16 0 = p) ∧
    (e.tableType = byU32 → e.inputSize ≤ LZ4_MAX_INPUT_SIZE →
      p < 2 ^ 32 ∧ (p - 0) % 2 ^ 32 = p ∧
      ∀ h t, LZ4_getPositionOnHash h (LZ4_putPositionOnHash p h t byU32 0) byU32 0 = p) ∧
    (∀ l1 c1, engineStep e l c = .next l1 c1 → c1.table = tableAfter e l c) ∧
    (∀ f st smn, l = .findMatch f st smn →
      tableAfter e l c = (storedPositions e l c).foldl
        (fun t p => LZ4_putPositionOnHash p c.forwardH t e.tableType 0) c.table) ∧
    (∀ m t, l = .nextMatch m t →
      tableAfter e l c = (storedPositions e l c).foldl
        (fun t p => LZ4_putPosition e.source p t e.tableType 0) c.table) ∧
    (startCursor e (fun _ => 0)).table = LZ4_putPosition e.source 0 (fun _ => 0) e.tableType 0 ∧
    (∀ (table : Table) (S : List Byte) (dest : Mem) (inputSize maxOut : Int)
      (lim : limitedOutput_directive) (acc : Nat), inputSize ≥ (LZ4_64Klimit : Int) →
      LZ4_compress_generic table S dest inputSize maxOut lim byU16 acc = some ⟨0, dest, table⟩) := by
  have hle : p ≤ e.mflimit := by
    rcases hp with hp | hp
    · omega
    · exact stored_le e l c p hp
  have hmfl : e.mflimit = e.inputSize - 12 := rfl
  refine ⟨hle, fun _ hn => ?_, fun _ hn => ?_, fun l1 c1 hs => table_after e l c l1 c1 hs,
    (tableAfter_stores e l c).1, (tableAfter_stores e l c).2, rfl, ?_⟩
  · simp only [LZ4_64Klimit, KB, MFLIMIT, WILDCOPYLENGTH, MINMATCH] at hn
    have h1 : p ≤ 65534 := by omega
    exact ⟨h1, by omega, fun h t => get_put p h t byU16 (fun _ => by omega) (by omega)⟩
  · simp only [LZ4_MAX_INPUT_SIZE] at hn
    have h1 : p < 2 ^ 32 := by omega
    exact ⟨h1, by omega, fun h t => get_put p h t byU32 (fun h' => by cases h') h1⟩
  · intro table S dest inputSize maxOut lim acc hn
    unfold LZ4_compress_generic
    split
    · rfl
    · rw [if_pos ⟨rfl, hn⟩]

theorem narrow_table_lossless_witness :
    (0 = 0 ∨ 0 ∈ storedPositions ⟨twentyA, 20, 0, noLimit, byU16, 1⟩ (.findMatch 1 1 64)
      (startCursor ⟨twentyA, 20, 0, noLimit, byU16, 1⟩ (fun _ => 0))) ∧
    (1 = 0 ∨ 1 ∈ storedPositions ⟨twentyA, 20, 0, noLimit, byU16, 1⟩ (.findMatch 1 1 64)
      (startCursor ⟨twentyA, 20, 0, noLimit, byU16, 1⟩ (fun _ => 0))) ∧
    1 ≤ (⟨twentyA, 20, 0, noLimit, byU16, 1⟩ : Env).mflimit :=
  ⟨Or.inl rfl, Or.inr (by decide),
    (narrow_table_lossless ⟨twentyA, 20, 0, noLimit, byU16, 1⟩ (.findMatch 1 1 64)
      (startCursor ⟨twentyA, 20, 0, noLimit, byU16, 1⟩ (fun _ => 0)) 1 (Or.inr (by decide))).1⟩

/-- Claim C26, counterexample: with `acceleration = 2^26`, which is at least 1,
the start value `acceleration << LZ4_SKIPTRIGGER` of `searchMatchNb` is 0.  On
the source `eighteenDistinct` the first probe leaves `forwardIp = 2` and
`step = 0`, and the second probe leaves `forwardIp = 2` again: that iteration
of the probe loop advances the forward cursor by 0.  The third probe then
finds the position it has just stored, and the run emits a match with offset
0. -/
theorem engine_bounds_counterexample :
    (1 ≤ 2 ^ 26) ∧
    (stepN ⟨eighteenDistinct, 18, 0, noLimit, byU16, 2 ^ 26⟩ 1
      (startLabel ⟨eighteenDistinct, 18, 0, noLimit, byU16, 2 ^ 26⟩)
      (startCursor ⟨eighteenDistinct, 18, 0, noLimit, byU16, 2 ^ 26⟩ (fun _ => 0))).map
        (fun s => s.1) = some (.findMatch 2 0 1) ∧
    (stepN ⟨eighteenDistinct, 18, 0, noLimit, byU16, 2 ^ 26⟩ 2
      (startLabel ⟨eighteenDistinct, 18, 0, noLimit, byU16, 2 ^ 26⟩)
      (startCursor ⟨eighteenDistinct, 18, 0, noLimit, byU16, 2 ^ 26⟩ (fun _ => 0))).map
        (fun s => s.1) = some (.findMatch 2 0 2) ∧
    engineTrace (fun _ => 0) eighteenDistinct 18 0 noLimit byU16 (2 ^ 26) =
      some (some ([⟨[], 0, 9⟩], [14, 15, 16, 17, 18])) := by
  decide

/-- Claim C26, amended: engine termination and cursor bounds.  For every
source of at most `LZ4_MAX_INPUT_SIZE` bytes and every acceleration whose
32-bit start value `searchMatchNb = acceleration << LZ4_SKIPTRIGGER` is at
least 64 and satisfies `searchMatchNb + inputSize <= 2^32` (every
acceleration from 1 to `2^25`, the default 1 among them),
`LZ4_compress_generic` in `noDict` mode on a fresh table returns, in both
output modes and for both table types.  At every program point the main loop
visits, `anchor <= ip <= iend`; at the head of the probe loop
`ip <= forwardIp <= iend` and `step >= 1`, so every probe advances the forward
cursor by at least 1; at `_next_match` the match lies before `ip`, the cursor
the catch-up leaves is not below `anchor`, and the pass advances `ip` by at
least 4; `anchor` never moves back; and every read for hashing (8 bytes for
`byU32`, 4 for `byU16`) and every four-byte comparison, those of "First Byte"
included, lies within the input. -/
theorem engine_terminates (S : List Byte) (acc : Nat)
    (hlen : S.length ≤ LZ4_MAX_INPUT_SIZE)
    (hacc : 64 ≤ (acc <<< LZ4_SKIPTRIGGER) % 2 ^ 32 ∧
      (acc <<< LZ4_SKIPTRIGGER) % 2 ^ 32 + S.length ≤ 2 ^ 32) :
    (∀ (dest : Mem) (maxOut : Int) (lim : limitedOutput_directive) (tt : tableType_t),
      ∃ o, LZ4_compress_generic (fun _ => 0) S dest S.length maxOut lim tt acc = some o) ∧
    (∀ (maxOut : Int) (lim : limitedOutput_directive) (tt : tableType_t) (l : Label) (c : Cursor),
      (tt = byU16 → S.length < LZ4_64Klimit) → 13 ≤ S.length →
      Visits ⟨S, S.length, maxOut, lim, tt, acc⟩ (startLabel ⟨S, S.length, maxOut, lim, tt, acc⟩)
        (startCursor ⟨S, S.length, maxOut, lim, tt, acc⟩ (fun _ => 0)) l c →
      c.anchor ≤ c.ip ∧ c.ip ≤ S.length ∧
      (∀ r, r ∈ readsAt ⟨S, S.length, maxOut, lim, tt, acc⟩ l c → r.1 + r.2 ≤ S.length) ∧
      (∀ f st smn, l = .findMatch f st smn → c.ip ≤ f ∧ f ≤ S.length ∧ 1 ≤ st) ∧
      (∀ m t, l = .nextMatch m t → m < c.ip) ∧
      (∀ l1 c1, engineStep ⟨S, S.length, maxOut, lim, tt, acc⟩ l c = .next l1 c1 →
        c1.anchor ≤ c1.ip ∧ c1.ip ≤ S.length ∧ c.anchor ≤ c1.anchor ∧
        (∀ m t, l = .nextMatch m t → c.ip + 4 ≤ c1.ip) ∧
        (∀ f st smn f1 st1 smn1, l = .findMatch f st smn → l1 = .findMatch f1 st1 smn1 →
          f + 1 ≤ f1))) ∧
    (∀ (maxOut : Int) (lim : limitedOutput_directive) (tt : tableType_t), 13 ≤ S.length →
      ∀ r, r ∈ startReads ⟨S, S.length, maxOut, lim, tt, acc⟩ → r.1 + r.2 ≤ S.length) ∧
    (∀ a n, 1 ≤ a → a ≤ 2 ^ 25 → n ≤ LZ4_MAX_INPUT_SIZE →
      64 ≤ (a <<< LZ4_SKIPTRIGGER) % 2 ^ 32 ∧ (a <<< LZ4_SKIPTRIGGER) % 2 ^ 32 + n ≤ 2 ^ 32) := by
  refine ⟨fun dest maxOut lim tt => generic_total S dest maxOut lim tt acc hlen hacc, ?_, ?_,
    fun a n h1 h2 hn => acc_range a n h1 h2 hn⟩
  · intro maxOut lim tt l c htt h13 hv
    have g : GoodEnv ⟨S, S.length, maxOut, lim, tt, acc⟩ := ⟨rfl, h13, htt, hacc⟩
    have hinv := visits_inv _ g hv (start_inv _ g _ (fun _ => rfl))
    have hml : (⟨S, S.length, maxOut, lim, tt, acc⟩ : Env).matchlimit = S.length - 5 := rfl
    have hmfl : (⟨S, S.length, maxOut, lim, tt, acc⟩ : Env).mflimit = S.length - 12 := rfl
    have hbase : c.anchor ≤ c.ip ∧ c.ip ≤ S.length ∧
        (∀ f st smn, l = .findMatch f st smn → c.ip ≤ f ∧ f ≤ S.length ∧ 1 ≤ st) ∧
        (∀ m t, l = .nextMatch m t → m < c.ip) := by
      cases l with
      | findMatch f st smn =>
        obtain ⟨⟨a1, a2, a3, a4, a5⟩, _, _, h4, _, _⟩ := hinv
        refine ⟨a1, (by omega), fun f' st' smn' he => ?_, fun m t he => (by cases he)⟩
        simp only [Label.findMatch.injEq] at he
        obtain ⟨rfl, rfl, rfl⟩ := he
        exact ⟨a2, by omega, h4⟩
      | nextMatch m t =>
        obtain ⟨⟨a1, a2, a3, a4⟩, h2, _⟩ := hinv
        refine ⟨a1, (by omega), fun f' st' smn' he => (by cases he), fun m' t' he => ?_⟩
        simp only [Label.nextMatch.injEq] at he
        obtain ⟨rfl, rfl⟩ := he
        exact h2
    refine ⟨hbase.1, hbase.2.1, reads_in_bounds _ g l c hinv, hbase.2.2.1, hbase.2.2.2,
      fun l1 c1 hs => ?_⟩
    have hinv1 := step_inv _ g l c l1 c1 hinv hs
    have hb1 : c1.anchor ≤ c1.ip ∧ c1.ip ≤ S.length := by
      cases l1 with
      | findMatch f st smn =>
        obtain ⟨⟨a1, a2, a3, a4, a5⟩, _⟩ := hinv1
        exact ⟨a1, by omega⟩
      | nextMatch m t =>
        obtain ⟨⟨a1, a2, a3, a4⟩, _⟩ := hinv1
        exact ⟨a1, by omega⟩
    cases l with
    | findMatch f st smn =>
      obtain ⟨_, ha, h | h⟩ := probe_step _ f st smn c l1 c1 hs
      · refine ⟨hb1.1, hb1.2, (by omega), fun m t he => (by cases he),
          fun f' st' smn' f1 st1 smn1 he he1 => ?_⟩
        simp only [Label.findMatch.injEq] at he
        obtain ⟨rfl, rfl, rfl⟩ := he
        rw [h.1] at he1
        simp only [Label.findMatch.injEq] at he1
        have := (hbase.2.2.1 _ _ _ rfl).2.2
        omega
      · refine ⟨hb1.1, hb1.2, (by omega), fun m t he => (by cases he),
          fun f' st' smn' f1 st1 smn1 he he1 => ?_⟩
        rw [h.2.1] at he1
        cases he1
    | nextMatch m t =>
      obtain ⟨_, ha, _⟩ := match_step _ m t c l1 c1 hs
      obtain ⟨⟨a1, _, _, _⟩, _⟩ := hinv
      simp only [MINMATCH] at ha
      refine ⟨hb1.1, hb1.2, (by omega), fun m' t' _ => (by omega),
        fun f' st' smn' f1 st1 smn1 he _ => (by cases he)⟩
  · intro maxOut lim tt h13 r hr
    have hw := hashWidth_le tt
    simp only [startReads, List.mem_cons, List.mem_singleton, List.not_mem_nil, or_false] at hr
    rcases hr with hr | hr <;> subst hr <;> dsimp only <;> omega

theorem engine_terminates_witness :
    twentyA.length ≤ LZ4_MAX_INPUT_SIZE ∧
    (64 ≤ (1 <<< LZ4_SKIPTRIGGER) % 2 ^ 32 ∧
      (1 <<< LZ4_SKIPTRIGGER) % 2 ^ 32 + twentyA.length ≤ 2 ^ 32) ∧
    (∀ (dest : Mem) (maxOut : Int) (lim : limitedOutput_directive) (tt : tableType_t),
      ∃ o, LZ4_compress_generic (fun _ => 0) twentyA dest twentyA.length maxOut lim tt 1
        = some o) :=
  ⟨by decide, by decide, (engine_terminates twentyA 1 (by decide) (by decide)).1⟩

end LZ4P
